import Mathlib

/-!
# stimfit: `src/libstfio/biosig/biosiglib.cpp`

A shallow embedding of `stfio::importBSFile` and `stfio::exportBiosigFile`,
followed by the properties proved about them.

Conventions of the embedding.

* Counters, indices and sample counts are natural numbers.  The places where
  the export stores a value in a 32-bit field (`unsigned div`, the result of
  `lcm`, `hdr->EVENT.POS[N]`) reduce modulo `2^32` explicitly, and the unsigned
  difference `SPS` of two boundaries is taken modulo `2^64`.
* Memory handed out by `malloc` / `realloc` is a list of cells; fresh cells
  hold `0`.  A store outside the allocated cells has no result (`none`).
* The integer division `hdr->SPR / hc->SPR` by zero is an outcome of its own
  (`divideByZero`), not a value.
* A sample is a value of an arbitrary type `α` (the source uses `double`);
  `htole64(*(uint64_t*)&d)` is an arbitrary function `enc : α → β`.
* `lround(Data[k][m].GetXScale()/Data.GetXScale())` is the field `xdiv` of a
  section: the rounded ratio of the section's sampling interval to the
  recording's one.
* The classes `Recording`, `Channel`, `Section` and the libbiosig functions
  are not part of the source file; what the code needs of them is modelled
  from the specification and marked as such.
* The progress dialog is advisory and is left out.
* The calibration values of a channel header are of an arbitrary type with a
  multiplication; the text that `sprintf` makes of a position in seconds is a
  function from positions to strings.
-/

set_option autoImplicit false

namespace stfio

/-! ## Data model -/

/-- One row of `hdr->EVENT`: `TYP[k]`, `POS[k]`, `DUR[k]`, `CHN[k]`. -/
structure Event where
  TYP : Nat
  POS : Nat
  DUR : Nat
  CHN : Nat
deriving DecidableEq, Repr

/-- The segment-break event type `0x7ffe`. -/
def BREAK : Nat := 0x7ffe

/-- A section: its sample sequence and the rounded ratio
`lround(GetXScale()/Data.GetXScale())` that export reads from it. -/
structure Section (α : Type) where
  data : List α
  xdiv : Nat
deriving DecidableEq, Repr

/-- A channel: name, y units, and its sections in order. -/
structure Channel (α : Type) where
  ChannelName : String
  YUnits : String
  SectionArray : List (Section α)
deriving DecidableEq, Repr

/-- A recording is the ordered sequence of its channels. -/
abbrev Recording (α : Type) := List (Channel α)

/-- Number of samples of a section, `Data[k][m].size()`. -/
def Section.size {α : Type} (s : Section α) : Nat := s.data.length

/-- Number of sections of a channel, `Data[k].size()`. -/
def Channel.size {α : Type} (c : Channel α) : Nat := c.SectionArray.length

/-! ## Import: the segment index list (legacy branch, lines 301-327) -/

/-- The locals of the boundary loop: `LenIndexList`, the cells of
`SegIndexList`, `nsections` and `MaxSectionLength`. -/
structure SegState where
  LenIndexList : Nat
  SegIndexList : List Nat
  nsections : Nat
  MaxSectionLength : Nat
deriving DecidableEq, Repr

/-- Lines 302-307: `LenIndexList = 256`, lowered to `numberOfEvents + 2` when
there are fewer than 256 events; `malloc`; `SegIndexList[0] = 0`. -/
def segInit (numberOfEvents : Nat) : SegState :=
  let len := if 256 > numberOfEvents then numberOfEvents + 2 else 256
  { LenIndexList := len
    SegIndexList := (List.replicate len 0).set 0 0
    nsections := 0
    MaxSectionLength := 0 }

/-- Lines 309-313: when `LenIndexList <= nsections+2` the capacity is doubled
and the list is reallocated (the old cells are kept). -/
def segGrow (st : SegState) : SegState :=
  if st.LenIndexList ≤ st.nsections + 2 then
    { st with
      LenIndexList := st.LenIndexList * 2
      SegIndexList := st.SegIndexList ++
        List.replicate (st.LenIndexList * 2 - st.SegIndexList.length) 0 }
  else st

/-- Lines 321-326: `SegIndexList[++nsections] = v`, then `SPS` (an unsigned
difference) and the running maximum.  No result when the store is outside the
allocated cells. -/
def segPush (st : SegState) (v : Nat) : Option SegState :=
  let n := st.nsections + 1
  if n < st.SegIndexList.length then
    let cells := st.SegIndexList.set n v
    let SPS := (cells.getD n 0 + 2 ^ 64 - cells.getD (n - 1) 0) % 2 ^ 64
    some { st with
      SegIndexList := cells
      nsections := n
      MaxSectionLength := if st.MaxSectionLength < SPS then SPS else st.MaxSectionLength }
  else none

/-- The loop of lines 308-327 over `k = 0 .. numberOfEvents`: the events still
to be visited are the list; the empty list is the last pass `k >= EVENT.N`,
which stores `NRec*SPR`. -/
def segLoop (total : Nat) : List Event → SegState → Option SegState
  | [], st => segPush (segGrow st) total
  | e :: es, st =>
    if e.TYP = BREAK then
      (segPush (segGrow st) e.POS).bind (segLoop total es)
    else segLoop total es (segGrow st)

/-- The boundary list after the loop: cells `0 .. nsections` of
`SegIndexList`, together with `nsections`. -/
def segIndexList (events : List Event) (total : Nat) : Option (List Nat × Nat) :=
  (segLoop total events (segInit events.length)).map
    fun st => (st.SegIndexList.take (st.nsections + 1), st.nsections)

/-! ## Import: the segment index list (libbiosig2 branch, lines 98-123) -/

/-- A store `a[i] = v` into allocated cells; no result outside them. -/
def store (a : List Nat) (i v : Nat) : Option (List Nat) :=
  if i < a.length then some (a.set i v) else none

/-- The loop of lines 105-123: every break marker is stored at `++n`. -/
def segLoop2 : List Event → Nat → List Nat → Option (List Nat)
  | [], _, a => some a
  | e :: es, n, a =>
    if e.TYP = BREAK then (store a (n + 1) e.POS).bind (segLoop2 es (n + 1))
    else segLoop2 es n a

/-- Lines 100-123: `nsections` comes from the library
(`biosig_get_number_of_segments`), the list has `nsections+1` cells, cell `0`
is `0`, cell `nsections` is the number of samples, then the marker loop. -/
def segIndexList2 (nsections : Nat) (events : List Event) (total : Nat) :
    Option (List Nat × Nat) :=
  ((store (List.replicate (nsections + 1) 0) 0 0).bind
    fun a => (store a nsections total).bind
      fun a => segLoop2 events 0 a).map fun a => (a, nsections)

/-- The positions of the break markers of an event table, in table order. -/
def breakPositions (events : List Event) : List Nat :=
  (events.filter fun e => e.TYP = BREAK).map Event.POS

/-! ## Import: header, host model and errors -/

/-- The fields of `hdr->CHANNEL[k]` that the channel loop reads. -/
structure CHANNEL_TYPE where
  OnOff : Nat
  Label : String
  PhysDimCode : Nat
deriving DecidableEq, Repr

/-- What `sopen` hands back: whether `hdr->TYPE==ABF`, the error number
`hdr->AS.B4C_ERRNUM` (what `serror2` tests), the channel headers
(`hdr->NS` of them), the event table, `hdr->NRec`, `hdr->SPR`, and the block
`hdr->data.block` that `sread` fills, addressed by sample index. -/
structure HDRTYPE (α : Type) where
  isABF : Bool
  B4C_ERRNUM : Nat
  CHANNEL : List CHANNEL_TYPE
  EVENT : List Event
  NRec : Nat
  SPR : Nat
  data : Nat → α

/-- The ways `importBSFile` can throw.  `sectionAlloc` is the exception of
`Section TempSection(SPS, "")` when the unsigned difference `SPS` has wrapped;
`indexOverrun` stands for a store outside `SegIndexList`. -/
inductive ImportError where
  | headerEmpty
  | fallback
  | readerError
  | insertSection
  | insertChannel
  | sectionAlloc
  | indexOverrun
deriving DecidableEq, Repr

/-- The outcome of a call: the exception, if any, and the state of the
`Recording &ReturnData` argument when control leaves the function. -/
structure ImportResult (α : Type) where
  error : Option ImportError
  ReturnData : Recording α

/-- The two member functions of the host data model that can throw inside the
`try` blocks of the import. -/
structure Host (α : Type) where
  InsertSection : Channel α → Section α → Nat → Option (Channel α)
  InsertChannel : Recording α → Channel α → Nat → Option (Recording α)

/-- Modelled from the spec: `Channel::InsertSection` is declared in `stfio.h`,
which is not part of the source at hand.  "Sections are inserted into their
owning Channel at index s; insertion failure (e.g. capacity mismatch) aborts
the entire import". -/
def Channel.InsertSection {α : Type} (ch : Channel α) (sec : Section α) (pos : Nat) :
    Option (Channel α) :=
  if pos < ch.SectionArray.length then
    some { ch with SectionArray := ch.SectionArray.set pos sec }
  else none

/-- Modelled from the spec: `Recording::InsertChannel` is declared in
`stfio.h`, which is not part of the source at hand.  The channel is put at
index `pos` of the recording; an index outside the recording fails. -/
def Recording.InsertChannel {α : Type} (r : Recording α) (ch : Channel α) (pos : Nat) :
    Option (Recording α) :=
  if pos < r.length then some (r.set pos ch) else none

/-- The host model of the spec. -/
def stfHost (α : Type) : Host α :=
  { InsertSection := Channel.InsertSection
    InsertChannel := Recording.InsertChannel }

/-- Modelled from the spec: `Channel TempChannel(nsections)` (constructor in
`stfio.h`) is a channel of `nsections` empty sections.  An imported recording
is single-rate: every section has the recording's sampling interval, ratio 1. -/
def Channel.ofSize (α : Type) (nsections : Nat) : Channel α :=
  { ChannelName := "", YUnits := "", SectionArray := List.replicate nsections ⟨[], 1⟩ }

/-- Modelled from the spec: `Recording::resize` (in `stfio.h`) cuts the
recording to `n` channels or pads it with empty channels. -/
def Recording.resize {α : Type} (r : Recording α) (n : Nat) : Recording α :=
  r.take n ++ List.replicate (n - r.length) (Channel.ofSize α 0)

/-- Modelled from the spec: `sort_eventtable` (libbiosig) puts the event table
into ascending position order. -/
def sort_eventtable (events : List Event) : List Event :=
  events.insertionSort fun a b => a.POS ≤ b.POS

/-! ## Import: unit codes (lines 337-359), sections and channels (lines 374-430) -/

/-- The unit code after the rescale loop: only channels with `OnOff == 1` are
visited; a voltage code becomes 4274, a current code 4181. -/
def rescaleCode (hc : CHANNEL_TYPE) : CHANNEL_TYPE :=
  if hc.OnOff ≠ 1 then hc
  else if hc.PhysDimCode &&& 0xffe0 = 4256 then { hc with PhysDimCode := 4274 }
  else if hc.PhysDimCode &&& 0xffe0 = 4160 then { hc with PhysDimCode := 4181 }
  else hc

/-- `std::copy(&data[off], &data[off+len], ...)`: the samples
`data[off] .. data[off+len-1]`. -/
def copyRange {α : Type} (data : Nat → α) (off len : Nat) : List α :=
  (List.range len).map fun i => data (off + i)

/-- The section loop of lines 388-418 for the section numbers `ns` still to
do.  `NS` is the number of channels imported so far, `SPR = NRec*SPR` the
samples per channel, `Seg` the segment index list. -/
def sectionLoop {α : Type} (H : Host α) (data : Nat → α) (NS SPR : Nat) (Seg : List Nat) :
    List Nat → Channel α → Except ImportError (Channel α)
  | [], ch => .ok ch
  | ns :: rest, ch =>
    let lo := Seg.getD (ns - 1) 0
    let hi := Seg.getD ns 0
    if hi < lo then .error .sectionAlloc
    else
      let TempSection : Section α := ⟨copyRange data (NS * SPR + lo) (hi - lo), 1⟩
      match H.InsertSection ch TempSection (ns - 1) with
      | none => .error .insertSection
      | some ch' => sectionLoop H data NS SPR Seg rest ch'

/-- The channel loop of lines 375-430 for the channel headers still to do. -/
def channelLoop {α : Type} (H : Host α) (PhysDim3 : Nat → String) (data : Nat → α)
    (SPR : Nat) (Seg : List Nat) (nsections numberOfChannels : Nat) :
    List CHANNEL_TYPE → Nat → Recording α → ImportResult α
  | [], _, R => ⟨none, R⟩
  | hc :: rest, NS, R =>
    if hc.OnOff = 0 then
      channelLoop H PhysDim3 data SPR Seg nsections numberOfChannels rest NS R
    else
      let TempChannel : Channel α :=
        { Channel.ofSize α nsections with
          ChannelName := hc.Label, YUnits := PhysDim3 hc.PhysDimCode }
      match sectionLoop H data NS SPR Seg (List.range' 1 nsections) TempChannel with
      | .error .sectionAlloc => ⟨some .sectionAlloc, R⟩
      | .error e => ⟨some e, R.resize 0⟩
      | .ok ch =>
        let R1 := if R.length < numberOfChannels then R.resize numberOfChannels else R
        match H.InsertChannel R1 ch NS with
        | none => ⟨some .insertChannel, R1.resize 0⟩
        | some R2 =>
          channelLoop H PhysDim3 data SPR Seg nsections numberOfChannels rest (NS + 1) R2

/-- The legacy branch of `stfio::importBSFile` (lines 257-430), as far as the
channels of `ReturnData` are concerned.  `reader` is the result of `sopen`
(`none` for `NULL`), `BIOSIG_VERSION` selects the preprocessor branch of the
ABF test. -/
def importBSFile {α : Type} (H : Host α) (PhysDim3 : Nat → String) (BIOSIG_VERSION : Nat)
    (reader : Option (HDRTYPE α)) (ReturnData : Recording α) : ImportResult α :=
  match reader with
  | none => ⟨some .headerEmpty, ReturnData.resize 0⟩
  | some hdr =>
    if hdr.isABF ∧ (BIOSIG_VERSION < 10501 ∨ hdr.B4C_ERRNUM ≠ 0) then
      ⟨some .fallback, ReturnData.resize 0⟩
    else if hdr.B4C_ERRNUM ≠ 0 then
      ⟨some .readerError, ReturnData.resize 0⟩
    else
      match segIndexList (sort_eventtable hdr.EVENT) (hdr.NRec * hdr.SPR) with
      | none => ⟨some .indexOverrun, ReturnData⟩
      | some (Seg, nsections) =>
        let numberOfChannels := (hdr.CHANNEL.filter fun c => c.OnOff = 1).length
        channelLoop H PhysDim3 hdr.data (hdr.NRec * hdr.SPR) Seg nsections numberOfChannels
          (hdr.CHANNEL.map rescaleCode) 0 ReturnData

/-- The section that the section loop builds for channel number `NS` and
section index `s`. -/
def sectionAt {α : Type} (data : Nat → α) (NS SPR : Nat) (Seg : List Nat) (s : Nat) : Section α :=
  ⟨copyRange data (NS * SPR + Seg.getD s 0) (Seg.getD (s + 1) 0 - Seg.getD s 0), 1⟩


/-- A small header for evaluating the import: three channel headers, the
middle one switched off, two break markers and one annotation event, ten
samples per channel, `data[i] = 100 + i`. -/
def hdrExample : HDRTYPE Nat :=
  { isABF := false
    B4C_ERRNUM := 0
    CHANNEL := [⟨1, "a", 4256⟩, ⟨0, "b", 0⟩, ⟨1, "c", 4160⟩]
    EVENT := [⟨BREAK, 3, 0, 0⟩, ⟨5, 4, 0, 0⟩, ⟨BREAK, 7, 0, 0⟩]
    NRec := 10
    SPR := 1
    data := fun i => 100 + i }

/-! ## Import: the libbiosig2 branch (lines 67-205) -/

/-- Lines 129-141: every channel is visited; a voltage code is changed to
4272, a current code to 4181. -/
def rescaleCode2 (hc : CHANNEL_TYPE) : CHANNEL_TYPE :=
  if hc.PhysDimCode &&& 0xffe0 = 4256 then { hc with PhysDimCode := 4272 }
  else if hc.PhysDimCode &&& 0xffe0 = 4160 then { hc with PhysDimCode := 4181 }
  else hc

/-- The channel loop of lines 154-203: every channel header is imported. -/
def channelLoop2 {α : Type} (H : Host α) (physdim : Nat → String) (data : Nat → α)
    (SPR : Nat) (Seg : List Nat) (nsections numberOfChannels : Nat) :
    List CHANNEL_TYPE → Nat → Recording α → ImportResult α
  | [], _, R => ⟨none, R⟩
  | hc :: rest, NS, R =>
    let TempChannel : Channel α :=
      { Channel.ofSize α nsections with
        ChannelName := hc.Label, YUnits := physdim hc.PhysDimCode }
    match sectionLoop H data NS SPR Seg (List.range' 1 nsections) TempChannel with
    | .error .sectionAlloc => ⟨some .sectionAlloc, R⟩
    | .error e => ⟨some e, R.resize 0⟩
    | .ok ch =>
      let R1 := if R.length < numberOfChannels then R.resize numberOfChannels else R
      match H.InsertChannel R1 ch NS with
      | none => ⟨some .insertChannel, R1.resize 0⟩
      | some R2 =>
        channelLoop2 H physdim data SPR Seg nsections numberOfChannels rest (NS + 1) R2

/-- The libbiosig2 branch of `stfio::importBSFile` (lines 67-205), as far as
the channels of `ReturnData` are concerned.  `nsegments` is what
`biosig_get_number_of_segments` returns, `hdr.NRec * hdr.SPR` what
`biosig_get_number_of_samples` returns. -/
def importBSFile2 {α : Type} (H : Host α) (physdim : Nat → String) (nsegments : Nat)
    (reader : Option (HDRTYPE α)) (ReturnData : Recording α) : ImportResult α :=
  match reader with
  | none => ⟨some .headerEmpty, ReturnData.resize 0⟩
  | some hdr =>
    if hdr.isABF ∧ hdr.B4C_ERRNUM ≠ 0 then
      ⟨some .fallback, ReturnData.resize 0⟩
    else if hdr.B4C_ERRNUM ≠ 0 then
      ⟨some .readerError, ReturnData.resize 0⟩
    else
      match segIndexList2 nsegments (sort_eventtable hdr.EVENT) (hdr.NRec * hdr.SPR) with
      | none => ⟨some .indexOverrun, ReturnData⟩
      | some (Seg, nsections) =>
        channelLoop2 H physdim hdr.data (hdr.NRec * hdr.SPR) Seg nsections hdr.CHANNEL.length
          (hdr.CHANNEL.map rescaleCode2) 0 ReturnData

/-- The failures named by the propagation policy: no header, the fallback
trigger, a reader error, a failed section insertion, a failed channel
insertion. -/
def ImportError.isListed : ImportError → Bool
  | .headerEmpty => true
  | .fallback => true
  | .readerError => true
  | .insertSection => true
  | .insertChannel => true
  | .sectionAlloc => false
  | .indexOverrun => false

/-- A host whose section insertion always throws. -/
def failingHost (α : Type) : Host α :=
  { InsertSection := fun _ _ _ => none
    InsertChannel := Recording.InsertChannel }

/-! ## Export (legacy branch, lines 718-942) -/

/-- Modelled from the spec: `lcm` is libbiosig's least common multiple of two
`uint32_t` values, returned as `uint32_t`. -/
def lcm (A B : Nat) : Nat := Nat.lcm A B % 2 ^ 32

/-- The ways `exportBiosigFile` can stop early: the two size-mismatch
exceptions (lines 802-808 and 851-858), an integer division by zero in
`hdr->SPR / hc->SPR` (line 814), and a writer that cannot be opened. -/
inductive ExportError where
  | lengthMismatch
  | segmentMismatch
  | divideByZero
  | writerFailure
deriving DecidableEq, Repr

/-- Both exceptions that report traces of different sizes. -/
def ExportError.isSizeMismatch : ExportError → Bool
  | .lengthMismatch => true
  | .segmentMismatch => true
  | .divideByZero => false
  | .writerFailure => false

/-- The inner loop of lines 791-796 over the sections of one channel:
`hc->SPR = lcm(hc->SPR, div)` and `len += div*size`, with `unsigned div`. -/
def channelRate {α : Type} : List (Section α) → Nat × Nat → Nat × Nat
  | [], acc => acc
  | s :: rest, (hcSPR, len) =>
    let div := s.xdiv % 2 ^ 32
    channelRate rest (lcm hcSPR div, len + div * s.size)

/-- The header values of the loop of lines 759-809: `hdr->SPR`, the
`hc->SPR` of the channels visited so far, and `hdr->NRec`. -/
structure RateState where
  SPR : Nat
  hcSPR : List Nat
  NRec : Nat
deriving DecidableEq, Repr

/-- The loop of lines 759-809 for the channels still to visit; `k` is the
index of the first of them. -/
def rateLoop {α : Type} : List (Channel α) → Nat → RateState → Except ExportError RateState
  | [], _, st => .ok st
  | ch :: rest, k, st =>
    let r := channelRate ch.SectionArray (st.SPR, 0)
    let st' : RateState :=
      { SPR := lcm st.SPR r.1, hcSPR := st.hcSPR ++ [r.1], NRec := st.NRec }
    if k = 0 then rateLoop rest (k + 1) { st' with NRec := r.2 }
    else if st.NRec ≠ r.2 then .error .lengthMismatch
    else rateLoop rest (k + 1) st'

/-- The loop of lines 811-817: `hc->SPR = hdr->SPR / hc->SPR`, `hc->bi`, and
the running `hdr->AS.bpb`.  The result lists `(hc->SPR, hc->bi)` per channel
and the final `bpb`; a zero `hc->SPR` is a division by zero. -/
def blockLayout (SPR : Nat) : List Nat → Nat → Option (List (Nat × Nat) × Nat)
  | [], bpb => some ([], bpb)
  | hc :: rest, bpb =>
    if hc = 0 then none
    else
      (blockLayout SPR rest (bpb + SPR / hc * 8)).map
        fun r => ((SPR / hc, bpb) :: r.1, r.2)

/-- `Data[k][m].size() * lround(...)` for section `m` of a channel. -/
def expandedLength {α : Type} (ch : Channel α) (m : Nat) : Nat :=
  match ch.SectionArray[m]? with
  | some s => s.size * s.xdiv
  | none => 0

/-- The value of `flag` after lines 833-850: there is a channel, every
channel has as many sections as channel 0, and at every section index every
channel has the expanded length of channel 0. -/
def segmentCheck {α : Type} (Data : Recording α) : Bool :=
  match Data with
  | [] => false
  | ch0 :: _ =>
    Data.all (fun ch => ch.size == ch0.size) &&
      (List.range ch0.size).all fun m =>
        Data.all fun ch => expandedLength ch m == expandedLength ch0 m

/-- The loop of lines 864-883 over the sections of channel 0: a break marker
at `pos` when `pos > 0`, then `pos` advances by the expanded length.
`hdr->EVENT.POS` holds 32-bit values. -/
def eventLoop {α : Type} : List (Section α) → Nat → List Event
  | [], _ => []
  | s :: rest, pos =>
    (if pos > 0 then [{ TYP := BREAK, POS := pos % 2 ^ 32, DUR := 0, CHN := 0 }] else []) ++
      eventLoop rest (pos + s.size * s.xdiv)

/-- One store of line 911: the byte offset into `hdr->AS.rawdata`, the stored
value, and the channel, section and sample index it was stored for. -/
structure Store (β : Type) where
  offset : Nat
  val : β
  k : Nat
  m : Nat
  n : Nat
deriving DecidableEq, Repr

/-- Lines 909-911 for one sample: `spr = (len + n*div) / hdr->SPR` and the
stores at `hc->bi + bpb*spr + p*8` for `p < div2`. -/
def packSample {α β : Type} (enc : α → β) (SPR bpb bi div len k m n : Nat) (d : α) :
    List (Store β) :=
  (List.range (SPR / div)).map fun p =>
    { offset := bi + bpb * ((len + n * div) / SPR) + p * 8, val := enc d, k := k, m := m, n := n }

/-- The loop of lines 901-912 over the samples of one section. -/
def packSection {α β : Type} (enc : α → β) (SPR bpb bi div len k m : Nat) :
    List α → Nat → List (Store β)
  | [], _ => []
  | d :: rest, n =>
    packSample enc SPR bpb bi div len k m n d ++ packSection enc SPR bpb bi div len k m rest (n + 1)

/-- The loop of lines 896-914 over the sections of one channel. -/
def packChannel {α β : Type} (enc : α → β) (SPR bpb bi k : Nat) :
    List (Section α) → Nat → Nat → List (Store β)
  | [], _, _ => []
  | s :: rest, m, len =>
    packSection enc SPR bpb bi s.xdiv len k m s.data 0 ++
      packChannel enc SPR bpb bi k rest (m + 1) (len + s.xdiv * s.size)

/-- The loop of lines 892-915 over the channels, each with its `hc->bi`. -/
def packLoop {α β : Type} (enc : α → β) (SPR bpb : Nat) :
    List (Channel α × (Nat × Nat)) → Nat → List (Store β)
  | [], _ => []
  | (ch, (_, bi)) :: rest, k =>
    packChannel enc SPR bpb bi k ch.SectionArray 0 0 ++ packLoop enc SPR bpb rest (k + 1)

/-- What a call of `exportBiosigFile` did: the exception if any, the stores
into the pack buffer in program order, whether the writer was opened, the
arguments `(bpb, NRec)` of `ifwrite` if it was called, and the header values
`EVENT`, `SPR`, `bpb`, `NRec` and `(hc->SPR, hc->bi)` at that point. -/
structure ExportResult (β : Type) where
  error : Option ExportError
  stores : List (Store β)
  opened : Bool
  ifwrite : Option (Nat × Nat)
  EVENT : List Event
  SPR : Nat
  bpb : Nat
  NRec : Nat
  layout : List (Nat × Nat)
deriving DecidableEq, Repr

/-- A call that throws before the pack buffer is allocated. -/
def ExportResult.early (β : Type) (e : ExportError) : ExportResult β :=
  { error := some e, stores := [], opened := false, ifwrite := none,
    EVENT := [], SPR := 0, bpb := 0, NRec := 0, layout := [] }

/-- The legacy branch of `stfio::exportBiosigFile`.  `enc` is the conversion
of a sample to its 8-byte little-endian word, `writerOk` tells whether
`sopen(fName, "w", hdr)` succeeds. -/
def exportBiosigFile {α β : Type} (enc : α → β) (writerOk : Bool) (Data : Recording α) :
    ExportResult β :=
  match rateLoop Data 0 { SPR := 1, hcSPR := [], NRec := 0 } with
  | .error e => ExportResult.early β e
  | .ok st =>
    match blockLayout st.SPR st.hcSPR 0 with
    | none => ExportResult.early β .divideByZero
    | some (layout, bpb) =>
      if segmentCheck Data = false then ExportResult.early β .segmentMismatch
      else
        let EVENT := sort_eventtable
          (eventLoop (Data.head?.map Channel.SectionArray |>.getD []) 0)
        let stores := packLoop enc st.SPR bpb (Data.zip layout) 0
        { error := if writerOk then none else some .writerFailure
          stores := stores
          opened := true
          ifwrite := if writerOk then some (bpb, st.NRec) else none
          EVENT := EVENT, SPR := st.SPR, bpb := bpb, NRec := st.NRec, layout := layout }

/-- One 8-byte store seen from the buffer cell at byte offset `off`: the cell
takes the stored value when the store is at `off` and keeps its content
otherwise. -/
def storeCell {β : Type} (off : Nat) (cell : Option β) (s : Store β) : Option β :=
  if s.offset = off then some s.val else cell

/-- The content of the pack buffer cell at byte offset `off` after the given
stores, carried out in order on a buffer whose cells are not initialised. -/
def rawdataAt {β : Type} (stores : List (Store β)) (off : Nat) : Option β :=
  stores.foldl (storeCell off) none

/-- The 8-byte words of the pack buffer of `bpb * NRec` bytes, in order. -/
def rawdataWords {β : Type} (res : ExportResult β) : List (Option β) :=
  (List.range (res.bpb * res.NRec / 8)).map fun r => rawdataAt res.stores (8 * r)

/-- A channel without name and units, for examples. -/
def chan {α : Type} (secs : List (Section α)) : Channel α :=
  { ChannelName := "", YUnits := "", SectionArray := secs }

/-! ## Notions used to state the properties of the export -/

/-- Every section divisor is positive and fits the `unsigned` it is stored in. -/
def divisorsOk {α : Type} (Data : Recording α) : Prop :=
  ∀ ch ∈ Data, ∀ s ∈ ch.SectionArray, 0 < s.xdiv ∧ s.xdiv < 2 ^ 32

instance {α : Type} (Data : Recording α) : Decidable (divisorsOk Data) := by
  unfold divisorsOk
  infer_instance

/-- Total expanded sample count of a channel: the sum of size x divisor. -/
def totalExpanded {α : Type} (ch : Channel α) : Nat :=
  (ch.SectionArray.map fun s => s.size * s.xdiv).sum

/-- A recording that violates alignment: no channels, or two channels with
different numbers of sections, or with different total expanded sample
counts, or with different expanded lengths at some section index. -/
def misaligned {α : Type} (Data : Recording α) : Prop :=
  Data = [] ∨
  (∃ a ∈ Data, ∃ b ∈ Data, a.size ≠ b.size) ∨
  (∃ a ∈ Data, ∃ b ∈ Data, totalExpanded a ≠ totalExpanded b) ∨
  (∃ a ∈ Data, ∃ b ∈ Data, ∃ m, expandedLength a m ≠ expandedLength b m)

/-- The divisors of all sections of all channels, in channel and section order. -/
def allDivisors {α : Type} (Data : Recording α) : List Nat :=
  Data.flatMap fun ch => ch.SectionArray.map Section.xdiv

/-- The least common multiple of a list of numbers. -/
def lcmList (ds : List Nat) : Nat := ds.foldl Nat.lcm 1

/-- Two channels with different numbers of sections, the first one holding a
section whose x-scale ratio rounds to 0. -/
def zeroDivisorExample : Recording Nat :=
  [chan [⟨[], 0⟩], chan [⟨[], 1⟩, ⟨[], 1⟩]]

/-- Cumulative expanded sample count of sections `0 .. j-1` of a channel. -/
def cumExpanded {α : Type} (secs : List (Section α)) (j : Nat) : Nat :=
  ((secs.take j).map fun s => s.size * s.xdiv).sum

/-- A segment-break marker at position `p`: type 0x7ffe, duration 0, channel 0. -/
def breakMarker (p : Nat) : Event := { TYP := BREAK, POS := p, DUR := 0, CHN := 0 }

/-- One channel, two sections with divisors 1 and 3 (three samples and one). -/
def mixedRateExample : Recording Nat :=
  [chan [⟨[10, 11, 12], 1⟩, ⟨[20], 3⟩]]

/-- One channel whose first section is empty. -/
def emptyFirstExample : Recording Nat :=
  [chan [⟨[], 1⟩, ⟨[20, 21], 1⟩]]

/-- The header a reader gets back from the file written by a one-channel,
single-rate export: the event table, `NRec` and `SPR` of the written header,
one channel that is switched on, and as data block the 8-byte words of the
written buffer (word `i` at byte offset `8*i`). -/
def readBack {β : Type} (res : ExportResult β) : HDRTYPE (Option β) :=
  { isABF := false
    B4C_ERRNUM := 0
    CHANNEL := [⟨1, "", 0⟩]
    EVENT := res.EVENT
    NRec := res.NRec
    SPR := res.SPR
    data := fun i => rawdataAt res.stores (8 * i) }

/-- All samples of the sections of a channel, in order. -/
def flatSamples {α : Type} (secs : List (Section α)) : List α :=
  secs.flatMap Section.data

/-- One channel, two sections of divisor 1 (three samples and two). -/
def singleRateExample : Channel Nat :=
  chan [⟨[10, 11, 12], 1⟩, ⟨[20, 21], 1⟩]

/-- A one-channel flat input: five samples `100 .. 104`, one break marker at
position 3. -/
def flatExample : HDRTYPE Nat :=
  { isABF := false
    B4C_ERRNUM := 0
    CHANNEL := [⟨1, "a", 0⟩]
    EVENT := [⟨BREAK, 3, 0, 0⟩]
    NRec := 5
    SPR := 1
    data := fun i => 100 + i }

/-! ## Import: the stores into `SegIndexList` (lines 308-327) -/

/-- The stores `SegIndexList[++nsections] = ...` of the boundary loop in
program order, each as the pair of the index written and the capacity
`LenIndexList` at that moment.  The loop is the one of `segLoop`; after a
store outside the allocated cells nothing more is recorded. -/
def segStores (total : Nat) : List Event → SegState → List (Nat × Nat)
  | [], st => [((segGrow st).nsections + 1, (segGrow st).LenIndexList)]
  | e :: es, st =>
    if e.TYP = BREAK then
      ((segGrow st).nsections + 1, (segGrow st).LenIndexList) ::
        match segPush (segGrow st) e.POS with
        | some st' => segStores total es st'
        | none => []
    else segStores total es (segGrow st)

/-! ## Import: the unit rescaler with its calibration fields (lines 337-359) -/

/-- The fields of `hdr->CHANNEL[k]` that the rescale loop reads and writes.
The calibration values are of an arbitrary type `K` with a multiplication
(the source uses `double`). -/
structure CHANNEL_CAL (K : Type) where
  OnOff : Nat
  PhysDimCode : Nat
  PhysMax : K
  PhysMin : K
  Cal : K
  Off : K
deriving DecidableEq, Repr

/-- The body of the rescale loop for one channel.  `PhysDimScale` is the
library's scale factor of a unit code, `e3` and `e12` are the constants `1e3`
and `1e12`. -/
def rescaleChannel {K : Type} [Mul K] (PhysDimScale : Nat → K) (e3 e12 : K)
    (hc : CHANNEL_CAL K) : CHANNEL_CAL K :=
  if hc.OnOff ≠ 1 then hc
  else
    let scale := PhysDimScale hc.PhysDimCode
    if hc.PhysDimCode &&& 0xffe0 = 4256 then
      let scale := scale * e3
      { hc with
        PhysDimCode := 4274
        PhysMax := hc.PhysMax * scale
        PhysMin := hc.PhysMin * scale
        Cal := hc.Cal * scale
        Off := hc.Off * scale }
    else if hc.PhysDimCode &&& 0xffe0 = 4160 then
      let scale := scale * e12
      { hc with
        PhysDimCode := 4181
        PhysMax := hc.PhysMax * scale
        PhysMin := hc.PhysMin * scale
        Cal := hc.Cal * scale
        Off := hc.Off * scale }
    else hc

/-- What the legacy import does to the channels, in program order: a channel
header is rescaled, the bulk data are read (`sread`), a channel header is
materialized into the recording at a slot. -/
inductive ImportStep where
  | rescale (ch : Nat)
  | sread
  | materialize (nc : Nat) (slot : Nat)
deriving DecidableEq, Repr

/-- The rescale loop of lines 337-359: the channels with `OnOff != 1` are
skipped; `ch` is the index of the first header of the list. -/
def rescaleSteps : List CHANNEL_TYPE → Nat → List ImportStep
  | [], _ => []
  | hc :: rest, ch =>
    if hc.OnOff ≠ 1 then rescaleSteps rest (ch + 1)
    else .rescale ch :: rescaleSteps rest (ch + 1)

/-- The channel loop of lines 375-430 when no insertion fails: the channels
with `OnOff == 0` are skipped, the others are inserted at slot `NS++`. -/
def materializeSteps : List CHANNEL_TYPE → Nat → Nat → List ImportStep
  | [], _, _ => []
  | hc :: rest, nc, NS =>
    if hc.OnOff = 0 then materializeSteps rest (nc + 1) NS
    else .materialize nc NS :: materializeSteps rest (nc + 1) (NS + 1)

/-- Lines 329-332: `numberOfChannels` counts the headers with `OnOff == 1`. -/
def numberOfChannels (chans : List CHANNEL_TYPE) : Nat :=
  (chans.filter fun c => c.OnOff = 1).length

/-- The steps of the legacy import of lines 337-430 in program order: the
rescale loop, `sread` (line 365), the channel loop. -/
def importSteps (chans : List CHANNEL_TYPE) : List ImportStep :=
  rescaleSteps chans 0 ++ [.sread] ++ materializeSteps chans 0 0

/-! ## Import: the annotation text (lines 451-458 and 105-123) -/

/-- A header with a second channel whose `OnOff` is 2. -/
def onOffTwoExample : HDRTYPE Nat :=
  { hdrExample with CHANNEL := [⟨1, "a", 4256⟩, ⟨2, "b", 4256⟩] }

/-! ## Export: the libbiosig2 branch (lines 516-713) -/

/-- Line 690 for one sample.  `rawdata` is a `biosig_data_type *` and
`biosig_data_type` is libbiosig's sample type, an 8-byte `double`, so the
pointer sum `rawdata + hc->bi + bpb*spr + p*8` advances by 8 bytes per unit:
the byte offset of the store is 8 times the sum. -/
def packSample2 {α β : Type} (enc : α → β) (SPR bpb bi div len k m n : Nat) (d : α) :
    List (Store β) :=
  (List.range (SPR / div)).map fun p =>
    { offset := 8 * (bi + bpb * ((len + n * div) / SPR) + p * 8),
      val := enc d, k := k, m := m, n := n }

/-- The loop of lines 680-691 over the samples of one section. -/
def packSection2 {α β : Type} (enc : α → β) (SPR bpb bi div len k m : Nat) :
    List α → Nat → List (Store β)
  | [], _ => []
  | d :: rest, n =>
    packSample2 enc SPR bpb bi div len k m n d ++
      packSection2 enc SPR bpb bi div len k m rest (n + 1)

/-- The loop of lines 675-693 over the sections of one channel. -/
def packChannel2 {α β : Type} (enc : α → β) (SPR bpb bi k : Nat) :
    List (Section α) → Nat → Nat → List (Store β)
  | [], _, _ => []
  | s :: rest, m, len =>
    packSection2 enc SPR bpb bi s.xdiv len k m s.data 0 ++
      packChannel2 enc SPR bpb bi k rest (m + 1) (len + s.xdiv * s.size)

/-- The loop of lines 671-694 over the channels. -/
def packLoop2 {α β : Type} (enc : α → β) (SPR bpb : Nat) :
    List (Channel α × (Nat × Nat)) → Nat → List (Store β)
  | [], _ => []
  | (ch, (_, bi)) :: rest, k =>
    packChannel2 enc SPR bpb bi k ch.SectionArray 0 0 ++ packLoop2 enc SPR bpb rest (k + 1)

/-- The libbiosig2 branch of `stfio::exportBiosigFile` (lines 516-713).  The
rate loop, the layout loop, the segment check and the event loop are the
statements of the legacy branch; the pack buffer of `bpb * NRec` bytes is
addressed through a `biosig_data_type *`. -/
def exportBiosigFile2 {α β : Type} (enc : α → β) (writerOk : Bool) (Data : Recording α) :
    ExportResult β :=
  match rateLoop Data 0 { SPR := 1, hcSPR := [], NRec := 0 } with
  | .error e => ExportResult.early β e
  | .ok st =>
    match blockLayout st.SPR st.hcSPR 0 with
    | none => ExportResult.early β .divideByZero
    | some (layout, bpb) =>
      if segmentCheck Data = false then ExportResult.early β .segmentMismatch
      else
        let EVENT := sort_eventtable
          (eventLoop (Data.head?.map Channel.SectionArray |>.getD []) 0)
        let stores := packLoop2 enc st.SPR bpb (Data.zip layout) 0
        { error := if writerOk then none else some .writerFailure
          stores := stores
          opened := true
          ifwrite := if writerOk then some (bpb, st.NRec) else none
          EVENT := EVENT, SPR := st.SPR, bpb := bpb, NRec := st.NRec, layout := layout }

/-- One channel, three sections with divisors 1, 3 and 4, one sample each. -/
def threeRateExample : Recording Nat :=
  [chan [⟨[10], 1⟩, ⟨[20], 3⟩, ⟨[30], 4⟩]]

/-- Two channels, one section each: three samples with divisor 2, and two
samples with divisor 3 (both of expanded length 6). -/
def twoChannelExample : Recording Nat :=
  [chan [⟨[10, 11, 12], 2⟩], chan [⟨[20, 21], 3⟩]]

/-- One channel, one section of two samples with divisor 1. -/
def twoSampleExample : Recording Nat :=
  [chan [⟨[10, 11], 1⟩]]

/-- Two channels, two sections each, all with divisor 1. -/
def twoChannelSingleRate : Recording Nat :=
  [chan [⟨[10, 11, 12], 1⟩, ⟨[20, 21], 1⟩], chan [⟨[30, 31, 32], 1⟩, ⟨[40, 41], 1⟩]]

/-! ## Import: the rescale loop on the channel array (lines 337-359) -/

/-- One pass of the loop body on `hdr->CHANNEL + ch`: the pointer `hc`
addresses element `ch` of the array, the other elements are not touched. -/
def rescaleAt {K : Type} [Mul K] (PhysDimScale : Nat → K) (e3 e12 : K)
    (chans : List (CHANNEL_CAL K)) (ch : Nat) : List (CHANNEL_CAL K) :=
  match chans[ch]? with
  | some hc => chans.set ch (rescaleChannel PhysDimScale e3 e12 hc)
  | none => chans

/-- The loop `for (ch = 0; ch < hdr->NS; ++ch)` of line 337 on the array. -/
def rescaleArray {K : Type} [Mul K] (PhysDimScale : Nat → K) (e3 e12 : K)
    (chans : List (CHANNEL_CAL K)) : List (CHANNEL_CAL K) :=
  (List.range chans.length).foldl (rescaleAt PhysDimScale e3 e12) chans

/-- Two channels of one section each with the same expanded length
`2^32 + 2`: one sample with divisor `2^32 + 2`, two samples with divisor
`2^31 + 1`. -/
def wideDivisorExample : Recording Nat :=
  [chan [⟨[1], 4294967298⟩], chan [⟨[1, 2], 2147483649⟩]]

/-! ## Resources acquired and released by the two functions -/

/-- The heap resources of a call: the header `hdr` returned by `sopen` or
`constructHDR` (the external handle), the array `SegIndexList` of the import,
and the buffer `rawdata` of the libbiosig2 export. -/
inductive Resource where
  | handle
  | segIndexList
  | rawdata
deriving DecidableEq, Repr

/-- One allocation or one release, in program order. -/
inductive ResAction where
  | acquire (r : Resource)
  | release (r : Resource)
deriving DecidableEq, Repr

/-- The resources still held at the end of a sequence of actions. -/
def held (t : List ResAction) : List Resource :=
  t.foldl (fun h a =>
    match a with
    | .acquire r => h ++ [r]
    | .release r => h.erase r) []

/-- The allocations and releases of `stfio::importBSFile` on each exit path
(the same statements in both branches).  `sopen` returning `NULL` allocates
nothing (lines 67-71, 257-261); the fallback and reader-error exits call
`destructHDR(hdr)` (lines 76, 83, 275, 287); `SegIndexList` is allocated with
`malloc` (lines 101, 304); the two `catch (...)` blocks call `destructHDR(hdr)`
and rethrow (lines 186-190, 198-202, 413-417, 425-429); the normal path runs
`free(SegIndexList)` (lines 205, 432) and `destructHDR(hdr)` (lines 251, 489).
The exception of the `Section` constructor is thrown outside the `try`
blocks, and a store outside `SegIndexList` has no defined continuation: on
these two paths no release statement runs. -/
def importResources : Option ImportError → List ResAction
  | some .headerEmpty => []
  | some .fallback => [.acquire .handle, .release .handle]
  | some .readerError => [.acquire .handle, .release .handle]
  | some .indexOverrun => [.acquire .handle, .acquire .segIndexList]
  | some .sectionAlloc => [.acquire .handle, .acquire .segIndexList]
  | some .insertSection => [.acquire .handle, .acquire .segIndexList, .release .handle]
  | some .insertChannel => [.acquire .handle, .acquire .segIndexList, .release .handle]
  | none =>
    [.acquire .handle, .acquire .segIndexList, .release .segIndexList, .release .handle]

/-- The allocations and releases of the libbiosig2 branch of
`stfio::exportBiosigFile` on each exit path: `constructHDR` (line 517); the
two size-mismatch exits call `destructHDR(hdr)` (lines 587, 634) before
`rawdata` is allocated; `rawdata` is allocated with `malloc` (line 669); the
writer-failure exit calls `destructHDR(hdr)` and throws (lines 702-706); the
normal path runs `destructHDR(hdr)` and `free(rawdata)` (lines 712-713).  An
integer division by zero in the rate loop runs no release statement. -/
def exportResources2 : Option ExportError → List ResAction
  | some .lengthMismatch => [.acquire .handle, .release .handle]
  | some .segmentMismatch => [.acquire .handle, .release .handle]
  | some .divideByZero => [.acquire .handle]
  | some .writerFailure => [.acquire .handle, .acquire .rawdata, .release .handle]
  | none => [.acquire .handle, .acquire .rawdata, .release .handle, .release .rawdata]

/-- The allocations and releases of the legacy branch of
`stfio::exportBiosigFile` on each exit path: `constructHDR` (line 718) and
`destructHDR(hdr)` on the size-mismatch exits (lines 803, 852), on the
writer-failure exit (line 930) and on the normal path (line 938).  The pack
buffer of this branch is the header field `hdr->AS.rawdata` (line 891), a
part of the handle and not a separate allocation of the function. -/
def exportResources : Option ExportError → List ResAction
  | some .lengthMismatch => [.acquire .handle, .release .handle]
  | some .segmentMismatch => [.acquire .handle, .release .handle]
  | some .divideByZero => [.acquire .handle]
  | some .writerFailure => [.acquire .handle, .release .handle]
  | none => [.acquire .handle, .release .handle]

/-- The example header with one break marker at position 15, beyond the ten
samples of a channel: the segment index list is `[0, 15, 10]`. -/
def lateMarkerExample : HDRTYPE Nat :=
  { hdrExample with EVENT := [⟨BREAK, 15, 0, 0⟩] }

/-! ## Import: the rescale loop, then the bulk read (lines 337-366) -/

theorem take_set_last (l : List Nat) (n v : Nat) (h : n < l.length) :
    (l.set n v).take (n + 1) = l.take n ++ [v] := by
  induction l generalizing n with
  | nil => simp at h
  | cons a l ih =>
    cases n with
    | zero => simp
    | succ n =>
      simp only [List.length_cons, Nat.add_lt_add_iff_right] at h
      simp [ih n h]

theorem segGrow_nsections (st : SegState) : (segGrow st).nsections = st.nsections := by
  unfold segGrow; split <;> rfl

theorem segGrow_length (st : SegState) (h : st.SegIndexList.length = st.LenIndexList) :
    (segGrow st).SegIndexList.length = (segGrow st).LenIndexList := by
  unfold segGrow; split
  · simp [h]; omega
  · exact h

theorem segGrow_room (st : SegState) (h : st.nsections + 2 ≤ st.LenIndexList) :
    (segGrow st).nsections + 3 ≤ (segGrow st).LenIndexList := by
  unfold segGrow; split
  · simp only; omega
  · omega

theorem segGrow_take (st : SegState) (h : st.SegIndexList.length = st.LenIndexList)
    (h2 : st.nsections + 2 ≤ st.LenIndexList) :
    (segGrow st).SegIndexList.take (st.nsections + 1) = st.SegIndexList.take (st.nsections + 1) := by
  unfold segGrow; split
  · simp only
    rw [List.take_append_of_le_length (by omega)]
  · rfl

theorem segPush_spec (st : SegState) (v : Nat) (h : st.nsections + 1 < st.SegIndexList.length) :
    ∃ st', segPush st v = some st' ∧ st'.nsections = st.nsections + 1 ∧
      st'.LenIndexList = st.LenIndexList ∧
      st'.SegIndexList.length = st.SegIndexList.length ∧
      st'.SegIndexList.take (st.nsections + 2) = st.SegIndexList.take (st.nsections + 1) ++ [v] := by
  unfold segPush
  simp only [h, if_true]
  exact ⟨_, rfl, rfl, rfl, by simp, take_set_last _ _ _ h⟩

theorem breakPositions_nil : breakPositions [] = [] := rfl

theorem breakPositions_cons_break (e : Event) (es : List Event) (h : e.TYP = BREAK) :
    breakPositions (e :: es) = e.POS :: breakPositions es := by
  simp [breakPositions, h]

theorem breakPositions_cons_other (e : Event) (es : List Event) (h : e.TYP ≠ BREAK) :
    breakPositions (e :: es) = breakPositions es := by
  simp [breakPositions, h]

theorem segLoop_spec (total : Nat) (es : List Event) : ∀ st : SegState,
    st.SegIndexList.length = st.LenIndexList → st.nsections + 2 ≤ st.LenIndexList →
    ∃ st', segLoop total es st = some st' ∧
      st'.nsections = st.nsections + (breakPositions es).length + 1 ∧
      st'.SegIndexList.take (st'.nsections + 1) =
        st.SegIndexList.take (st.nsections + 1) ++ breakPositions es ++ [total] := by
  induction es with
  | nil =>
    intro st h1 h2
    have g1 := segGrow_length st h1
    have g2 := segGrow_room st h2
    have g3 := segGrow_take st h1 h2
    have g4 := segGrow_nsections st
    obtain ⟨st', e1, e2, e3, e4, e5⟩ := segPush_spec (segGrow st) total (by omega)
    refine ⟨st', e1, ?_, ?_⟩
    · simp [breakPositions, e2, g4]
    · rw [e2, g4] at *
      simp [breakPositions, e5, g3]
  | cons e es ih =>
    intro st h1 h2
    have g1 := segGrow_length st h1
    have g2 := segGrow_room st h2
    have g3 := segGrow_take st h1 h2
    have g4 := segGrow_nsections st
    by_cases hb : e.TYP = BREAK
    · obtain ⟨st1, e1, e2, e3, e4, e5⟩ := segPush_spec (segGrow st) e.POS (by omega)
      obtain ⟨st', f1, f2, f3⟩ := ih st1 (by omega) (by omega)
      refine ⟨st', ?_, ?_, ?_⟩
      · simp [segLoop, hb, e1, f1]
      · rw [f2, e2, g4, breakPositions_cons_break e es hb, List.length_cons]
        omega
      · rw [f3, e2, g4, breakPositions_cons_break e es hb]
        rw [g4] at e5
        simp [e5, g3]
    · obtain ⟨st', f1, f2, f3⟩ := ih (segGrow st) g1 (by omega)
      refine ⟨st', ?_, ?_, ?_⟩
      · simp [segLoop, hb, f1]
      · rw [f2, g4, breakPositions_cons_other e es hb]
      · rw [f3, g4, g3, breakPositions_cons_other e es hb]

theorem store_spec (a : List Nat) (i v : Nat) (h : i < a.length) :
    store a i v = some (a.set i v) := by
  simp [store, h]

theorem drop_set_before (l : List Nat) (n m v : Nat) (h : n < m) :
    (l.set n v).drop m = l.drop m := by
  induction l generalizing n m with
  | nil => simp
  | cons a l ih =>
    cases m with
    | zero => omega
    | succ m =>
      cases n with
      | zero => simp
      | succ n => simp [ih n m (by omega)]

theorem segLoop2_spec (es : List Event) : ∀ (n : Nat) (a : List Nat),
    n + (breakPositions es).length < a.length →
    ∃ a', segLoop2 es n a = some a' ∧ a'.length = a.length ∧
      a'.take (n + 1 + (breakPositions es).length) = a.take (n + 1) ++ breakPositions es ∧
      a'.drop (n + 1 + (breakPositions es).length) =
        a.drop (n + 1 + (breakPositions es).length) := by
  induction es with
  | nil =>
    intro n a _
    exact ⟨a, rfl, rfl, by simp [breakPositions_nil], by simp [breakPositions_nil]⟩
  | cons e es ih =>
    intro n a h
    by_cases hb : e.TYP = BREAK
    · rw [breakPositions_cons_break e es hb, List.length_cons] at h ⊢
      obtain ⟨a', f1, f2, f3, f4⟩ := ih (n + 1) (a.set (n + 1) e.POS) (by simp; omega)
      refine ⟨a', ?_, ?_, ?_, ?_⟩
      · simp [segLoop2, hb, store_spec a (n + 1) e.POS (by omega), f1]
      · simpa using f2
      · have e1 : n + 1 + ((breakPositions es).length + 1) =
            n + 1 + 1 + (breakPositions es).length := by omega
        rw [e1, f3, take_set_last a (n + 1) e.POS (by omega)]
        simp
      · have e1 : n + 1 + ((breakPositions es).length + 1) =
            n + 1 + 1 + (breakPositions es).length := by omega
        rw [e1, f4, drop_set_before _ _ _ _ (by omega)]
    · rw [breakPositions_cons_other e es hb] at h ⊢
      obtain ⟨a', f1, f2, f3, f4⟩ := ih n a h
      exact ⟨a', by simp [segLoop2, hb, f1], f2, f3, f4⟩

theorem replicate_set_head (n : Nat) :
    (List.replicate (n + 1) 0).set 0 0 = 0 :: List.replicate n 0 := by
  simp [List.replicate_succ]

theorem drop_set_last (l : List Nat) (n v : Nat) (h : l.length = n + 1) :
    (l.set n v).drop n = [v] := by
  induction l generalizing n with
  | nil => simp at h
  | cons a l ih =>
    cases n with
    | zero =>
      have : l = [] := List.length_eq_zero.mp (by simpa using h)
      simp [this]
    | succ n =>
      simp only [List.length_cons, Nat.add_right_cancel_iff] at h
      simp [ih n h]

theorem segIndexList_eq (events : List Event) (total : Nat) :
    segIndexList events total =
      some (0 :: breakPositions events ++ [total], (breakPositions events).length + 1) := by
  have hinit : (segInit events.length).SegIndexList.length = (segInit events.length).LenIndexList := by
    simp [segInit]
  have hroom : (segInit events.length).nsections + 2 ≤ (segInit events.length).LenIndexList := by
    simp only [segInit]; split <;> omega
  obtain ⟨st, h1, h2, h3⟩ := segLoop_spec total events _ hinit hroom
  have hz : (segInit events.length).nsections = 0 := rfl
  have ht : (segInit events.length).SegIndexList.take 1 = [0] := by
    simp only [segInit]
    split
    · rw [replicate_set_head]; rfl
    · rw [show (256 : Nat) = 255 + 1 from rfl, replicate_set_head]; rfl
  rw [hz] at h2 h3
  simp only [Nat.zero_add] at h2 h3
  rw [ht] at h3
  simp only [segIndexList, h1, Option.map_some']
  rw [h3, h2]
  simp

theorem segIndexList2_eq (events : List Event) (total : Nat) :
    segIndexList2 ((breakPositions events).length + 1) events total =
      some (0 :: breakPositions events ++ [total], (breakPositions events).length + 1) := by
  generalize hk : (breakPositions events).length = k
  have hlen : (((List.replicate (k + 1 + 1) 0).set 0 0).set (k + 1) total).length = k + 2 := by
    simp
  obtain ⟨a', f1, f2, f3, f4⟩ := segLoop2_spec events 0
    (((List.replicate (k + 1 + 1) 0).set 0 0).set (k + 1) total) (by rw [hlen, hk]; omega)
  have s1 : store (List.replicate (k + 1 + 1) 0) 0 0 =
      some ((List.replicate (k + 1 + 1) 0).set 0 0) :=
    store_spec _ _ _ (by simp)
  have s2 : store ((List.replicate (k + 1 + 1) 0).set 0 0) (k + 1) total =
      some (((List.replicate (k + 1 + 1) 0).set 0 0).set (k + 1) total) :=
    store_spec _ _ _ (by simp)
  have hres : a' = 0 :: breakPositions events ++ [total] := by
    rw [← List.take_append_drop (0 + 1 + (breakPositions events).length) a', f3, f4, hk]
    have t1 : (((List.replicate (k + 1 + 1) 0).set 0 0).set (k + 1) total).take (0 + 1) = [0] := by
      rw [replicate_set_head]; rfl
    have t2 : (((List.replicate (k + 1 + 1) 0).set 0 0).set (k + 1) total).drop (0 + 1 + k)
        = [total] := by
      rw [show 0 + 1 + k = k + 1 by omega]
      exact drop_set_last _ _ _ (by simp)
    rw [t1, t2]; simp
  unfold segIndexList2
  rw [s1, Option.some_bind, s2, Option.some_bind, f1, hres]
  rfl

theorem sectionLoop_spec {α : Type} (data : Nat → α) (NS SPR : Nat) (Seg : List Nat)
    (l : List Nat) (hl : ∀ ns ∈ l, 1 ≤ ns) : ∀ (ch ch' : Channel α),
    sectionLoop (stfHost α) data NS SPR Seg l ch = .ok ch' →
    ch'.SectionArray.length = ch.SectionArray.length ∧
    ch'.ChannelName = ch.ChannelName ∧ ch'.YUnits = ch.YUnits ∧
    (∀ s, s + 1 ∈ l → s < ch.SectionArray.length →
      ch'.SectionArray[s]? = some (sectionAt data NS SPR Seg s)) ∧
    (∀ s, s + 1 ∉ l → ch'.SectionArray[s]? = ch.SectionArray[s]?) := by
  induction l with
  | nil =>
    intro ch ch' h
    simp only [sectionLoop, Except.ok.injEq] at h
    subst h
    simp
  | cons ns rest ih =>
    intro ch ch' h
    simp only [sectionLoop] at h
    split at h
    · exact absurd h (by simp)
    · rename_i hmono
      simp only [stfHost, Channel.InsertSection] at h
      split at h
      · exact absurd h (by simp)
      · rename_i ch1 hins
        split at hins
        · rename_i hpos
          simp only [Option.some.injEq] at hins
          obtain ⟨i1, i2, i3, i4, i5⟩ :=
            ih (fun n hn => hl n (List.mem_cons_of_mem _ hn)) ch1 ch' h
          have hns1 : 1 ≤ ns := hl ns (List.mem_cons_self _ _)
          have hlen1 : ch1.SectionArray.length = ch.SectionArray.length := by
            rw [← hins]; simp
          refine ⟨by rw [i1, hlen1], by rw [i2, ← hins], by rw [i3, ← hins], ?_, ?_⟩
          · intro s hs hlt
            by_cases hr : s + 1 ∈ rest
            · exact i4 s hr (by rw [hlen1]; exact hlt)
            · rw [i5 s hr, ← hins]
              have hns : ns = s + 1 := by
                rcases List.mem_cons.mp hs with h1 | h1
                · exact h1.symm
                · exact absurd h1 hr
              subst hns
              simp only [Nat.add_sub_cancel, sectionAt]
              simp [List.getElem?_set, hlt]
          · intro s hs
            have hne : s + 1 ≠ ns := fun h1 => hs (by simp [h1])
            have hr : s + 1 ∉ rest := fun h1 => hs (List.mem_cons_of_mem _ h1)
            rw [i5 s hr, ← hins]
            simp only
            rw [List.getElem?_set_ne]
            omega
        · exact absurd hins (by simp)

theorem mem_range'_one (n s : Nat) : s + 1 ∈ List.range' 1 n ↔ s < n := by
  rw [List.mem_range'_1]; omega

theorem sectionLoop_full {α : Type} (data : Nat → α) (NS SPR : Nat) (Seg : List Nat)
    (n : Nat) (ch ch' : Channel α) (hlen : ch.SectionArray.length = n)
    (h : sectionLoop (stfHost α) data NS SPR Seg (List.range' 1 n) ch = .ok ch') :
    ch'.SectionArray = (List.range n).map (sectionAt data NS SPR Seg) := by
  obtain ⟨i1, _, _, i4, _⟩ := sectionLoop_spec data NS SPR Seg (List.range' 1 n)
    (fun ns hns => (List.mem_range'_1.mp hns).1) ch ch' h
  apply List.ext_getElem?
  intro s
  by_cases hs : s < n
  · rw [i4 s ((mem_range'_one n s).mpr hs) (by omega)]
    simp [List.getElem?_map, List.getElem?_range hs]
  · rw [List.getElem?_eq_none (by omega),
      List.getElem?_eq_none (by rw [List.length_map, List.length_range]; omega)]

theorem resize_zero {α : Type} (r : Recording α) : Recording.resize r 0 = [] := by
  simp [Recording.resize]

theorem resize_getElem? {α : Type} (r : Recording α) (n c : Nat) (h : r.length < n)
    (hc : c < r.length) : (Recording.resize r n)[c]? = r[c]? := by
  simp only [Recording.resize]
  rw [List.take_of_length_le (by omega), List.getElem?_append_left hc]

theorem resize_length_ge {α : Type} (r : Recording α) (n : Nat) (h : r.length < n) :
    r.length ≤ (Recording.resize r n).length := by
  simp only [Recording.resize, List.length_append, List.length_take, List.length_replicate]
  omega

theorem channelLoop_spec {α : Type} (PhysDim3 : Nat → String) (data : Nat → α)
    (SPR : Nat) (Seg : List Nat) (nsections numberOfChannels : Nat)
    (chans : List CHANNEL_TYPE) : ∀ (NS : Nat) (R : Recording α) (res : ImportResult α),
    channelLoop (stfHost α) PhysDim3 data SPR Seg nsections numberOfChannels chans NS R = res →
    res.error = none →
    R.length ≤ res.ReturnData.length ∧
    (∀ c, c < NS → c < R.length → res.ReturnData[c]? = R[c]?) ∧
    (∀ c, NS ≤ c → c < NS + (chans.filter fun hc => hc.OnOff ≠ 0).length →
      ∃ ch, res.ReturnData[c]? = some ch ∧
        ch.SectionArray = (List.range nsections).map (sectionAt data c SPR Seg)) := by
  induction chans with
  | nil =>
    intro NS R res h _
    simp only [channelLoop] at h
    subst h
    refine ⟨le_refl _, fun _ _ _ => rfl, ?_⟩
    intro c h1 h2
    simp at h2
    omega
  | cons hc rest ih =>
    intro NS R res h hok
    simp only [channelLoop] at h
    by_cases hoff : hc.OnOff = 0
    · rw [if_pos hoff] at h
      obtain ⟨j0, j1, j2⟩ := ih NS R res h hok
      refine ⟨j0, j1, ?_⟩
      intro c h1 h2
      apply j2 c h1
      simpa [hoff] using h2
    · rw [if_neg hoff] at h
      split at h
      · subst h; simp at hok
      · subst h; simp at hok
      · rename_i ch hsec
        have hR1 : R.length ≤
            (if R.length < numberOfChannels then Recording.resize R numberOfChannels
              else R).length := by
          split
          · exact resize_length_ge R _ (by assumption)
          · exact le_refl _
        have hR1get : ∀ c, c < R.length →
            (if R.length < numberOfChannels then Recording.resize R numberOfChannels
              else R)[c]? = R[c]? := by
          intro c hc
          split
          · exact resize_getElem? R _ c (by assumption) hc
          · rfl
        generalize (if R.length < numberOfChannels then Recording.resize R numberOfChannels
              else R) = R1 at h hR1 hR1get
        simp only [stfHost, Recording.InsertChannel] at h
        by_cases hpos : NS < R1.length
        · rw [if_pos hpos] at h
          simp only at h
          obtain ⟨j0, j1, j2⟩ := ih (NS + 1) (R1.set NS ch) res h hok
          have hsecs := sectionLoop_full data NS SPR Seg nsections _ ch
            (by simp [Channel.ofSize]) hsec
          rw [List.length_set] at j0 j1
          refine ⟨by omega, ?_, ?_⟩
          · intro c h1 h2
            rw [j1 c (by omega) (by omega), List.getElem?_set_ne (by omega)]
            exact hR1get c h2
          · intro c h1 h2
            by_cases hcN : c = NS
            · subst hcN
              refine ⟨ch, ?_, hsecs⟩
              rw [j1 c (by omega) (by omega)]
              simp [List.getElem?_set, hpos]
            · apply j2 c (by omega)
              rw [List.filter_cons_of_pos (by simpa using hoff), List.length_cons] at h2
              omega
        · rw [if_neg hpos] at h
          simp only at h
          subst h; simp at hok

theorem rescaleCode_OnOff (hc : CHANNEL_TYPE) : (rescaleCode hc).OnOff = hc.OnOff := by
  unfold rescaleCode
  split
  · rfl
  · split
    · rfl
    · split <;> rfl

theorem filter_rescale_length (l : List CHANNEL_TYPE) :
    ((l.map rescaleCode).filter fun hc => hc.OnOff ≠ 0).length =
      (l.filter fun hc => hc.OnOff ≠ 0).length := by
  induction l with
  | nil => rfl
  | cons a l ih =>
    by_cases h : a.OnOff = 0
    · simp [List.filter_cons, rescaleCode_OnOff, h] at ih ⊢
      exact ih
    · simp [List.filter_cons, rescaleCode_OnOff, h] at ih ⊢
      exact ih

theorem copyRange_length {α : Type} (data : Nat → α) (off len : Nat) :
    (copyRange data off len).length = len := by
  simp [copyRange]

theorem copyRange_getElem? {α : Type} (data : Nat → α) (off len i : Nat) (h : i < len) :
    (copyRange data off len)[i]? = some (data (off + i)) := by
  simp [copyRange, List.getElem?_map, List.getElem?_range h]

/-- C1. Segment Indexer: for every event table and every total sample count,
the boundary list built by the loop of the legacy branch is
`[0, p1, ..., pk, total]`, where `p1, ..., pk` are the positions of the break
markers (type 0x7ffe) in table order, and the section count is `k+1`; the
libbiosig2 branch, given the library's section count `k+1`, builds the same
list.  Events of other types do not contribute, the initial capacity of 256
is no limit, and a table without markers gives `[0, total]`, one section. -/
theorem segment_indexer_boundaries (events : List Event) (total : Nat) :
    segIndexList events total =
      some (0 :: breakPositions events ++ [total], (breakPositions events).length + 1) ∧
    segIndexList2 ((breakPositions events).length + 1) events total =
      some (0 :: breakPositions events ++ [total], (breakPositions events).length + 1) ∧
    segIndexList (events.filter fun e => e.TYP ≠ BREAK) total = some ([0, total], 1) := by
  refine ⟨segIndexList_eq events total, segIndexList2_eq events total, ?_⟩
  have h : breakPositions (events.filter fun e => e.TYP ≠ BREAK) = [] := by
    simp only [breakPositions, List.filter_filter, List.map_eq_nil_iff, List.filter_eq_nil_iff]
    intro e _
    simp
  rw [segIndexList_eq _ total, h]
  rfl

theorem sectionLoop_error {α : Type} (H : Host α) (data : Nat → α) (NS SPR : Nat)
    (Seg : List Nat) (l : List Nat) : ∀ (ch : Channel α) (e : ImportError),
    sectionLoop H data NS SPR Seg l ch = .error e → e = .sectionAlloc ∨ e = .insertSection := by
  induction l with
  | nil => intro ch e h; simp [sectionLoop] at h
  | cons ns rest ih =>
    intro ch e h
    simp only [sectionLoop] at h
    split at h
    · exact Or.inl (by injection h with h; exact h.symm)
    · split at h
      · exact Or.inr (by injection h with h; exact h.symm)
      · exact ih _ e h

theorem channelLoop_reset {α : Type} (H : Host α) (PhysDim3 : Nat → String) (data : Nat → α)
    (SPR : Nat) (Seg : List Nat) (nsections numberOfChannels : Nat)
    (chans : List CHANNEL_TYPE) : ∀ (NS : Nat) (R : Recording α) (e : ImportError),
    (channelLoop H PhysDim3 data SPR Seg nsections numberOfChannels chans NS R).error = some e →
    e.isListed = true →
    (channelLoop H PhysDim3 data SPR Seg nsections numberOfChannels chans NS R).ReturnData = [] := by
  induction chans with
  | nil => intro NS R e h; simp [channelLoop] at h
  | cons hc rest ih =>
    intro NS R e h he
    simp only [channelLoop] at h ⊢
    by_cases hoff : hc.OnOff = 0
    · rw [if_pos hoff] at h ⊢
      exact ih NS R e h he
    · rw [if_neg hoff] at h ⊢
      split
      · rename_i heq
        rw [heq] at h
        simp only [Option.some.injEq] at h
        subst h
        simp [ImportError.isListed] at he
      · exact resize_zero _
      · rename_i ch heq
        rw [heq] at h
        simp only at h
        split
        · exact resize_zero _
        · rename_i R2 hins
          rw [hins] at h
          exact ih _ _ e h he

theorem channelLoop2_reset {α : Type} (H : Host α) (physdim : Nat → String) (data : Nat → α)
    (SPR : Nat) (Seg : List Nat) (nsections numberOfChannels : Nat)
    (chans : List CHANNEL_TYPE) : ∀ (NS : Nat) (R : Recording α) (e : ImportError),
    (channelLoop2 H physdim data SPR Seg nsections numberOfChannels chans NS R).error = some e →
    e.isListed = true →
    (channelLoop2 H physdim data SPR Seg nsections numberOfChannels chans NS R).ReturnData = [] := by
  induction chans with
  | nil => intro NS R e h; simp [channelLoop2] at h
  | cons hc rest ih =>
    intro NS R e h he
    simp only [channelLoop2] at h ⊢
    split
    · rename_i heq
      rw [heq] at h
      simp only [Option.some.injEq] at h
      subst h
      simp [ImportError.isListed] at he
    · exact resize_zero _
    · rename_i ch heq
      rw [heq] at h
      simp only at h
      split
      · exact resize_zero _
      · rename_i R2 hins
        rw [hins] at h
        exact ih _ _ e h he

/-- The failures that reset the recording: in both branches of
`importBSFile`, for every host model, header, and initial content of the
recording, when the call fails with one of the listed failures (no header,
fallback trigger, reader error, section insertion, channel insertion) the
recording is empty when the error propagates. -/
theorem import_failure_resets {α : Type} (H : Host α) (PhysDim3 : Nat → String)
    (BIOSIG_VERSION nsegments : Nat) (reader : Option (HDRTYPE α)) (R0 : Recording α)
    (e : ImportError) (he : e.isListed = true) :
    ((importBSFile H PhysDim3 BIOSIG_VERSION reader R0).error = some e →
      (importBSFile H PhysDim3 BIOSIG_VERSION reader R0).ReturnData = []) ∧
    ((importBSFile2 H PhysDim3 nsegments reader R0).error = some e →
      (importBSFile2 H PhysDim3 nsegments reader R0).ReturnData = []) := by
  constructor
  · intro h
    unfold importBSFile at h ⊢
    split
    · exact resize_zero _
    · rename_i hdr
      simp only at h ⊢
      split
      · exact resize_zero _
      · rename_i hfb
        rw [if_neg hfb] at h
        split
        · exact resize_zero _
        · rename_i herr
          rw [if_neg herr] at h
          split
          · rename_i hseg
            rw [hseg] at h
            simp only [Option.some.injEq] at h
            subst h
            simp [ImportError.isListed] at he
          · rename_i Seg nsections hseg
            rw [hseg] at h
            exact channelLoop_reset H PhysDim3 _ _ _ _ _ _ _ _ e h he
  · intro h
    unfold importBSFile2 at h ⊢
    split
    · exact resize_zero _
    · rename_i hdr
      simp only at h ⊢
      split
      · exact resize_zero _
      · rename_i hfb
        rw [if_neg hfb] at h
        split
        · exact resize_zero _
        · rename_i herr
          rw [if_neg herr] at h
          split
          · rename_i hseg
            rw [hseg] at h
            simp only [Option.some.injEq] at h
            subst h
            simp [ImportError.isListed] at he
          · rename_i Seg nsections hseg
            rw [hseg] at h
            exact channelLoop2_reset H PhysDim3 _ _ _ _ _ _ _ _ e h he

/-- A header whose second channel has `OnOff = 2`: the first channel is
inserted, the insertion of the second one fails, and the recording, which held
a channel before the call, is empty afterwards. -/
theorem import_failure_resets_witness :
    (importBSFile (stfHost Nat) (fun _ => "mV") 10600
      (some { hdrExample with CHANNEL := [⟨1, "a", 4256⟩, ⟨2, "b", 0⟩] })
      [Channel.ofSize Nat 0]).error = some ImportError.insertChannel ∧
    (importBSFile (stfHost Nat) (fun _ => "mV") 10600
      (some { hdrExample with CHANNEL := [⟨1, "a", 4256⟩, ⟨2, "b", 0⟩] })
      [Channel.ofSize Nat 0]).ReturnData = [] :=
  ⟨by decide,
   (import_failure_resets (stfHost Nat) (fun _ => "mV") 10600 3
      (some { hdrExample with CHANNEL := [⟨1, "a", 4256⟩, ⟨2, "b", 0⟩] })
      [Channel.ofSize Nat 0] ImportError.insertChannel rfl).1 (by decide)⟩

theorem channelRate_len {α : Type} (secs : List (Section α)) : ∀ (hc len : Nat),
    (channelRate secs (hc, len)).2 =
      len + (secs.map fun s => s.xdiv % 2 ^ 32 * s.size).sum := by
  induction secs with
  | nil => intro hc len; simp [channelRate]
  | cons s rest ih =>
    intro hc len
    simp only [channelRate, List.map_cons, List.sum_cons]
    rw [ih]
    omega

theorem channelRate_len_ok {α : Type} (ch : Channel α)
    (h : ∀ s ∈ ch.SectionArray, 0 < s.xdiv ∧ s.xdiv < 2 ^ 32) (hc : Nat) :
    (channelRate ch.SectionArray (hc, 0)).2 = totalExpanded ch := by
  rw [channelRate_len, totalExpanded, Nat.zero_add]
  congr 1
  apply List.map_congr_left
  intro s hs
  rw [Nat.mod_eq_of_lt (h s hs).2, Nat.mul_comm]

theorem lcm_model_pos (a b : Nat) (ha : 0 < a) (ha2 : a < 2 ^ 32) (hb : 0 < b)
    (hb2 : b < 2 ^ 32) : 0 < lcm a b ∧ lcm a b < 2 ^ 32 := by
  refine ⟨?_, Nat.mod_lt _ (by norm_num)⟩
  unfold lcm
  rw [Nat.pos_iff_ne_zero]
  intro h0
  have hd : 2 ^ 32 ∣ Nat.lcm a b := Nat.dvd_of_mod_eq_zero h0
  have hl : Nat.lcm a b ≠ 0 := Nat.lcm_ne_zero (by omega) (by omega)
  rw [Nat.prime_two.pow_dvd_iff_le_factorization hl,
    Nat.factorization_lcm (by omega) (by omega)] at hd
  simp only [Finsupp.sup_apply] at hd
  rcases le_sup_iff.mp hd with h | h
  · have := (Nat.prime_two.pow_dvd_iff_le_factorization (by omega)).mpr h
    have := Nat.le_of_dvd ha this
    omega
  · have := (Nat.prime_two.pow_dvd_iff_le_factorization (by omega)).mpr h
    have := Nat.le_of_dvd hb this
    omega

theorem channelRate_pos {α : Type} (secs : List (Section α))
    (h : ∀ s ∈ secs, 0 < s.xdiv ∧ s.xdiv < 2 ^ 32) : ∀ (hc len : Nat),
    0 < hc → hc < 2 ^ 32 →
    0 < (channelRate secs (hc, len)).1 ∧ (channelRate secs (hc, len)).1 < 2 ^ 32 := by
  induction secs with
  | nil => intro hc len h1 h2; exact ⟨h1, h2⟩
  | cons s rest ih =>
    intro hc len h1 h2
    simp only [channelRate]
    have hs := h s (List.mem_cons_self _ _)
    rw [Nat.mod_eq_of_lt hs.2]
    have hl := lcm_model_pos hc s.xdiv h1 h2 hs.1 hs.2
    exact ih (fun t ht => h t (List.mem_cons_of_mem _ ht)) _ _ hl.1 hl.2

/-- After a completed rate loop every per-channel value is non-zero and the
channels visited had the length recorded in `NRec`. -/
theorem rateLoop_ok {α : Type} (chans : List (Channel α)) : ∀ (k : Nat) (st st' : RateState),
    (∀ ch ∈ chans, ∀ s ∈ ch.SectionArray, 0 < s.xdiv ∧ s.xdiv < 2 ^ 32) →
    0 < st.SPR → st.SPR < 2 ^ 32 → (∀ h ∈ st.hcSPR, h ≠ 0) →
    rateLoop chans k st = .ok st' →
    (0 < st'.SPR ∧ st'.SPR < 2 ^ 32) ∧ (∀ h ∈ st'.hcSPR, h ≠ 0) ∧
    st'.hcSPR.length = st.hcSPR.length + chans.length ∧
    (k ≠ 0 → st'.NRec = st.NRec ∧ ∀ ch ∈ chans, totalExpanded ch = st.NRec) ∧
    (k = 0 → ∀ c0 ∈ chans.head?, st'.NRec = totalExpanded c0 ∧
      ∀ ch ∈ chans, totalExpanded ch = totalExpanded c0) := by
  induction chans with
  | nil =>
    intro k st st' _ h1 h2 h3 h
    simp only [rateLoop, Except.ok.injEq] at h
    subst h
    exact ⟨⟨h1, h2⟩, h3, by simp, fun _ => ⟨rfl, by simp⟩, fun _ => by simp⟩
  | cons ch rest ih =>
    intro k st st' hd h1 h2 h3 h
    have hch := hd ch (List.mem_cons_self _ _)
    have hrest : ∀ c ∈ rest, ∀ s ∈ c.SectionArray, 0 < s.xdiv ∧ s.xdiv < 2 ^ 32 :=
      fun c hc => hd c (List.mem_cons_of_mem _ hc)
    have hr := channelRate_pos ch.SectionArray hch st.SPR 0 h1 h2
    have hlen := channelRate_len_ok ch hch st.SPR
    have hl := lcm_model_pos st.SPR _ h1 h2 hr.1 hr.2
    have h3' : ∀ h ∈ st.hcSPR ++ [(channelRate ch.SectionArray (st.SPR, 0)).1], h ≠ 0 := by
      intro x hx
      rcases List.mem_append.mp hx with hx | hx
      · exact h3 x hx
      · simp only [List.mem_singleton] at hx
        omega
    simp only [rateLoop] at h
    by_cases hk : k = 0
    · rw [if_pos hk] at h
      obtain ⟨a1, a2, a3, a4, _⟩ := ih (k + 1) _ st' hrest hl.1 hl.2 h3' h
      obtain ⟨a5, a6⟩ := a4 (by omega)
      simp only at a5 a6
      refine ⟨a1, a2, ?_, fun h0 => absurd hk h0, ?_⟩
      · simp only [List.length_append, List.length_cons, List.length_nil] at a3 ⊢
        omega
      · intro _ c0 hc0
        simp only [List.head?_cons, Option.mem_def, Option.some.injEq] at hc0
        subst hc0
        rw [hlen] at a5 a6
        refine ⟨a5, ?_⟩
        intro c hc
        rcases List.mem_cons.mp hc with hc | hc
        · rw [hc]
        · exact a6 c hc
    · rw [if_neg hk] at h
      split at h
      · exact absurd h (by simp)
      · rename_i hne
        obtain ⟨a1, a2, a3, a4, _⟩ := ih (k + 1) _ st' hrest hl.1 hl.2 h3' h
        obtain ⟨a5, a6⟩ := a4 (by omega)
        simp only at a5 a6
        refine ⟨a1, a2, ?_, fun _ => ⟨a5, ?_⟩, fun h0 => absurd h0 hk⟩
        · simp only [List.length_append, List.length_cons, List.length_nil] at a3 ⊢
          omega
        · intro c hc
          rcases List.mem_cons.mp hc with hc | hc
          · rw [hc, ← hlen]
            simp only [ne_eq, Decidable.not_not] at hne
            exact hne.symm
          · exact a6 c hc

theorem rateLoop_error {α : Type} (chans : List (Channel α)) : ∀ (k : Nat) (st : RateState)
    (e : ExportError), rateLoop chans k st = .error e → e = .lengthMismatch := by
  induction chans with
  | nil => intro k st e h; simp [rateLoop] at h
  | cons ch rest ih =>
    intro k st e h
    simp only [rateLoop] at h
    split at h
    · exact ih _ _ e h
    · split at h
      · injection h with h; exact h.symm
      · exact ih _ _ e h

theorem blockLayout_some (SPR : Nat) (hcs : List Nat) : ∀ (bpb : Nat),
    (∀ h ∈ hcs, h ≠ 0) → ∃ r, blockLayout SPR hcs bpb = some r := by
  induction hcs with
  | nil => intro bpb _; exact ⟨_, rfl⟩
  | cons hc rest ih =>
    intro bpb h
    obtain ⟨r, hr⟩ := ih (bpb + SPR / hc * 8) (fun x hx => h x (List.mem_cons_of_mem _ hx))
    refine ⟨((SPR / hc, bpb) :: r.1, r.2), ?_⟩
    simp only [blockLayout]
    rw [if_neg (h hc (List.mem_cons_self _ _)), hr]
    rfl

theorem expandedLength_of_le {α : Type} (ch : Channel α) (m : Nat) (h : ch.size ≤ m) :
    expandedLength ch m = 0 := by
  unfold expandedLength
  rw [List.getElem?_eq_none (by simpa [Channel.size] using h)]

theorem segmentCheck_true {α : Type} (Data : Recording α) (h : segmentCheck Data = true) :
    Data ≠ [] ∧ (∀ a ∈ Data, ∀ b ∈ Data, a.size = b.size) ∧
    (∀ a ∈ Data, ∀ b ∈ Data, ∀ m, expandedLength a m = expandedLength b m) := by
  cases Data with
  | nil => simp [segmentCheck] at h
  | cons ch0 rest =>
    simp only [segmentCheck, Bool.and_eq_true, List.all_eq_true, beq_iff_eq,
      List.mem_range] at h
    obtain ⟨h1, h2⟩ := h
    refine ⟨by simp, ?_, ?_⟩
    · intro a ha b hb
      rw [h1 a ha, h1 b hb]
    · intro a ha b hb m
      by_cases hm : m < ch0.size
      · rw [h2 m hm a ha, h2 m hm b hb]
      · rw [expandedLength_of_le a m (by rw [h1 a ha]; omega),
          expandedLength_of_le b m (by rw [h1 b hb]; omega)]

theorem segmentCheck_of_aligned {α : Type} (Data : Recording α) (hne : Data ≠ [])
    (h1 : ∀ a ∈ Data, ∀ b ∈ Data, a.size = b.size)
    (h2 : ∀ a ∈ Data, ∀ b ∈ Data, ∀ m, expandedLength a m = expandedLength b m) :
    segmentCheck Data = true := by
  cases Data with
  | nil => exact absurd rfl hne
  | cons ch0 rest =>
    simp only [segmentCheck, Bool.and_eq_true, List.all_eq_true, beq_iff_eq,
      List.mem_range]
    exact ⟨fun a ha => h1 a ha ch0 (List.mem_cons_self _ _),
      fun m _ a ha => h2 a ha ch0 (List.mem_cons_self _ _) m⟩

theorem foldl_lcm_dvd_self (ds : List Nat) : ∀ x : Nat, x ∣ ds.foldl Nat.lcm x := by
  induction ds with
  | nil => intro x; exact dvd_rfl
  | cons d rest ih =>
    intro x
    exact dvd_trans (Nat.dvd_lcm_left x d) (ih _)

theorem foldl_lcm_dvd_mem (ds : List Nat) : ∀ x : Nat, ∀ d ∈ ds, d ∣ ds.foldl Nat.lcm x := by
  induction ds with
  | nil => intro x d hd; simp at hd
  | cons a rest ih =>
    intro x d hd
    rcases List.mem_cons.mp hd with h | h
    · subst h
      exact dvd_trans (Nat.dvd_lcm_right x d) (foldl_lcm_dvd_self rest _)
    · exact ih _ d h

theorem foldl_lcm_pos (ds : List Nat) : ∀ x : Nat, 0 < x → (∀ d ∈ ds, 0 < d) →
    0 < ds.foldl Nat.lcm x := by
  induction ds with
  | nil => intro x hx _; exact hx
  | cons a rest ih =>
    intro x hx h
    exact ih _ (Nat.lcm_pos hx (h a (List.mem_cons_self _ _)))
      (fun d hd => h d (List.mem_cons_of_mem _ hd))

theorem channelRate_lcm {α : Type} (secs : List (Section α)) : ∀ (hc len : Nat),
    0 < hc → (∀ s ∈ secs, 0 < s.xdiv) →
    (secs.map Section.xdiv).foldl Nat.lcm hc < 2 ^ 32 →
    (channelRate secs (hc, len)).1 = (secs.map Section.xdiv).foldl Nat.lcm hc := by
  induction secs with
  | nil => intro hc len _ _ _; rfl
  | cons s rest ih =>
    intro hc len hpos hd hlt
    have hs := hd s (List.mem_cons_self _ _)
    have hrest : ∀ t ∈ rest, 0 < t.xdiv := fun t ht => hd t (List.mem_cons_of_mem _ ht)
    simp only [List.map_cons, List.foldl_cons] at hlt ⊢
    have hl : 0 < Nat.lcm hc s.xdiv := Nat.lcm_pos hpos hs
    have hle : Nat.lcm hc s.xdiv < 2 ^ 32 :=
      lt_of_le_of_lt (Nat.le_of_dvd (foldl_lcm_pos _ _ hl (by
        intro d hdm
        obtain ⟨t, ht, rfl⟩ := List.mem_map.mp hdm
        exact hrest t ht)) (foldl_lcm_dvd_self _ _)) hlt
    have hx : s.xdiv < 2 ^ 32 :=
      lt_of_le_of_lt (Nat.le_of_dvd hl (Nat.dvd_lcm_right hc s.xdiv)) hle
    simp only [channelRate]
    rw [Nat.mod_eq_of_lt hx]
    have e : lcm hc s.xdiv = Nat.lcm hc s.xdiv := Nat.mod_eq_of_lt hle
    rw [e]
    exact ih _ _ hl hrest hlt

theorem rateLoop_lcm {α : Type} (chans : List (Channel α)) : ∀ (k : Nat) (st st' : RateState),
    0 < st.SPR → (∀ d ∈ allDivisors chans, 0 < d) →
    (allDivisors chans).foldl Nat.lcm st.SPR < 2 ^ 32 →
    rateLoop chans k st = .ok st' →
    st'.SPR = (allDivisors chans).foldl Nat.lcm st.SPR := by
  induction chans with
  | nil =>
    intro k st st' _ _ _ h
    simp only [rateLoop, Except.ok.injEq] at h
    subst h
    rfl
  | cons ch rest ih =>
    intro k st st' hpos hd hlt h
    have hsplit : allDivisors (ch :: rest) =
        ch.SectionArray.map Section.xdiv ++ allDivisors rest := by
      simp [allDivisors]
    rw [hsplit] at hd hlt ⊢
    rw [List.foldl_append] at hlt ⊢
    have hdch : ∀ s ∈ ch.SectionArray, 0 < s.xdiv :=
      fun s hs => hd _ (List.mem_append_left _ (List.mem_map_of_mem _ hs))
    have hdrest : ∀ d ∈ allDivisors rest, 0 < d :=
      fun d hdm => hd d (List.mem_append_right _ hdm)
    have hFpos : 0 < (ch.SectionArray.map Section.xdiv).foldl Nat.lcm st.SPR :=
      foldl_lcm_pos _ _ hpos (by
        intro d hdm
        obtain ⟨t, ht, rfl⟩ := List.mem_map.mp hdm
        exact hdch t ht)
    have hFlt : (ch.SectionArray.map Section.xdiv).foldl Nat.lcm st.SPR < 2 ^ 32 :=
      lt_of_le_of_lt (Nat.le_of_dvd (foldl_lcm_pos _ _ hFpos hdrest)
        (foldl_lcm_dvd_self _ _)) hlt
    have hhc := channelRate_lcm ch.SectionArray st.SPR 0 hpos hdch hFlt
    have hSPR : lcm st.SPR ((ch.SectionArray.map Section.xdiv).foldl Nat.lcm st.SPR) =
        (ch.SectionArray.map Section.xdiv).foldl Nat.lcm st.SPR := by
      unfold lcm
      rw [Nat.dvd_antisymm (Nat.lcm_dvd (foldl_lcm_dvd_self _ _) dvd_rfl)
        (Nat.dvd_lcm_right _ _)]
      exact Nat.mod_eq_of_lt hFlt
    simp only [rateLoop] at h
    rw [hhc, hSPR] at h
    split at h
    · exact ih _ _ st' hFpos hdrest hlt h
    · split at h
      · exact absurd h (by simp)
      · exact ih _ _ st' hFpos hdrest hlt h

/-- C4. LCM reconciliation: when every section divisor is positive and the
least common multiple of all divisors fits 32 bits, the value of `hdr->SPR`
after the channel loop (started from 1) is the least common multiple of the
divisors of all sections of all channels, and every divisor divides it. -/
theorem lcm_reconciliation {α : Type} (Data : Recording α) (st : RateState)
    (hpos : ∀ d ∈ allDivisors Data, 0 < d)
    (hfit : lcmList (allDivisors Data) < 2 ^ 32)
    (hloop : rateLoop Data 0 { SPR := 1, hcSPR := [], NRec := 0 } = .ok st) :
    st.SPR = lcmList (allDivisors Data) ∧ ∀ d ∈ allDivisors Data, d ∣ st.SPR := by
  have h := rateLoop_lcm Data 0 { SPR := 1, hcSPR := [], NRec := 0 } st (by decide) hpos hfit
    hloop
  refine ⟨h, ?_⟩
  intro d hd
  rw [h]
  exact foldl_lcm_dvd_mem _ _ d hd

/-- C4 at one channel with divisors 1 and 3: the reconciled value is 3. -/
theorem lcm_reconciliation_witness :
    (3 : Nat) = lcmList (allDivisors [chan [⟨[10, 11, 12], 1⟩, ⟨[20], 3⟩]]) ∧
    ∀ d ∈ allDivisors [chan [⟨[10, 11, 12], 1⟩, ⟨[20], 3⟩]], d ∣ 3 :=
  lcm_reconciliation [chan [⟨[10, 11, 12], 1⟩, ⟨[20], 3⟩]]
    { SPR := 3, hcSPR := [3], NRec := 6 } (by decide) (by decide) rfl

/-- C3 (as amended). Size-mismatch rejection: for every recording whose
divisors are positive 32-bit values and that has no channels, or two channels
with different numbers of sections, or with different total expanded sample
counts, or with different expanded lengths at some section index, the export
throws one of the two size-mismatch exceptions, with no store into the pack
buffer, the writer not opened and nothing written. -/
theorem export_rejects_misaligned {α β : Type} (enc : α → β) (writerOk : Bool)
    (Data : Recording α) (hd : divisorsOk Data) (hm : misaligned Data) :
    ∃ e, e.isSizeMismatch = true ∧
      (exportBiosigFile enc writerOk Data).error = some e ∧
      (exportBiosigFile enc writerOk Data).stores = [] ∧
      (exportBiosigFile enc writerOk Data).opened = false ∧
      (exportBiosigFile enc writerOk Data).ifwrite = none := by
  unfold exportBiosigFile
  cases hr : rateLoop Data 0 { SPR := 1, hcSPR := [], NRec := 0 } with
  | error e =>
    have he := rateLoop_error Data 0 _ e hr
    subst he
    exact ⟨.lengthMismatch, rfl, rfl, rfl, rfl, rfl⟩
  | ok st =>
    obtain ⟨_, a2, _, _, a5⟩ := rateLoop_ok Data 0 _ st hd (by decide) (by decide)
      (by simp) hr
    obtain ⟨r, hb⟩ := blockLayout_some st.SPR st.hcSPR 0 a2
    simp only [hb]
    have hchk : segmentCheck Data = false := by
      by_contra hc
      have hc' : segmentCheck Data = true := by simpa using hc
      obtain ⟨c1, c2, c3⟩ := segmentCheck_true Data hc'
      rcases hm with h | ⟨a, ha, b, hb, hne⟩ | ⟨a, ha, b, hb, hne⟩ | ⟨a, ha, b, hb, m, hne⟩
      · exact c1 h
      · exact hne (c2 a ha b hb)
      · cases Data with
        | nil => exact c1 rfl
        | cons c0 rest =>
          obtain ⟨_, a6⟩ := a5 rfl c0 rfl
          exact hne (by rw [a6 a ha, a6 b hb])
      · exact hne (c3 a ha b hb m)
    rw [if_pos hchk]
    exact ⟨.segmentMismatch, rfl, rfl, rfl, rfl, rfl⟩

/-- C3 at two aligned-by-length channels with 1 and 2 sections: the export
throws the segment mismatch and has stored and written nothing. -/
theorem export_rejects_misaligned_witness :
    ∃ e, e.isSizeMismatch = true ∧
      (exportBiosigFile (β := Nat) id true [chan [⟨[10], 1⟩], chan [⟨[20], 1⟩, ⟨[], 1⟩]]).error
        = some e ∧
      (exportBiosigFile (β := Nat) id true [chan [⟨[10], 1⟩], chan [⟨[20], 1⟩, ⟨[], 1⟩]]).stores
        = [] ∧
      (exportBiosigFile (β := Nat) id true [chan [⟨[10], 1⟩], chan [⟨[20], 1⟩, ⟨[], 1⟩]]).opened
        = false ∧
      (exportBiosigFile (β := Nat) id true [chan [⟨[10], 1⟩], chan [⟨[20], 1⟩, ⟨[], 1⟩]]).ifwrite
        = none :=
  export_rejects_misaligned id true [chan [⟨[10], 1⟩], chan [⟨[20], 1⟩, ⟨[], 1⟩]]
    (by decide)
    (Or.inr (Or.inl ⟨chan [⟨[10], 1⟩], by decide, chan [⟨[20], 1⟩, ⟨[], 1⟩], by decide,
      by decide⟩))

/-- C3 as stated fails: a recording whose channels have 1 and 2 sections, with
a zero divisor, does not reach the checks; the call stops at the division
`hdr->SPR / hc->SPR`, not with a size-mismatch exception. -/
theorem export_rejects_misaligned_counterexample :
    misaligned zeroDivisorExample ∧
    ¬ ∃ e, e.isSizeMismatch = true ∧
      (exportBiosigFile (β := Nat) id true zeroDivisorExample).error = some e := by
  refine ⟨Or.inr (Or.inl ⟨chan [⟨[], 0⟩], by decide, chan [⟨[], 1⟩, ⟨[], 1⟩], by decide,
    by decide⟩), ?_⟩
  rintro ⟨e, he, h⟩
  have h2 : (exportBiosigFile (β := Nat) id true zeroDivisorExample).error =
      some .divideByZero := by decide
  rw [h2] at h
  injection h with h
  subst h
  simp [ExportError.isSizeMismatch] at he

theorem cumExpanded_zero {α : Type} (secs : List (Section α)) : cumExpanded secs 0 = 0 := by
  simp [cumExpanded]

theorem cumExpanded_cons_succ {α : Type} (s : Section α) (rest : List (Section α)) (j : Nat) :
    cumExpanded (s :: rest) (j + 1) = s.size * s.xdiv + cumExpanded rest j := by
  simp [cumExpanded]

theorem cumExpanded_le {α : Type} (secs : List (Section α)) : ∀ j : Nat,
    cumExpanded secs j ≤ (secs.map fun s => s.size * s.xdiv).sum := by
  induction secs with
  | nil => intro j; simp [cumExpanded]
  | cons s rest ih =>
    intro j
    cases j with
    | zero => simp [cumExpanded]
    | succ j =>
      rw [cumExpanded_cons_succ, List.map_cons, List.sum_cons]
      exact Nat.add_le_add_left (ih j) _

theorem cumExpanded_full {α : Type} (secs : List (Section α)) :
    cumExpanded secs secs.length = (secs.map fun s => s.size * s.xdiv).sum := by
  simp [cumExpanded]

/-- The events of the loop, indexed as in the table: the section starts
`pos + cumExpanded secs j` for `j < secs.length` that are positive. -/
theorem eventLoop_eq {α : Type} (secs : List (Section α)) : ∀ pos : Nat,
    eventLoop secs pos =
      ((List.range secs.length).filter fun j => 0 < pos + cumExpanded secs j).map
        fun j => breakMarker ((pos + cumExpanded secs j) % 2 ^ 32) := by
  induction secs with
  | nil => intro pos; rfl
  | cons s rest ih =>
    intro pos
    simp only [eventLoop, List.length_cons]
    rw [List.range_succ_eq_map, List.filter_cons, ih]
    simp only [cumExpanded_zero, Nat.add_zero, gt_iff_lt, List.filter_map, List.map_map]
    by_cases hp : 0 < pos
    · simp [hp, breakMarker, Function.comp_def, cumExpanded_cons_succ, Nat.add_assoc,
        cumExpanded_zero]
    · simp [hp, Function.comp_def, cumExpanded_cons_succ, Nat.add_assoc]

theorem eventLoop_sorted {α : Type} (secs : List (Section α)) : ∀ pos : Nat,
    (∀ j, j < secs.length → pos + cumExpanded secs j < 2 ^ 32) →
    (∀ e ∈ eventLoop secs pos, pos ≤ e.POS) ∧
    (eventLoop secs pos).Sorted fun a b => a.POS ≤ b.POS := by
  induction secs with
  | nil => intro pos _; simp [eventLoop]
  | cons s rest ih =>
    intro pos h
    have h0 := h 0 (by simp)
    rw [cumExpanded_zero] at h0
    obtain ⟨i1, i2⟩ := ih (pos + s.size * s.xdiv) (by
      intro j hj
      have := h (j + 1) (by simpa using hj)
      rw [cumExpanded_cons_succ] at this
      omega)
    simp only [eventLoop]
    by_cases hp : 0 < pos
    · simp only [gt_iff_lt, hp, if_true, List.singleton_append, List.mem_cons,
        List.sorted_cons]
      have hm : pos % 2 ^ 32 = pos := Nat.mod_eq_of_lt (by omega)
      refine ⟨?_, ?_, i2⟩
      · rintro e (he | he)
        · rw [he]
          show pos ≤ pos % 2 ^ 32
          rw [hm]
        · have := i1 e he; omega
      · intro e he
        have := i1 e he
        simp only [hm]
        omega
    · simp only [gt_iff_lt, hp, if_false, List.nil_append]
      refine ⟨?_, i2⟩
      intro e he
      have := i1 e he
      omega

theorem sort_eventtable_sorted (l : List Event) (h : l.Sorted fun a b => a.POS ≤ b.POS) :
    sort_eventtable l = l :=
  List.Sorted.insertionSort_eq h

theorem cumExpanded_mono {α : Type} (secs : List (Section α)) : ∀ j j' : Nat, j ≤ j' →
    cumExpanded secs j ≤ cumExpanded secs j' := by
  induction secs with
  | nil => intro j j' _; simp [cumExpanded]
  | cons s rest ih =>
    intro j j' h
    cases j with
    | zero => rw [cumExpanded_zero]; exact Nat.zero_le _
    | succ j =>
      cases j' with
      | zero => omega
      | succ j' =>
        rw [cumExpanded_cons_succ, cumExpanded_cons_succ]
        exact Nat.add_le_add_left (ih j j' (by omega)) _

/-- A call that opened the writer went through the rate loop, the layout loop
and the segment check, and its result is the one of the last branch. -/
theorem export_opened {α β : Type} (enc : α → β) (writerOk : Bool) (Data : Recording α)
    (h : (exportBiosigFile enc writerOk Data).opened = true) :
    ∃ st layout bpb,
      rateLoop Data 0 { SPR := 1, hcSPR := [], NRec := 0 } = .ok st ∧
      blockLayout st.SPR st.hcSPR 0 = some (layout, bpb) ∧
      segmentCheck Data = true ∧
      exportBiosigFile enc writerOk Data =
        { error := if writerOk then none else some .writerFailure
          stores := packLoop enc st.SPR bpb (Data.zip layout) 0
          opened := true
          ifwrite := if writerOk then some (bpb, st.NRec) else none
          EVENT := sort_eventtable
            (eventLoop (Data.head?.map Channel.SectionArray |>.getD []) 0)
          SPR := st.SPR, bpb := bpb, NRec := st.NRec, layout := layout } := by
  unfold exportBiosigFile at h ⊢
  cases hr : rateLoop Data 0 { SPR := 1, hcSPR := [], NRec := 0 } with
  | error e => rw [hr] at h; simp [ExportResult.early] at h
  | ok st =>
    rw [hr] at h
    simp only at h ⊢
    cases hb : blockLayout st.SPR st.hcSPR 0 with
    | none => rw [hb] at h; simp [ExportResult.early] at h
    | some r =>
      rw [hb] at h
      obtain ⟨layout, bpb⟩ := r
      simp only at h ⊢
      by_cases hc : segmentCheck Data = false
      · rw [if_pos hc] at h; simp [ExportResult.early] at h
      · rw [if_neg hc]
        exact ⟨st, layout, bpb, rfl, hb, by simpa using hc, rfl⟩

/-- The events of the loop started at position 0, indexed by the section
boundaries `j = 1 .. S-1`, when the positions fit 32 bits. -/
theorem eventLoop_form {α : Type} (secs : List (Section α))
    (hfit : ∀ j, j < secs.length → cumExpanded secs j < 2 ^ 32) :
    eventLoop secs 0 =
      ((List.range' 1 (secs.length - 1)).filter fun j => 0 < cumExpanded secs j).map
        (fun j => breakMarker (cumExpanded secs j)) := by
  rw [eventLoop_eq]
  simp only [Nat.zero_add]
  cases hS : secs.length with
  | zero => simp
  | succ n =>
    rw [List.range_succ_eq_map, List.filter_cons]
    simp only [cumExpanded_zero, Nat.lt_irrefl, decide_False, Bool.false_eq_true, if_false,
      Nat.add_sub_cancel]
    rw [List.range'_eq_map_range]
    simp only [Nat.succ_eq_add_one, Nat.add_comm 1, List.filter_map, List.map_map]
    apply List.map_congr_left
    intro j hj
    have hj' : j < n := by
      have := (List.mem_filter.mp hj).1
      simpa using this
    simp only [Function.comp]
    rw [Nat.mod_eq_of_lt (hfit (j + 1) (by omega))]

/-- When every boundary after the first is at a positive position, the filter
keeps all of them. -/
theorem filter_positive_all {α : Type} (secs : List (Section α))
    (hfirst : 0 < cumExpanded secs 1) :
    ((List.range' 1 (secs.length - 1)).filter fun j => 0 < cumExpanded secs j) =
      List.range' 1 (secs.length - 1) := by
  rw [List.filter_eq_self]
  intro j hj
  have hj1 : 1 ≤ j := (List.mem_range'_1.mp hj).1
  simpa using lt_of_lt_of_le hfirst (cumExpanded_mono _ 1 j hj1)

/-- C7 (as amended). Event Table Builder: for every recording that passes the
export checks, with channel 0 of `S` sections whose total expanded sample
count fits the 32-bit position field, the event table holds, in ascending
position order, exactly one event for each `j = 1 .. S-1` whose cumulative
expanded sample count of sections `0 .. j-1` is positive; that event has type
0x7ffe, duration 0, channel 0 and that count as position.  When the first
section has positive expanded length these are exactly `S-1` events. -/
theorem event_table_markers {α β : Type} (enc : α → β) (writerOk : Bool) (Data : Recording α)
    (ch0 : Channel α) (h0 : Data.head? = some ch0)
    (hpass : (exportBiosigFile enc writerOk Data).opened = true)
    (hfit : totalExpanded ch0 < 2 ^ 32) :
    (exportBiosigFile enc writerOk Data).EVENT =
      ((List.range' 1 (ch0.size - 1)).filter fun j => 0 < cumExpanded ch0.SectionArray j).map
        (fun j => breakMarker (cumExpanded ch0.SectionArray j)) ∧
    (exportBiosigFile enc writerOk Data).EVENT.Sorted (fun a b => a.POS ≤ b.POS) ∧
    (0 < cumExpanded ch0.SectionArray 1 →
      (exportBiosigFile enc writerOk Data).EVENT =
        (List.range' 1 (ch0.size - 1)).map
          (fun j => breakMarker (cumExpanded ch0.SectionArray j)) ∧
      (exportBiosigFile enc writerOk Data).EVENT.length = ch0.size - 1) := by
  obtain ⟨st, layout, bpb, _, _, _, hres⟩ := export_opened enc writerOk Data hpass
  have hfit' : ∀ j, j < ch0.SectionArray.length → cumExpanded ch0.SectionArray j < 2 ^ 32 :=
    fun j _ => lt_of_le_of_lt (cumExpanded_le _ j) hfit
  have hs := eventLoop_sorted ch0.SectionArray 0 (by
    intro j hj
    rw [Nat.zero_add]
    exact hfit' j hj)
  have hev : (exportBiosigFile enc writerOk Data).EVENT = eventLoop ch0.SectionArray 0 := by
    rw [hres, h0]
    exact sort_eventtable_sorted _ hs.2
  have hform := eventLoop_form ch0.SectionArray hfit'
  refine ⟨by rw [hev, hform]; rfl, by rw [hev]; exact hs.2, ?_⟩
  intro hfirst
  rw [hev, hform, filter_positive_all _ hfirst]
  exact ⟨rfl, by simp [Channel.size]⟩

/-- C7 at the mixed-rate example: one event, the marker at position 3. -/
theorem event_table_markers_witness :
    (exportBiosigFile (β := Nat) id true mixedRateExample).EVENT =
      ((List.range' 1 ((chan [⟨[10, 11, 12], 1⟩, ⟨[20], 3⟩] : Channel Nat).size - 1)).filter
        fun j => 0 < cumExpanded (chan [⟨[10, 11, 12], 1⟩, ⟨[20], 3⟩] : Channel Nat).SectionArray j).map
        (fun j => breakMarker
          (cumExpanded (chan [⟨[10, 11, 12], 1⟩, ⟨[20], 3⟩] : Channel Nat).SectionArray j)) ∧
    (exportBiosigFile (β := Nat) id true mixedRateExample).EVENT.Sorted
      (fun a b => a.POS ≤ b.POS) ∧
    (0 < cumExpanded (chan [⟨[10, 11, 12], 1⟩, ⟨[20], 3⟩] : Channel Nat).SectionArray 1 →
      (exportBiosigFile (β := Nat) id true mixedRateExample).EVENT =
        (List.range' 1 ((chan [⟨[10, 11, 12], 1⟩, ⟨[20], 3⟩] : Channel Nat).size - 1)).map
          (fun j => breakMarker
            (cumExpanded (chan [⟨[10, 11, 12], 1⟩, ⟨[20], 3⟩] : Channel Nat).SectionArray j)) ∧
      (exportBiosigFile (β := Nat) id true mixedRateExample).EVENT.length =
        (chan [⟨[10, 11, 12], 1⟩, ⟨[20], 3⟩] : Channel Nat).size - 1) :=
  event_table_markers id true mixedRateExample (chan [⟨[10, 11, 12], 1⟩, ⟨[20], 3⟩]) rfl
    (by decide) (by decide)

/-- C7 as stated fails: a one-channel recording with two sections, the first
one empty, passes the checks and its event table is empty, not `S-1 = 1`
events, because the marker is written only when `pos > 0`. -/
theorem event_table_markers_counterexample :
    (exportBiosigFile (β := Nat) id true emptyFirstExample).error = none ∧
    emptyFirstExample.map Channel.size = [2] ∧
    (exportBiosigFile (β := Nat) id true emptyFirstExample).EVENT.length ≠ 2 - 1 := by
  decide

/-- C5 at the mixed-rate example (divisors 1 and 3, `hdr->SPR = 3`): the
export succeeds, the first sample of the section with divisor 1 is stored
three times and the sample of the section with divisor 3 once: the number of
stores is `hdr->SPR / div`, not `div`. -/
theorem packer_repetition_failing_input :
    (exportBiosigFile (β := Nat) id true mixedRateExample).error = none ∧
    (exportBiosigFile (β := Nat) id true mixedRateExample).SPR = 3 ∧
    ((exportBiosigFile (β := Nat) id true mixedRateExample).stores.filter
      fun s => s.k = 0 ∧ s.m = 0 ∧ s.n = 0).length = 3 ∧
    ((exportBiosigFile (β := Nat) id true mixedRateExample).stores.filter
      fun s => s.k = 0 ∧ s.m = 1 ∧ s.n = 0).length = 1 := by
  decide

/-- C6 at the mixed-rate example: every divisor divides `hdr->SPR = 3`, yet
the samples 10, 11 and 12 of section 0 are all stored at byte offset 0, and
the six words of the final buffer hold 12, 20, 12 and three cells never
written: the samples 10 and 11 are gone. -/
theorem packer_overwrites_failing_input :
    (exportBiosigFile (β := Nat) id true mixedRateExample).error = none ∧
    (∀ d ∈ allDivisors mixedRateExample,
      d ∣ (exportBiosigFile (β := Nat) id true mixedRateExample).SPR) ∧
    ((exportBiosigFile (β := Nat) id true mixedRateExample).stores.filter
      fun s => s.offset = 0).map (fun s => (s.m, s.n, s.val)) =
        [(0, 0, 10), (0, 1, 11), (0, 2, 12)] ∧
    rawdataWords (exportBiosigFile (β := Nat) id true mixedRateExample) =
      [some 12, some 20, some 12, none, none, none] := by
  decide

theorem packSection_cell {α β : Type} (enc : α → β) (len k m i : Nat) (data : List α) :
    ∀ (n : Nat) (cell : Option β),
    (packSection enc 1 8 0 1 len k m data n).foldl (storeCell (8 * i)) cell =
      if len + n ≤ i ∧ i < len + n + data.length then (data[i - (len + n)]?).map enc
      else cell := by
  induction data with
  | nil =>
    intro n cell
    simp only [packSection, List.foldl_nil, List.length_nil, Nat.add_zero]
    rw [if_neg (by omega)]
  | cons d rest ih =>
    intro n cell
    have hr : List.range 1 = [0] := rfl
    simp only [packSection, packSample, Nat.div_self Nat.one_pos, hr, List.map_cons,
      List.map_nil, List.singleton_append, List.foldl_cons, List.length_cons]
    rw [ih]
    simp only [storeCell, Nat.mul_one, Nat.div_one, Nat.zero_mul, Nat.add_zero, Nat.zero_add]
    by_cases h2 : len + (n + 1) ≤ i ∧ i < len + (n + 1) + rest.length
    · rw [if_pos h2, if_pos (by omega)]
      have e : i - (len + n) = (i - (len + (n + 1))) + 1 := by omega
      rw [e, List.getElem?_cons_succ]
    · rw [if_neg h2]
      by_cases h1 : i = len + n
      · subst h1
        rw [if_pos rfl, if_pos (by omega)]
        simp
      · have h3 : ¬ (8 * (len + n) = 8 * i) := by omega
        rw [if_neg h3, if_neg (by omega)]

theorem packChannel_cell {α β : Type} (enc : α → β) (k i : Nat) (secs : List (Section α))
    (h1 : ∀ s ∈ secs, s.xdiv = 1) : ∀ (m len : Nat) (cell : Option β),
    (packChannel enc 1 8 0 k secs m len).foldl (storeCell (8 * i)) cell =
      if len ≤ i ∧ i < len + (flatSamples secs).length then
        ((flatSamples secs)[i - len]?).map enc
      else cell := by
  induction secs with
  | nil =>
    intro m len cell
    simp only [packChannel, List.foldl_nil, flatSamples, List.flatMap_nil, List.length_nil,
      Nat.add_zero]
    rw [if_neg (by omega)]
  | cons s rest ih =>
    intro m len cell
    have hs : s.xdiv = 1 := h1 s (List.mem_cons_self _ _)
    simp only [packChannel, List.foldl_append, hs, Nat.one_mul]
    rw [ih (fun t ht => h1 t (List.mem_cons_of_mem _ ht)), packSection_cell]
    simp only [Nat.add_zero, Section.size, flatSamples, List.flatMap_cons, List.length_append]
    by_cases ha : len ≤ i ∧ i < len + s.data.length
    · rw [if_neg (by omega), if_pos ha, if_pos (by omega),
        List.getElem?_append_left (by omega)]
    · rw [if_neg ha]
      by_cases hb : len + s.data.length ≤ i ∧
          i < len + s.data.length + (rest.flatMap Section.data).length
      · rw [if_pos hb, if_pos (by omega), List.getElem?_append_right (by omega)]
        congr 2
        omega
      · rw [if_neg hb, if_neg (by omega)]

theorem channelRate_one {α : Type} (secs : List (Section α))
    (h1 : ∀ s ∈ secs, s.xdiv = 1) : ∀ len : Nat,
    channelRate secs (1, len) = (1, len + (flatSamples secs).length) := by
  induction secs with
  | nil => intro len; simp [channelRate, flatSamples]
  | cons s rest ih =>
    intro len
    have hs : s.xdiv = 1 := h1 s (List.mem_cons_self _ _)
    have e : lcm 1 (1 % 2 ^ 32) = 1 := by decide
    simp only [channelRate, hs, e]
    rw [ih (fun t ht => h1 t (List.mem_cons_of_mem _ ht))]
    simp only [flatSamples, List.flatMap_cons, List.length_append, Section.size]
    congr 1
    omega

theorem segmentCheck_single {α : Type} (ch : Channel α) : segmentCheck [ch] = true := by
  simp [segmentCheck]

/-- The export of a one-channel recording whose sections all have divisor 1. -/
theorem export_single_rate {α β : Type} (enc : α → β) (writerOk : Bool) (ch : Channel α)
    (h1 : ∀ s ∈ ch.SectionArray, s.xdiv = 1) :
    exportBiosigFile enc writerOk [ch] =
      { error := if writerOk then none else some .writerFailure
        stores := packChannel enc 1 8 0 0 ch.SectionArray 0 0
        opened := true
        ifwrite := if writerOk then some (8, (flatSamples ch.SectionArray).length) else none
        EVENT := sort_eventtable (eventLoop ch.SectionArray 0)
        SPR := 1, bpb := 8, NRec := (flatSamples ch.SectionArray).length
        layout := [(1, 0)] } := by
  have e : lcm 1 1 = 1 := by decide
  unfold exportBiosigFile
  simp only [rateLoop, channelRate_one ch.SectionArray h1 0, e, if_true, List.nil_append,
    Nat.zero_add, blockLayout, segmentCheck_single]
  simp [packLoop]

theorem rawdataAt_single_rate {α β : Type} (enc : α → β) (secs : List (Section α))
    (h1 : ∀ s ∈ secs, s.xdiv = 1) (i : Nat) :
    rawdataAt (packChannel enc 1 8 0 0 secs 0 0) (8 * i) = ((flatSamples secs)[i]?).map enc := by
  unfold rawdataAt
  rw [packChannel_cell enc 0 i secs h1 0 0 none]
  simp only [Nat.zero_le, true_and, Nat.zero_add, Nat.sub_zero]
  split
  · rfl
  · rw [List.getElem?_eq_none (by omega)]
    rfl

theorem rawdataWords_single_rate {α β : Type} (enc : α → β) (writerOk : Bool) (ch : Channel α)
    (h1 : ∀ s ∈ ch.SectionArray, s.xdiv = 1) :
    rawdataWords (exportBiosigFile enc writerOk [ch]) =
      (flatSamples ch.SectionArray).map fun d => some (enc d) := by
  rw [export_single_rate enc writerOk ch h1]
  simp only [rawdataWords, Nat.mul_div_cancel_left _ (by decide : 0 < 8)]
  apply List.ext_getElem?
  intro i
  by_cases hi : i < (flatSamples ch.SectionArray).length
  · rw [List.getElem?_map, List.getElem?_range hi, List.getElem?_map]
    simp only [Option.map_some']
    rw [rawdataAt_single_rate enc _ h1 i, List.getElem?_eq_getElem hi]
    rfl
  · rw [List.getElem?_eq_none (by simp; omega), List.getElem?_eq_none (by simp; omega)]

theorem sectionLoop_succeeds {α : Type} (data : Nat → α) (NS SPR : Nat) (Seg : List Nat)
    (l : List Nat) : ∀ (ch : Channel α),
    (∀ ns ∈ l, ns - 1 < ch.SectionArray.length ∧ Seg.getD (ns - 1) 0 ≤ Seg.getD ns 0) →
    ∃ ch', sectionLoop (stfHost α) data NS SPR Seg l ch = .ok ch' := by
  induction l with
  | nil => intro ch _; exact ⟨ch, rfl⟩
  | cons ns rest ih =>
    intro ch h
    obtain ⟨h1, h2⟩ := h ns (List.mem_cons_self _ _)
    simp only [sectionLoop, stfHost, Channel.InsertSection]
    rw [if_neg (by omega), if_pos h1]
    simp only
    apply ih
    intro n hn
    have := h n (List.mem_cons_of_mem _ hn)
    simpa using this

/-- The import of a one-channel header without error flags, into an empty
recording, when the boundary list is non-decreasing. -/
theorem import_single_channel {α : Type} (PhysDim3 : Nat → String) (BIOSIG_VERSION : Nat)
    (hdr : HDRTYPE α) (hc : CHANNEL_TYPE) (Seg : List Nat) (nsections : Nat)
    (habf : hdr.isABF = false) (herr : hdr.B4C_ERRNUM = 0)
    (hch : hdr.CHANNEL = [hc]) (hon : hc.OnOff = 1)
    (hseg : segIndexList (sort_eventtable hdr.EVENT) (hdr.NRec * hdr.SPR) =
      some (Seg, nsections))
    (hmono : ∀ j, j < nsections → Seg.getD j 0 ≤ Seg.getD (j + 1) 0) :
    ∃ ch', importBSFile (stfHost α) PhysDim3 BIOSIG_VERSION (some hdr) [] = ⟨none, [ch']⟩ ∧
      ch'.SectionArray =
        (List.range nsections).map (sectionAt hdr.data 0 (hdr.NRec * hdr.SPR) Seg) := by
  have hon' : (rescaleCode hc).OnOff = 1 := by rw [rescaleCode_OnOff, hon]
  obtain ⟨chx, hsec⟩ := sectionLoop_succeeds hdr.data 0 (hdr.NRec * hdr.SPR) Seg
    (List.range' 1 nsections)
    ({ Channel.ofSize α nsections with
        ChannelName := (rescaleCode hc).Label
        YUnits := PhysDim3 (rescaleCode hc).PhysDimCode } : Channel α) (by
      intro ns hns
      obtain ⟨a1, a2⟩ := List.mem_range'_1.mp hns
      have := hmono (ns - 1) (by omega)
      rw [show ns - 1 + 1 = ns by omega] at this
      exact ⟨by simp [Channel.ofSize]; omega, this⟩)
  have hfull := sectionLoop_full hdr.data 0 (hdr.NRec * hdr.SPR) Seg nsections _ chx
    (by simp [Channel.ofSize]) hsec
  refine ⟨chx, ?_, hfull⟩
  unfold importBSFile
  simp only [habf, herr, hseg, hch, List.map_cons, List.map_nil, channelLoop, hon', hon]
  simp only [Bool.false_eq_true, false_and, if_false, ne_eq, not_true_eq_false,
    one_ne_zero, hsec]
  simp [Recording.resize, stfHost, Recording.InsertChannel, hon, channelLoop]

theorem flat_slice {α : Type} (secs : List (Section α)) (h1 : ∀ s ∈ secs, s.xdiv = 1) :
    ∀ (s : Nat) (sec : Section α), secs[s]? = some sec →
    cumExpanded secs (s + 1) = cumExpanded secs s + sec.data.length ∧
    ∀ i, i < sec.data.length →
      (flatSamples secs)[cumExpanded secs s + i]? = sec.data[i]? := by
  induction secs with
  | nil => intro s sec h; simp at h
  | cons s0 rest ih =>
    intro s sec h
    have hs0 : s0.xdiv = 1 := h1 s0 (List.mem_cons_self _ _)
    cases s with
    | zero =>
      simp only [List.getElem?_cons_zero, Option.some.injEq] at h
      subst h
      refine ⟨by simp [cumExpanded, Section.size, hs0], ?_⟩
      intro i hi
      rw [cumExpanded_zero, Nat.zero_add]
      simp only [flatSamples, List.flatMap_cons]
      rw [List.getElem?_append_left hi]
    | succ s =>
      simp only [List.getElem?_cons_succ] at h
      obtain ⟨i1, i2⟩ := ih (fun t ht => h1 t (List.mem_cons_of_mem _ ht)) s sec h
      rw [cumExpanded_cons_succ, cumExpanded_cons_succ, i1]
      refine ⟨by omega, ?_⟩
      intro i hi
      simp only [flatSamples, List.flatMap_cons, hs0, Nat.mul_one, Section.size]
      rw [List.getElem?_append_right (by omega)]
      rw [show s0.data.length + cumExpanded rest s + i - s0.data.length =
        cumExpanded rest s + i by omega]
      exact i2 i hi

theorem range_succ_succ (n : Nat) :
    List.range (n + 2) = 0 :: List.range' 1 n ++ [n + 1] := by
  rw [List.range_succ, List.range_succ_eq_map, List.range'_eq_map_range]
  simp [Nat.add_comm 1]

theorem breakPositions_markers (l : List Nat) (f : Nat → Nat) :
    breakPositions (l.map fun j => breakMarker (f j)) = l.map f := by
  induction l with
  | nil => rfl
  | cons a l ih =>
    rw [List.map_cons, breakPositions_cons_break _ _ rfl, ih]
    rfl

theorem flatSamples_length {α : Type} (secs : List (Section α)) (h1 : ∀ s ∈ secs, s.xdiv = 1) :
    (flatSamples secs).length = cumExpanded secs secs.length := by
  rw [cumExpanded_full]
  induction secs with
  | nil => rfl
  | cons s rest ih =>
    have hs : s.xdiv = 1 := h1 s (List.mem_cons_self _ _)
    simp only [flatSamples, List.flatMap_cons, List.length_append, List.map_cons,
      List.sum_cons, hs, Nat.mul_one, Section.size]
    have := ih (fun t ht => h1 t (List.mem_cons_of_mem _ ht))
    simp only [flatSamples, Section.size] at this
    rw [this]

theorem getD_map_range (f : Nat → Nat) (m j : Nat) (h : j < m) :
    ((List.range m).map f).getD j 0 = f j := by
  rw [List.getD_eq_getElem?_getD, List.getElem?_map, List.getElem?_range h]
  rfl

/-- The sections cut out of the buffer written for `secs` at the boundaries
`cumExpanded secs j` are the sections `secs`, sample by sample. -/
theorem sections_of_cells {α β : Type} (enc : α → β) (secs : List (Section α))
    (h1 : ∀ s ∈ secs, s.xdiv = 1) (total : Nat) :
    ((List.range secs.length).map
      (sectionAt (fun i => rawdataAt (packChannel enc 1 8 0 0 secs 0 0) (8 * i)) 0 total
        ((List.range (secs.length + 1)).map (cumExpanded secs)))).map Section.data =
    secs.map fun s => s.data.map fun d => some (enc d) := by
  apply List.ext_getElem?
  intro s
  by_cases hs : s < secs.length
  · simp only [List.getElem?_map, List.getElem?_range hs, List.getElem?_eq_getElem hs,
      Option.map_some', Option.some.injEq, sectionAt]
    rw [getD_map_range _ _ _ (by omega), getD_map_range _ _ _ (by omega)]
    obtain ⟨i1, i2⟩ := flat_slice secs h1 s secs[s] (List.getElem?_eq_getElem hs)
    rw [i1, Nat.add_sub_cancel_left, Nat.zero_mul, Nat.zero_add]
    apply List.ext_getElem?
    intro i
    by_cases hi : i < secs[s].data.length
    · rw [copyRange_getElem? _ _ _ _ hi, rawdataAt_single_rate enc secs h1, i2 i hi,
        List.getElem?_map, List.getElem?_eq_getElem hi]
      rfl
    · rw [List.getElem?_eq_none (by rw [copyRange_length]; omega),
        List.getElem?_eq_none (by rw [List.length_map]; omega)]
  · rw [List.getElem?_eq_none (by simp; omega), List.getElem?_eq_none (by simp; omega)]

/-- C8 (as amended). Round trip export then import: for every one-channel
recording with at least one section, all divisors 1, a non-empty first section
when there are several sections, and fewer than 2^32 samples, the export
succeeds, and importing what it wrote (packed words, event table, record count
times samples per record) gives one channel with the same number of sections,
each with the same samples in the same order. -/
theorem export_import_round_trip {α β : Type} (enc : α → β) (PhysDim3 : Nat → String)
    (BIOSIG_VERSION : Nat) (ch : Channel α)
    (h1 : ∀ s ∈ ch.SectionArray, s.xdiv = 1)
    (hne : ch.SectionArray ≠ [])
    (hfirst : 2 ≤ ch.size → 0 < cumExpanded ch.SectionArray 1)
    (hfit : totalExpanded ch < 2 ^ 32) :
    (exportBiosigFile enc true [ch]).error = none ∧
    ∃ ch', importBSFile (stfHost (Option β)) PhysDim3 BIOSIG_VERSION
        (some (readBack (exportBiosigFile enc true [ch]))) [] = ⟨none, [ch']⟩ ∧
      ch'.SectionArray.map Section.data =
        ch.SectionArray.map fun s => s.data.map fun d => some (enc d) := by
  have hexp := export_single_rate enc true ch h1
  refine ⟨by rw [hexp]; rfl, ?_⟩
  have hfit' : ∀ j, j < ch.SectionArray.length → cumExpanded ch.SectionArray j < 2 ^ 32 :=
    fun j _ => lt_of_le_of_lt (cumExpanded_le _ j) hfit
  have hs := eventLoop_sorted ch.SectionArray 0 (by
    intro j hj
    rw [Nat.zero_add]
    exact hfit' j hj)
  have hkeep : ((List.range' 1 (ch.SectionArray.length - 1)).filter
      fun j => 0 < cumExpanded ch.SectionArray j) =
        List.range' 1 (ch.SectionArray.length - 1) := by
    by_cases h2 : 2 ≤ ch.size
    · exact filter_positive_all _ (hfirst h2)
    · have : ch.SectionArray.length - 1 = 0 := by
        simp only [Channel.size] at h2
        omega
      rw [this]
      rfl
  have hev : eventLoop ch.SectionArray 0 =
      (List.range' 1 (ch.SectionArray.length - 1)).map
        (fun j => breakMarker (cumExpanded ch.SectionArray j)) := by
    rw [eventLoop_form _ hfit', hkeep]
  obtain ⟨n, hn⟩ : ∃ n, ch.SectionArray.length = n + 1 :=
    ⟨ch.SectionArray.length - 1, by
      have := List.length_pos.mpr hne
      omega⟩
  have hEV : (readBack (exportBiosigFile enc true [ch])).EVENT = eventLoop ch.SectionArray 0 := by
    rw [hexp]
    exact sort_eventtable_sorted _ hs.2
  have hT : (readBack (exportBiosigFile enc true [ch])).NRec *
      (readBack (exportBiosigFile enc true [ch])).SPR =
        cumExpanded ch.SectionArray ch.SectionArray.length := by
    rw [hexp]
    simp only [readBack, Nat.mul_one]
    exact flatSamples_length _ h1
  have hdata : (readBack (exportBiosigFile enc true [ch])).data =
      fun i => rawdataAt (packChannel enc 1 8 0 0 ch.SectionArray 0 0) (8 * i) := by
    rw [hexp]
    rfl
  have hseg : segIndexList (sort_eventtable (readBack (exportBiosigFile enc true [ch])).EVENT)
      ((readBack (exportBiosigFile enc true [ch])).NRec *
        (readBack (exportBiosigFile enc true [ch])).SPR) =
      some ((List.range (ch.SectionArray.length + 1)).map (cumExpanded ch.SectionArray),
        ch.SectionArray.length) := by
    rw [hEV, sort_eventtable_sorted _ hs.2, segIndexList_eq, hT, hev, breakPositions_markers,
      hn, Nat.add_sub_cancel, range_succ_succ]
    simp [cumExpanded_zero]
  obtain ⟨ch', k1, k2⟩ := import_single_channel PhysDim3 BIOSIG_VERSION
    (readBack (exportBiosigFile enc true [ch])) ⟨1, "", 0⟩ _ _ rfl rfl rfl rfl hseg (by
      intro j hj
      rw [getD_map_range _ _ _ (by omega), getD_map_range _ _ _ (by omega)]
      exact cumExpanded_mono _ _ _ (by omega))
  refine ⟨ch', k1, ?_⟩
  rw [k2, hdata]
  exact sections_of_cells enc ch.SectionArray h1 _

/-- C8 at a channel with sections `[10, 11, 12]` and `[20, 21]`. -/
theorem export_import_round_trip_witness :
    (exportBiosigFile (β := Nat) id true [singleRateExample]).error = none ∧
    ∃ ch', importBSFile (stfHost (Option Nat)) (fun _ => "mV") 10600
        (some (readBack (exportBiosigFile (β := Nat) id true [singleRateExample]))) []
          = ⟨none, [ch']⟩ ∧
      ch'.SectionArray.map Section.data =
        singleRateExample.SectionArray.map fun s => s.data.map fun d => some (id d) :=
  export_import_round_trip id (fun _ => "mV") 10600 singleRateExample
    (by decide) (by decide) (by decide) (by decide)

/-- C8 as stated fails: a one-channel recording with divisors 1 and two
sections, the first one empty, passes the checks, but the export writes no
marker and the import of what was written yields one section, not two. -/
theorem export_import_round_trip_counterexample :
    (exportBiosigFile (β := Nat) id true emptyFirstExample).error = none ∧
    emptyFirstExample.map Channel.size = [2] ∧
    (importBSFile (stfHost (Option Nat)) (fun _ => "mV") 10600
      (some (readBack (exportBiosigFile (β := Nat) id true emptyFirstExample)))
      []).ReturnData.map Channel.size = [1] := by
  decide

theorem copyRange_append {α : Type} (data : Nat → α) (off a b : Nat) :
    copyRange data off a ++ copyRange data (off + a) b = copyRange data off (a + b) := by
  simp only [copyRange]
  rw [List.range_add, List.map_append, List.map_map]
  congr 1
  apply List.map_congr_left
  intro i _
  simp [Nat.add_assoc]

theorem flat_of_slices {α : Type} (data : Nat → α) (total : Nat) (Seg : List Nat)
    (h0 : Seg.getD 0 0 = 0) : ∀ n : Nat,
    (∀ j, j < n → Seg.getD j 0 ≤ Seg.getD (j + 1) 0) →
    flatSamples ((List.range n).map (sectionAt data 0 total Seg)) =
      copyRange data 0 (Seg.getD n 0) := by
  intro n
  induction n with
  | zero =>
    intro _
    rw [h0]
    rfl
  | succ n ih =>
    intro hmono
    have hn := hmono n (by omega)
    have e := ih (fun j hj => hmono j (by omega))
    simp only [flatSamples] at e ⊢
    rw [List.range_succ, List.map_append, List.flatMap_append, e]
    simp only [List.map_cons, List.map_nil, List.flatMap_cons, List.flatMap_nil,
      List.append_nil, sectionAt, Nat.zero_mul]
    rw [copyRange_append]
    congr 1
    omega

theorem sorted_getD_step (l : List Nat) (h : l.Sorted (· ≤ ·)) (j : Nat)
    (hj : j + 1 < l.length) : l.getD j 0 ≤ l.getD (j + 1) 0 := by
  rw [List.getD_eq_getElem l 0 (by omega), List.getD_eq_getElem l 0 hj]
  exact List.pairwise_iff_getElem.mp h j (j + 1) (by omega) hj (Nat.lt_succ_self j)

theorem boundaries_sorted (ps : List Nat) (total : Nat) (h : ps.Sorted (· ≤ ·))
    (hle : ∀ p ∈ ps, p ≤ total) : (0 :: ps ++ [total]).Sorted (· ≤ ·) := by
  rw [List.cons_append, List.sorted_cons]
  refine ⟨fun b _ => Nat.zero_le b, ?_⟩
  unfold List.Sorted
  rw [List.pairwise_append]
  refine ⟨h, List.pairwise_singleton _ _, ?_⟩
  intro a ha b hb
  rw [List.mem_singleton] at hb
  rw [hb]
  exact hle a ha

theorem breakPositions_all (events : List Event) (h : ∀ e ∈ events, e.TYP = BREAK) :
    breakPositions events = events.map Event.POS := by
  induction events with
  | nil => rfl
  | cons e es ih =>
    rw [breakPositions_cons_break e es (h e (List.mem_cons_self _ _)),
      ih (fun x hx => h x (List.mem_cons_of_mem _ hx))]
    rfl

theorem cumExpanded_eq_flat {α : Type} (secs : List (Section α))
    (h1 : ∀ s ∈ secs, s.xdiv = 1) (j : Nat) :
    cumExpanded secs j = (flatSamples (secs.take j)).length := by
  rw [flatSamples_length _ (fun s hs => h1 s (List.mem_of_mem_take hs)), cumExpanded_full]
  rfl

/-- The cumulative lengths of the sections cut at the boundaries `Seg` are
the boundaries. -/
theorem cumExpanded_slices {α : Type} (data : Nat → α) (total : Nat) (Seg : List Nat)
    (h0 : Seg.getD 0 0 = 0) (n : Nat)
    (hmono : ∀ j, j < n → Seg.getD j 0 ≤ Seg.getD (j + 1) 0) (j : Nat) (hj : j ≤ n) :
    cumExpanded ((List.range n).map (sectionAt data 0 total Seg)) j = Seg.getD j 0 := by
  rw [cumExpanded_eq_flat _ (by
    intro s hs
    obtain ⟨i, _, rfl⟩ := List.mem_map.mp hs
    rfl)]
  rw [← List.map_take, List.take_range, Nat.min_eq_left hj,
    flat_of_slices data total Seg h0 j (fun i hi => hmono i (by omega)), copyRange_length]

/-- C9. Round trip import then export: for every one-channel flat input
without error flags, whose events are break markers at strictly increasing
32-bit positions inside `(0, T)`, `T = NRec*SPR` samples, the import into an
empty recording succeeds with one channel, and exporting that recording
succeeds, writes `T` records of 8 bytes whose words are the encodings of the
samples `flat[0] .. flat[T-1]` in order, and produces as event table exactly
the break markers at the positions of the input. -/
theorem import_export_round_trip {α β : Type} (enc : α → β) (PhysDim3 : Nat → String)
    (BIOSIG_VERSION : Nat) (hdr : HDRTYPE α) (hc : CHANNEL_TYPE)
    (habf : hdr.isABF = false) (herr : hdr.B4C_ERRNUM = 0)
    (hch : hdr.CHANNEL = [hc]) (hon : hc.OnOff = 1)
    (hev : ∀ e ∈ hdr.EVENT,
      e.TYP = BREAK ∧ 0 < e.POS ∧ e.POS < hdr.NRec * hdr.SPR ∧ e.POS < 2 ^ 32)
    (hsorted : hdr.EVENT.Sorted fun a b => a.POS < b.POS) :
    ∃ ch', importBSFile (stfHost α) PhysDim3 BIOSIG_VERSION (some hdr) [] = ⟨none, [ch']⟩ ∧
      (exportBiosigFile enc true [ch']).error = none ∧
      (exportBiosigFile enc true [ch']).ifwrite = some (8, hdr.NRec * hdr.SPR) ∧
      rawdataWords (exportBiosigFile enc true [ch']) =
        (List.range (hdr.NRec * hdr.SPR)).map (fun i => some (enc (hdr.data i))) ∧
      (exportBiosigFile enc true [ch']).EVENT = hdr.EVENT.map fun e => breakMarker e.POS := by
  have hsle : hdr.EVENT.Sorted fun a b => a.POS ≤ b.POS :=
    hsorted.imp fun h => Nat.le_of_lt h
  have hbp := breakPositions_all hdr.EVENT (fun e he => (hev e he).1)
  have hseg : segIndexList (sort_eventtable hdr.EVENT) (hdr.NRec * hdr.SPR) =
      some (0 :: hdr.EVENT.map Event.POS ++ [hdr.NRec * hdr.SPR], hdr.EVENT.length + 1) := by
    rw [sort_eventtable_sorted _ hsle, segIndexList_eq, hbp, List.length_map]
  have hpsorted : (hdr.EVENT.map Event.POS).Sorted (· ≤ ·) := by
    unfold List.Sorted
    rw [List.pairwise_map]
    exact hsle
  have hSegSorted := boundaries_sorted (hdr.EVENT.map Event.POS) (hdr.NRec * hdr.SPR) hpsorted
    (by
      intro p hp
      obtain ⟨e, he, rfl⟩ := List.mem_map.mp hp
      exact Nat.le_of_lt (hev e he).2.2.1)
  have hmono : ∀ j, j < hdr.EVENT.length + 1 →
      (0 :: hdr.EVENT.map Event.POS ++ [hdr.NRec * hdr.SPR]).getD j 0 ≤
        (0 :: hdr.EVENT.map Event.POS ++ [hdr.NRec * hdr.SPR]).getD (j + 1) 0 :=
    fun j hj => sorted_getD_step _ hSegSorted j (by simp; omega)
  obtain ⟨ch', k1, k2⟩ := import_single_channel PhysDim3 BIOSIG_VERSION hdr hc _ _
    habf herr hch hon hseg hmono
  have h1 : ∀ s ∈ ch'.SectionArray, s.xdiv = 1 := by
    intro s hs
    rw [k2] at hs
    obtain ⟨i, _, rfl⟩ := List.mem_map.mp hs
    rfl
  have hcum : ∀ j, j ≤ hdr.EVENT.length + 1 → cumExpanded ch'.SectionArray j =
      (0 :: hdr.EVENT.map Event.POS ++ [hdr.NRec * hdr.SPR]).getD j 0 := by
    intro j hj
    rw [k2]
    exact cumExpanded_slices hdr.data (hdr.NRec * hdr.SPR)
      (0 :: hdr.EVENT.map Event.POS ++ [hdr.NRec * hdr.SPR]) rfl _ hmono j hj
  have hlast : (0 :: hdr.EVENT.map Event.POS ++ [hdr.NRec * hdr.SPR]).getD
      (hdr.EVENT.length + 1) 0 = hdr.NRec * hdr.SPR := by
    rw [List.cons_append, List.getD_cons_succ, List.getD_append_right _ _ _ _ (by simp)]
    simp
  have hmid : ∀ j, j < hdr.EVENT.length →
      (0 :: hdr.EVENT.map Event.POS ++ [hdr.NRec * hdr.SPR]).getD (j + 1) 0 =
        (hdr.EVENT.map Event.POS).getD j 0 := by
    intro j hj
    rw [List.cons_append, List.getD_cons_succ, List.getD_append _ _ _ _ (by simpa using hj)]
  have hlen : ch'.SectionArray.length = hdr.EVENT.length + 1 := by
    rw [k2]; simp
  have hflat : flatSamples ch'.SectionArray = copyRange hdr.data 0 (hdr.NRec * hdr.SPR) := by
    rw [k2, flat_of_slices hdr.data (hdr.NRec * hdr.SPR)
      (0 :: hdr.EVENT.map Event.POS ++ [hdr.NRec * hdr.SPR]) rfl _ hmono, hlast]
  have hexp := export_single_rate enc true ch' h1
  have hpos : ∀ j, j < hdr.EVENT.length →
      0 < (hdr.EVENT.map Event.POS).getD j 0 ∧ (hdr.EVENT.map Event.POS).getD j 0 < 2 ^ 32 := by
    intro j hj
    rw [List.getD_eq_getElem _ 0 (by simpa using hj), List.getElem_map]
    have := hev hdr.EVENT[j] (List.getElem_mem _)
    exact ⟨this.2.1, this.2.2.2⟩
  have hfit' : ∀ j, j < ch'.SectionArray.length → cumExpanded ch'.SectionArray j < 2 ^ 32 := by
    intro j hj
    rw [hcum j (by omega)]
    cases j with
    | zero => simp
    | succ j =>
      rw [hmid j (by omega)]
      exact (hpos j (by omega)).2
  have hs := eventLoop_sorted ch'.SectionArray 0 (by
    intro j hj
    rw [Nat.zero_add]
    exact hfit' j hj)
  have hkeep : ((List.range' 1 (ch'.SectionArray.length - 1)).filter
      fun j => 0 < cumExpanded ch'.SectionArray j) =
        List.range' 1 (ch'.SectionArray.length - 1) := by
    rw [List.filter_eq_self]
    intro j hj
    obtain ⟨a1, a2⟩ := List.mem_range'_1.mp hj
    obtain ⟨i, rfl⟩ : ∃ i, j = i + 1 := ⟨j - 1, by omega⟩
    rw [hcum _ (by omega), hmid i (by omega)]
    simpa using (hpos i (by omega)).1
  refine ⟨ch', k1, by rw [hexp]; rfl, ?_, ?_, ?_⟩
  · rw [hexp, hflat, copyRange_length]
    rfl
  · rw [rawdataWords_single_rate enc true ch' h1, hflat]
    simp [copyRange]
  · rw [hexp]
    simp only
    rw [sort_eventtable_sorted _ hs.2, eventLoop_form _ hfit', hkeep, hlen, Nat.add_sub_cancel]
    apply List.ext_getElem?
    intro i
    by_cases hi : i < hdr.EVENT.length
    · rw [List.getElem?_map, List.getElem?_map, List.getElem?_eq_getElem hi,
        List.getElem?_eq_getElem (by simpa using hi)]
      simp only [Option.map_some', Option.some.injEq, List.getElem_range']
      rw [show 1 + 1 * i = i + 1 by omega, hcum _ (by omega), hmid i hi,
        List.getD_eq_getElem _ 0 (by simpa using hi), List.getElem_map]
    · rw [List.getElem?_eq_none (by simp; omega), List.getElem?_eq_none (by simp; omega)]

/-- C9 at the flat example: five samples, one marker at position 3. -/
theorem import_export_round_trip_witness :
    ∃ ch', importBSFile (stfHost Nat) (fun _ => "mV") 10600 (some flatExample) []
        = ⟨none, [ch']⟩ ∧
      (exportBiosigFile (β := Nat) id true [ch']).error = none ∧
      (exportBiosigFile (β := Nat) id true [ch']).ifwrite =
        some (8, flatExample.NRec * flatExample.SPR) ∧
      rawdataWords (exportBiosigFile (β := Nat) id true [ch']) =
        (List.range (flatExample.NRec * flatExample.SPR)).map
          (fun i => some (id (flatExample.data i))) ∧
      (exportBiosigFile (β := Nat) id true [ch']).EVENT =
        flatExample.EVENT.map fun e => breakMarker e.POS :=
  import_export_round_trip id (fun _ => "mV") 10600 flatExample ⟨1, "a", 0⟩ rfl rfl rfl rfl
    (by decide) (by decide)

theorem channelLoop2_spec {α : Type} (physdim : Nat → String) (data : Nat → α)
    (SPR : Nat) (Seg : List Nat) (nsections numberOfChannels : Nat)
    (chans : List CHANNEL_TYPE) : ∀ (NS : Nat) (R : Recording α) (res : ImportResult α),
    channelLoop2 (stfHost α) physdim data SPR Seg nsections numberOfChannels chans NS R = res →
    res.error = none →
    R.length ≤ res.ReturnData.length ∧
    (∀ c, c < NS → c < R.length → res.ReturnData[c]? = R[c]?) ∧
    (∀ c, NS ≤ c → c < NS + chans.length →
      ∃ ch, res.ReturnData[c]? = some ch ∧
        ch.SectionArray = (List.range nsections).map (sectionAt data c SPR Seg)) := by
  induction chans with
  | nil =>
    intro NS R res h _
    simp only [channelLoop2] at h
    subst h
    refine ⟨le_refl _, fun _ _ _ => rfl, ?_⟩
    intro c h1 h2
    simp at h2
    omega
  | cons hc rest ih =>
    intro NS R res h hok
    simp only [channelLoop2] at h
    split at h
    · subst h; simp at hok
    · subst h; simp at hok
    · rename_i ch hsec
      have hR1 : R.length ≤
          (if R.length < numberOfChannels then Recording.resize R numberOfChannels
            else R).length := by
        split
        · exact resize_length_ge R _ (by assumption)
        · exact le_refl _
      have hR1get : ∀ c, c < R.length →
          (if R.length < numberOfChannels then Recording.resize R numberOfChannels
            else R)[c]? = R[c]? := by
        intro c hc
        split
        · exact resize_getElem? R _ c (by assumption) hc
        · rfl
      generalize (if R.length < numberOfChannels then Recording.resize R numberOfChannels
            else R) = R1 at h hR1 hR1get
      simp only [stfHost, Recording.InsertChannel] at h
      by_cases hpos : NS < R1.length
      · rw [if_pos hpos] at h
        simp only at h
        obtain ⟨j0, j1, j2⟩ := ih (NS + 1) (R1.set NS ch) res h hok
        have hsecs := sectionLoop_full data NS SPR Seg nsections _ ch
          (by simp [Channel.ofSize]) hsec
        rw [List.length_set] at j0 j1
        refine ⟨by omega, ?_, ?_⟩
        · intro c h1 h2
          rw [j1 c (by omega) (by omega), List.getElem?_set_ne (by omega)]
          exact hR1get c h2
        · intro c h1 h2
          by_cases hcN : c = NS
          · subst hcN
            refine ⟨ch, ?_, hsecs⟩
            rw [j1 c (by omega) (by omega)]
            simp [List.getElem?_set, hpos]
          · apply j2 c (by omega)
            rw [List.length_cons] at h2
            omega
      · rw [if_neg hpos] at h
        simp only at h
        subst h; simp at hok

theorem segStores_spec (total : Nat) (es : List Event) : ∀ st : SegState,
    st.SegIndexList.length = st.LenIndexList → st.nsections + 2 ≤ st.LenIndexList →
    (segStores total es st).length = (breakPositions es).length + 1 ∧
    ∀ w ∈ segStores total es st, w.1 < w.2 ∧ st.nsections < w.1 := by
  induction es with
  | nil =>
    intro st h1 h2
    have g2 := segGrow_room st h2
    have g4 := segGrow_nsections st
    simp only [segStores, breakPositions_nil, List.length_singleton, List.length_nil,
      List.mem_singleton, true_and]
    intro w hw
    subst hw
    simp only
    omega
  | cons e es ih =>
    intro st h1 h2
    have g1 := segGrow_length st h1
    have g2 := segGrow_room st h2
    have g4 := segGrow_nsections st
    by_cases hb : e.TYP = BREAK
    · obtain ⟨st1, e1, e2, e3, e4, _⟩ := segPush_spec (segGrow st) e.POS (by omega)
      obtain ⟨i1, i2⟩ := ih st1 (by omega) (by omega)
      simp only [segStores, hb, if_true, e1, List.length_cons, List.mem_cons,
        breakPositions_cons_break e es hb]
      refine ⟨by omega, ?_⟩
      rintro w (hw | hw)
      · subst hw
        simp only
        omega
      · have := i2 w hw
        omega
    · obtain ⟨i1, i2⟩ := ih (segGrow st) g1 (by omega)
      simp only [segStores, hb, if_false, breakPositions_cons_other e es hb]
      refine ⟨i1, ?_⟩
      intro w hw
      have := i2 w hw
      omega

/-- C20. Boundary-list growth: in the legacy branch, for every event table and
every total, the boundary loop performs one store per break marker plus the
final one, every store `SegIndexList[++nsections]` targets an index strictly
below the capacity `LenIndexList` at that moment, and the loop completes with
all boundaries stored. -/
theorem boundary_list_growth (events : List Event) (total : Nat) :
    (segStores total events (segInit events.length)).length =
      (breakPositions events).length + 1 ∧
    (∀ w ∈ segStores total events (segInit events.length), w.1 < w.2) ∧
    ∃ st, segLoop total events (segInit events.length) = some st ∧
      st.SegIndexList.take (st.nsections + 1) = 0 :: breakPositions events ++ [total] := by
  have hinit : (segInit events.length).SegIndexList.length =
      (segInit events.length).LenIndexList := by
    simp [segInit]
  have hroom : (segInit events.length).nsections + 2 ≤ (segInit events.length).LenIndexList := by
    simp only [segInit]; split <;> omega
  obtain ⟨a1, a2⟩ := segStores_spec total events _ hinit hroom
  refine ⟨a1, fun w hw => (a2 w hw).1, ?_⟩
  have h := segIndexList_eq events total
  unfold segIndexList at h
  cases hl : segLoop total events (segInit events.length) with
  | none => rw [hl] at h; simp at h
  | some st =>
    rw [hl] at h
    simp only [Option.map_some', Option.some.injEq, Prod.mk.injEq] at h
    exact ⟨st, rfl, h.1⟩

theorem breakPositions_sorted (events : List Event)
    (h : events.Sorted fun a b => a.POS ≤ b.POS) : (breakPositions events).Sorted (· ≤ ·) := by
  unfold breakPositions List.Sorted
  rw [List.pairwise_map]
  exact List.Pairwise.filter _ h

theorem breakPositions_mem (events : List Event) (p : Nat) (hp : p ∈ breakPositions events) :
    ∃ e ∈ events, e.TYP = BREAK ∧ e.POS = p := by
  unfold breakPositions at hp
  obtain ⟨e, he, rfl⟩ := List.mem_map.mp hp
  obtain ⟨h1, h2⟩ := List.mem_filter.mp he
  exact ⟨e, h1, by simpa using h2, rfl⟩

/-- C19 (as amended). Boundary monotonicity: for every event table in ascending
position order whose break markers lie at or below the total sample count
(itself below 2^64), the boundary loop completes, the segment index list is
non-decreasing, and every section length computed in unsigned 64-bit
arithmetic is the true difference of its two boundaries. -/
theorem boundary_monotone (events : List Event) (total : Nat)
    (hsorted : events.Sorted fun a b => a.POS ≤ b.POS)
    (hle : ∀ e ∈ events, e.TYP = BREAK → e.POS ≤ total)
    (hT : total < 2 ^ 64) :
    ∃ boundary nsections, segIndexList events total = some (boundary, nsections) ∧
      boundary.Sorted (· ≤ ·) ∧
      ∀ s, s < nsections →
        boundary.getD s 0 ≤ boundary.getD (s + 1) 0 ∧
        (boundary.getD (s + 1) 0 + 2 ^ 64 - boundary.getD s 0) % 2 ^ 64 =
          boundary.getD (s + 1) 0 - boundary.getD s 0 := by
  have hps := breakPositions_sorted events hsorted
  have hple : ∀ p ∈ breakPositions events, p ≤ total := by
    intro p hp
    obtain ⟨e, he, ht, rfl⟩ := breakPositions_mem events p hp
    exact hle e he ht
  have hS := boundaries_sorted (breakPositions events) total hps hple
  refine ⟨_, _, segIndexList_eq events total, hS, ?_⟩
  intro s hs
  have hlen : (0 :: breakPositions events ++ [total]).length =
      (breakPositions events).length + 2 := by simp
  have hstep := sorted_getD_step _ hS s (by rw [hlen]; omega)
  refine ⟨hstep, ?_⟩
  have hb : (0 :: breakPositions events ++ [total]).getD (s + 1) 0 ≤ total := by
    rw [List.getD_eq_getElem _ 0 (by rw [hlen]; omega)]
    have hall : ∀ x ∈ 0 :: breakPositions events ++ [total], x ≤ total := by
      intro x hx
      rw [List.cons_append, List.mem_cons, List.mem_append, List.mem_singleton] at hx
      rcases hx with h | h | h
      · omega
      · exact hple _ h
      · omega
    exact hall _ (List.getElem_mem _)
  omega

/-- C19 at two markers inside ten samples. -/
theorem boundary_monotone_witness :
    ∃ boundary nsections,
      segIndexList [⟨BREAK, 3, 0, 0⟩, ⟨5, 4, 0, 0⟩, ⟨BREAK, 7, 0, 0⟩] 10 =
        some (boundary, nsections) ∧
      boundary.Sorted (· ≤ ·) ∧
      ∀ s, s < nsections →
        boundary.getD s 0 ≤ boundary.getD (s + 1) 0 ∧
        (boundary.getD (s + 1) 0 + 2 ^ 64 - boundary.getD s 0) % 2 ^ 64 =
          boundary.getD (s + 1) 0 - boundary.getD s 0 :=
  boundary_monotone [⟨BREAK, 3, 0, 0⟩, ⟨5, 4, 0, 0⟩, ⟨BREAK, 7, 0, 0⟩] 10
    (by decide) (by decide) (by decide)

/-- C19 as stated fails: a sorted table with one break marker at position 30
and a total of 10 samples gives the boundaries `[0, 30, 10]`, which decrease,
and the last section length wraps to `2^64 - 20`. -/
theorem boundary_monotone_counterexample :
    ([⟨BREAK, 30, 0, 0⟩] : List Event).Sorted (fun a b => a.POS ≤ b.POS) ∧
    segIndexList [⟨BREAK, 30, 0, 0⟩] 10 = some ([0, 30, 10], 2) ∧
    ¬ ([0, 30, 10] : List Nat).Sorted (· ≤ ·) ∧
    (10 + 2 ^ 64 - 30) % 2 ^ 64 = 2 ^ 64 - 20 := by
  decide

theorem rescaleSteps_no_read (chans : List CHANNEL_TYPE) : ∀ ch : Nat,
    ImportStep.sread ∉ rescaleSteps chans ch ∧
    ∀ nc slot, ImportStep.materialize nc slot ∉ rescaleSteps chans ch := by
  induction chans with
  | nil => intro ch; simp [rescaleSteps]
  | cons hc rest ih =>
    intro ch
    simp only [rescaleSteps]
    split
    · exact ih (ch + 1)
    · obtain ⟨i1, i2⟩ := ih (ch + 1)
      refine ⟨?_, ?_⟩
      · simp only [List.mem_cons, not_or]
        exact ⟨by simp, i1⟩
      · intro nc slot
        simp only [List.mem_cons, not_or]
        exact ⟨by simp, i2 nc slot⟩

theorem materializeSteps_no_rescale (chans : List CHANNEL_TYPE) : ∀ nc NS c : Nat,
    ImportStep.rescale c ∉ materializeSteps chans nc NS := by
  induction chans with
  | nil => intro nc NS c; simp [materializeSteps]
  | cons hc rest ih =>
    intro nc NS c
    simp only [materializeSteps]
    split
    · exact ih _ _ c
    · simp only [List.mem_cons, not_or]
      exact ⟨by simp, ih _ _ c⟩

theorem rescaleSteps_mem (chans : List CHANNEL_TYPE) : ∀ (ch i : Nat) (hc : CHANNEL_TYPE),
    chans[i]? = some hc → hc.OnOff = 1 → ImportStep.rescale (ch + i) ∈ rescaleSteps chans ch := by
  induction chans with
  | nil => intro ch i hc h; simp at h
  | cons a rest ih =>
    intro ch i hc h hon
    cases i with
    | zero =>
      simp only [List.getElem?_cons_zero, Option.some.injEq] at h
      subst h
      simp [rescaleSteps, hon]
    | succ i =>
      simp only [List.getElem?_cons_succ] at h
      have := ih (ch + 1) i hc h hon
      rw [show ch + 1 + i = ch + (i + 1) by omega] at this
      simp only [rescaleSteps]
      split
      · exact this
      · exact List.mem_cons_of_mem _ this

/-- The legacy rescale switch on a switched-on channel: a voltage code
(masked value 4256) becomes 4274, a current code (masked value 4160) 4181. -/
theorem rescaleCode_target (hc : CHANNEL_TYPE) (hon : hc.OnOff = 1) :
    (hc.PhysDimCode &&& 0xffe0 = 4256 → (rescaleCode hc).PhysDimCode = 4274) ∧
    (hc.PhysDimCode &&& 0xffe0 = 4160 → (rescaleCode hc).PhysDimCode = 4181) := by
  constructor
  · intro hv
    unfold rescaleCode
    rw [if_neg (by rw [hon]; simp), if_pos hv]
  · intro hv
    have hnv : ¬ (hc.PhysDimCode &&& 0xffe0 = 4256) := by rw [hv]; decide
    unfold rescaleCode
    rw [if_neg (by rw [hon]; simp), if_neg hnv, if_pos hv]

/-- The libbiosig2 rescale switch on any channel: a voltage code (masked
value 4256) becomes 4272, a current code (masked value 4160) 4181. -/
theorem rescaleCode2_target (hc : CHANNEL_TYPE) :
    (hc.PhysDimCode &&& 0xffe0 = 4256 → (rescaleCode2 hc).PhysDimCode = 4272) ∧
    (hc.PhysDimCode &&& 0xffe0 = 4160 → (rescaleCode2 hc).PhysDimCode = 4181) := by
  constructor
  · intro hv
    unfold rescaleCode2
    rw [if_pos hv]
  · intro hv
    have hnv : ¬ (hc.PhysDimCode &&& 0xffe0 = 4256) := by rw [hv]; decide
    unfold rescaleCode2
    rw [if_neg hnv, if_pos hv]

/-- C17 fails. Rescale target units: for a switched-on voltage channel with
code 4256 the libbiosig2 branch selects the code 4272, the legacy branch the
code 4274 that the source names as `PhysDimCode("mV")`, so the branches
disagree on the same channel; for the current channel both select 4181.  In
the import of `hdrExample`, with a unit table that knows 4274 as "mV" and
4181 as "pA", the voltage channel gets the unit "mV" in the legacy branch and
no such unit in the libbiosig2 branch. -/
theorem rescale_target_units_failing_input :
    (rescaleCode2 ⟨1, "v", 4256⟩).PhysDimCode = 4272 ∧
    (rescaleCode ⟨1, "v", 4256⟩).PhysDimCode = 4274 ∧
    (rescaleCode2 ⟨1, "i", 4160⟩).PhysDimCode = 4181 ∧
    (rescaleCode ⟨1, "i", 4160⟩).PhysDimCode = 4181 ∧
    (importBSFile (stfHost Nat)
      (fun c => if c = 4274 then "mV" else if c = 4181 then "pA" else "") 10600
      (some hdrExample) []).ReturnData.map Channel.YUnits = ["mV", "pA"] ∧
    (importBSFile2 (stfHost Nat)
      (fun c => if c = 4274 then "mV" else if c = 4181 then "pA" else "") 3
      (some hdrExample) []).ReturnData.map Channel.YUnits = ["", "", "pA"] := by
  decide

/-- C18 at a header with `OnOff = 1` and `OnOff = 2`: only channel 0 is
rescaled, both channels are materialized (slots 0 and 1), `numberOfChannels`
is 1, and the import into an empty recording fails at the second insertion. -/
theorem rescale_coverage_failing_input :
    importSteps onOffTwoExample.CHANNEL =
      [.rescale 0, .sread, .materialize 0 0, .materialize 1 1] ∧
    numberOfChannels onOffTwoExample.CHANNEL = 1 ∧
    (importBSFile (stfHost Nat) (fun _ => "mV") 10600 (some onOffTwoExample) []).error =
      some ImportError.insertChannel := by
  decide

/-- C14 at one channel with divisors 1, 3 and 4 (one sample each): the export
passes the checks, the pack buffer has `bpb * NRec = 64` bytes, and the stores
for the first sample reach the byte offsets 64, 72, 80 and 88, outside it. -/
theorem packer_bounds_failing_input :
    (exportBiosigFile (β := Nat) id true threeRateExample).error = none ∧
    (exportBiosigFile (β := Nat) id true threeRateExample).bpb *
      (exportBiosigFile (β := Nat) id true threeRateExample).NRec = 64 ∧
    ((exportBiosigFile (β := Nat) id true threeRateExample).stores.filter
      fun s => 64 < s.offset + 8).map (fun s => (s.m, s.n, s.offset)) =
        [(0, 0, 64), (0, 0, 72), (0, 0, 80), (0, 0, 88)] := by
  decide

/-- C15 as stated fails: with two channels of divisors 2 and 3 the value
accumulated for channel 1 is 6, not the least common multiple 3 of its own
divisors, because it starts from the running `hdr->SPR`; and the block of the
channel with divisor 2 is `(hc->SPR, bi) = (3, 0)` when it comes first and
`(1, 16)` when it comes second. -/
theorem per_channel_reconciliation_counterexample :
    rateLoop twoChannelExample 0 { SPR := 1, hcSPR := [], NRec := 0 } =
      .ok { SPR := 6, hcSPR := [2, 6], NRec := 6 } ∧
    lcmList ((twoChannelExample.map fun ch => ch.SectionArray.map Section.xdiv).getD 1 []) = 3 ∧
    (exportBiosigFile (β := Nat) id true twoChannelExample).layout = [(3, 0), (1, 24)] ∧
    (exportBiosigFile (β := Nat) id true twoChannelExample.reverse).layout =
      [(2, 0), (1, 16)] := by
  refine ⟨rfl, by decide, by decide, by decide⟩

/-- C16 at one channel with the two samples 10 and 11: both branches compute
`bpb = 8`, `NRec = 2`, the same layout and event table, the legacy branch
stores the samples at the byte offsets 0 and 8, the libbiosig2 branch at 0
and 64, the second one outside the buffer of 16 bytes. -/
theorem packer_branches_failing_input :
    (exportBiosigFile (β := Nat) id true twoSampleExample).bpb = 8 ∧
    (exportBiosigFile2 (β := Nat) id true twoSampleExample).bpb = 8 ∧
    (exportBiosigFile (β := Nat) id true twoSampleExample).NRec = 2 ∧
    (exportBiosigFile2 (β := Nat) id true twoSampleExample).NRec = 2 ∧
    (exportBiosigFile (β := Nat) id true twoSampleExample).layout =
      (exportBiosigFile2 (β := Nat) id true twoSampleExample).layout ∧
    (exportBiosigFile (β := Nat) id true twoSampleExample).stores.map
      (fun s => (s.offset, s.val)) = [(0, 10), (8, 11)] ∧
    (exportBiosigFile2 (β := Nat) id true twoSampleExample).stores.map
      (fun s => (s.offset, s.val)) = [(0, 10), (64, 11)] := by
  decide

theorem rateLoop_one {α : Type} (chans : List (Channel α)) :
    ∀ (k : Nat) (st st' : RateState), st.SPR = 1 →
    (∀ ch ∈ chans, ∀ s ∈ ch.SectionArray, s.xdiv = 1) →
    rateLoop chans k st = .ok st' →
    st'.SPR = 1 ∧ st'.hcSPR = st.hcSPR ++ List.replicate chans.length 1 := by
  induction chans with
  | nil =>
    intro k st st' h0 _ h
    simp only [rateLoop, Except.ok.injEq] at h
    subst h
    exact ⟨h0, by simp⟩
  | cons ch rest ih =>
    intro k st st' h0 h1 h
    have e : lcm 1 1 = 1 := by decide
    have hr := channelRate_one ch.SectionArray (h1 ch (List.mem_cons_self _ _)) 0
    simp only [rateLoop, h0, hr, e] at h
    have hrest : ∀ c ∈ rest, ∀ s ∈ c.SectionArray, s.xdiv = 1 :=
      fun c hc => h1 c (List.mem_cons_of_mem _ hc)
    have hfin : ∀ st1 : RateState, st1.SPR = 1 → st1.hcSPR = st.hcSPR ++ [1] →
        rateLoop rest (k + 1) st1 = .ok st' →
        st'.SPR = 1 ∧ st'.hcSPR = st.hcSPR ++ List.replicate (ch :: rest).length 1 := by
      intro st1 a1 a2 a3
      obtain ⟨b1, b2⟩ := ih (k + 1) st1 st' a1 hrest a3
      refine ⟨b1, ?_⟩
      rw [b2, a2, List.length_cons, List.replicate_succ]
      simp
    split at h
    · exact hfin _ rfl rfl h
    · split at h
      · exact absurd h (by simp)
      · exact hfin _ rfl rfl h

theorem blockLayout_one (c : Nat) : ∀ b : Nat,
    blockLayout 1 (List.replicate c 1) b =
      some ((List.range' 0 c).map (fun k => (1, b + 8 * k)), b + 8 * c) := by
  induction c with
  | zero => intro b; rfl
  | succ c ih =>
    intro b
    simp only [List.replicate_succ, blockLayout, one_ne_zero, if_false, Nat.div_one,
      Nat.one_mul]
    rw [ih (b + 8)]
    simp only [Option.map_some', Option.some.injEq, Prod.mk.injEq]
    refine ⟨?_, by omega⟩
    rw [List.range'_succ, List.map_cons, Nat.mul_zero, Nat.add_zero]
    congr 1
    rw [List.range'_eq_map_range, List.range'_eq_map_range, List.map_map, List.map_map]
    apply List.map_congr_left
    intro k _
    simp only [Function.comp, Nat.zero_add, Prod.mk.injEq, true_and]
    omega

theorem totalExpanded_one {α : Type} (ch : Channel α) (h1 : ∀ s ∈ ch.SectionArray, s.xdiv = 1) :
    totalExpanded ch = (flatSamples ch.SectionArray).length := by
  rw [flatSamples_length _ h1, cumExpanded_full]
  rfl

theorem foldl_storeCell_skip {β : Type} (o : Nat) (l : List (Store β)) :
    ∀ cell : Option β, (∀ s ∈ l, s.offset ≠ o) → l.foldl (storeCell o) cell = cell := by
  induction l with
  | nil => intro cell _; rfl
  | cons a l ih =>
    intro cell h
    simp only [List.foldl_cons, storeCell]
    rw [if_neg (h a (List.mem_cons_self _ _))]
    exact ih cell (fun s hs => h s (List.mem_cons_of_mem _ hs))

theorem packSection_offsets {α β : Type} (enc : α → β) (bpb bi len k m : Nat) (data : List α) :
    ∀ (n : Nat) (s : Store β), s ∈ packSection enc 1 bpb bi 1 len k m data n →
    ∃ r, len + n ≤ r ∧ r < len + n + data.length ∧ s.offset = bi + bpb * r := by
  induction data with
  | nil => intro n s hs; simp [packSection] at hs
  | cons d rest ih =>
    intro n s hs
    have hr : List.range 1 = [0] := rfl
    simp only [packSection, packSample, Nat.div_self Nat.one_pos, hr, List.map_cons,
      List.map_nil, List.singleton_append, List.mem_cons] at hs
    rcases hs with hs | hs
    · refine ⟨len + n, le_refl _, by simp, ?_⟩
      rw [hs]
      simp
    · obtain ⟨r, a1, a2, a3⟩ := ih (n + 1) s hs
      exact ⟨r, by omega, by simp only [List.length_cons]; omega, a3⟩

theorem packChannel_offsets {α β : Type} (enc : α → β) (bpb bi k : Nat)
    (secs : List (Section α)) (h1 : ∀ s ∈ secs, s.xdiv = 1) :
    ∀ (m len : Nat) (s : Store β), s ∈ packChannel enc 1 bpb bi k secs m len →
    ∃ r, len ≤ r ∧ r < len + (flatSamples secs).length ∧ s.offset = bi + bpb * r := by
  induction secs with
  | nil => intro m len s hs; simp [packChannel] at hs
  | cons s0 rest ih =>
    intro m len s hs
    have hs0 : s0.xdiv = 1 := h1 s0 (List.mem_cons_self _ _)
    simp only [packChannel, hs0, Nat.one_mul, List.mem_append] at hs
    simp only [flatSamples, List.flatMap_cons, List.length_append]
    rcases hs with hs | hs
    · obtain ⟨r, a1, a2, a3⟩ := packSection_offsets enc bpb bi len k m s0.data 0 s hs
      exact ⟨r, by omega, by omega, a3⟩
    · obtain ⟨r, a1, a2, a3⟩ := ih (fun t ht => h1 t (List.mem_cons_of_mem _ ht)) _ _ s hs
      simp only [flatSamples, Section.size] at a2
      simp only [Section.size] at a1
      exact ⟨r, by omega, by omega, a3⟩

theorem packSection_fold {α β : Type} (enc : α → β) (bpb bi len k m i : Nat) (hb : 0 < bpb)
    (data : List α) : ∀ (n : Nat) (cell : Option β),
    (packSection enc 1 bpb bi 1 len k m data n).foldl (storeCell (bi + bpb * i)) cell =
      if len + n ≤ i ∧ i < len + n + data.length then (data[i - (len + n)]?).map enc
      else cell := by
  induction data with
  | nil =>
    intro n cell
    simp only [packSection, List.foldl_nil, List.length_nil, Nat.add_zero]
    rw [if_neg (by omega)]
  | cons d rest ih =>
    intro n cell
    have hr : List.range 1 = [0] := rfl
    simp only [packSection, packSample, Nat.div_self Nat.one_pos, hr, List.map_cons,
      List.map_nil, List.singleton_append, List.foldl_cons, List.length_cons]
    rw [ih]
    simp only [storeCell, Nat.mul_one, Nat.div_one, Nat.zero_mul, Nat.add_zero]
    by_cases h2 : len + (n + 1) ≤ i ∧ i < len + (n + 1) + rest.length
    · rw [if_pos h2, if_pos (by omega)]
      have e : i - (len + n) = (i - (len + (n + 1))) + 1 := by omega
      rw [e, List.getElem?_cons_succ]
    · rw [if_neg h2]
      by_cases h1 : i = len + n
      · subst h1
        rw [if_pos rfl, if_pos (by omega)]
        simp
      · have h3 : ¬ (bi + bpb * (len + n) = bi + bpb * i) := by
          intro h
          have := Nat.eq_of_mul_eq_mul_left hb (Nat.add_left_cancel h)
          omega
        rw [if_neg h3, if_neg (by omega)]

theorem packSection_count {α β : Type} (enc : α → β) (bpb bi len k m i : Nat) (hb : 0 < bpb)
    (data : List α) : ∀ (n : Nat),
    (packSection enc 1 bpb bi 1 len k m data n).countP (fun s => s.offset = bi + bpb * i) =
      if len + n ≤ i ∧ i < len + n + data.length then 1 else 0 := by
  induction data with
  | nil =>
    intro n
    simp only [packSection, List.countP_nil, List.length_nil, Nat.add_zero]
    rw [if_neg (by omega)]
  | cons d rest ih =>
    intro n
    have hr : List.range 1 = [0] := rfl
    simp only [packSection, packSample, Nat.div_self Nat.one_pos, hr, List.map_cons,
      List.map_nil, List.singleton_append, List.countP_cons, List.length_cons]
    rw [ih]
    simp only [Nat.mul_one, Nat.div_one, Nat.zero_mul, Nat.add_zero, decide_eq_true_eq]
    by_cases h1 : i = len + n
    · subst h1
      rw [if_neg (by omega), if_pos rfl, if_pos (by omega)]
    · have h3 : ¬ (bi + bpb * (len + n) = bi + bpb * i) := by
        intro h
        have := Nat.eq_of_mul_eq_mul_left hb (Nat.add_left_cancel h)
        omega
      rw [if_neg h3, Nat.add_zero]
      by_cases h2 : len + (n + 1) ≤ i ∧ i < len + (n + 1) + rest.length
      · rw [if_pos h2, if_pos (by omega)]
      · rw [if_neg h2, if_neg (by omega)]

theorem packChannel_fold {α β : Type} (enc : α → β) (bpb bi k i : Nat) (hb : 0 < bpb)
    (secs : List (Section α)) (h1 : ∀ s ∈ secs, s.xdiv = 1) :
    ∀ (m len : Nat) (cell : Option β),
    (packChannel enc 1 bpb bi k secs m len).foldl (storeCell (bi + bpb * i)) cell =
      if len ≤ i ∧ i < len + (flatSamples secs).length then
        ((flatSamples secs)[i - len]?).map enc
      else cell := by
  induction secs with
  | nil =>
    intro m len cell
    simp only [packChannel, List.foldl_nil, flatSamples, List.flatMap_nil, List.length_nil,
      Nat.add_zero]
    rw [if_neg (by omega)]
  | cons s rest ih =>
    intro m len cell
    have hs : s.xdiv = 1 := h1 s (List.mem_cons_self _ _)
    simp only [packChannel, List.foldl_append, hs, Nat.one_mul]
    rw [ih (fun t ht => h1 t (List.mem_cons_of_mem _ ht)), packSection_fold enc bpb bi len k m i hb]
    simp only [Nat.add_zero, Section.size, flatSamples, List.flatMap_cons, List.length_append]
    by_cases ha : len ≤ i ∧ i < len + s.data.length
    · rw [if_neg (by omega), if_pos ha, if_pos (by omega),
        List.getElem?_append_left (by omega)]
    · rw [if_neg ha]
      by_cases hc : len + s.data.length ≤ i ∧
          i < len + s.data.length + (rest.flatMap Section.data).length
      · rw [if_pos hc, if_pos (by omega), List.getElem?_append_right (by omega)]
        congr 2
        omega
      · rw [if_neg hc, if_neg (by omega)]

theorem packChannel_count {α β : Type} (enc : α → β) (bpb bi k i : Nat) (hb : 0 < bpb)
    (secs : List (Section α)) (h1 : ∀ s ∈ secs, s.xdiv = 1) :
    ∀ (m len : Nat),
    (packChannel enc 1 bpb bi k secs m len).countP (fun s => s.offset = bi + bpb * i) =
      if len ≤ i ∧ i < len + (flatSamples secs).length then 1 else 0 := by
  induction secs with
  | nil =>
    intro m len
    simp only [packChannel, List.countP_nil, flatSamples, List.flatMap_nil, List.length_nil,
      Nat.add_zero]
    rw [if_neg (by omega)]
  | cons s rest ih =>
    intro m len
    have hs : s.xdiv = 1 := h1 s (List.mem_cons_self _ _)
    simp only [packChannel, List.countP_append, hs, Nat.one_mul]
    rw [ih (fun t ht => h1 t (List.mem_cons_of_mem _ ht)), packSection_count enc bpb bi len k m i hb]
    simp only [Nat.add_zero, Section.size, flatSamples, List.flatMap_cons, List.length_append]
    by_cases ha : len ≤ i ∧ i < len + s.data.length
    · rw [if_pos ha, if_neg (by omega), if_pos (by omega)]
    · rw [if_neg ha]
      by_cases hc : len + s.data.length ≤ i ∧
          i < len + s.data.length + (rest.flatMap Section.data).length
      · rw [if_pos hc, if_pos (by omega)]
      · rw [if_neg hc, if_neg (by omega)]

theorem slot_channel_unique (C k k1 r i : Nat) (hk : k < C) (hk1 : k1 < C)
    (h : 8 * k + 8 * C * r = 8 * k1 + 8 * C * i) : k = k1 := by
  have h2 : k + C * r = k1 + C * i := by
    have e1 : 8 * C * r = 8 * (C * r) := Nat.mul_assoc 8 C r
    have e2 : 8 * C * i = 8 * (C * i) := Nat.mul_assoc 8 C i
    omega
  have h3 := congrArg (· % C) h2
  simp only [Nat.add_mul_mod_self_left] at h3
  rwa [Nat.mod_eq_of_lt hk, Nat.mod_eq_of_lt hk1] at h3

/-- The cell of channel `k1`, record `i`, after the stores of the channels
`k0, k0+1, ...` of a single-rate recording of `C` channels. -/
theorem packLoop_fold {α β : Type} (enc : α → β) (C k1 i : Nat) (hk1 : k1 < C)
    (chans : List (Channel α)) : ∀ (k0 : Nat) (cell : Option β),
    k0 + chans.length ≤ C →
    (∀ ch ∈ chans, ∀ s ∈ ch.SectionArray, s.xdiv = 1) →
    (packLoop enc 1 (8 * C)
      (chans.zip ((List.range' k0 chans.length).map fun k => (1, 8 * k))) k0).foldl
        (storeCell (8 * k1 + 8 * C * i)) cell =
      match chans[k1 - k0]? with
      | some ch =>
        if k0 ≤ k1 ∧ i < (flatSamples ch.SectionArray).length then
          ((flatSamples ch.SectionArray)[i]?).map enc
        else cell
      | none => cell := by
  have hC : 0 < 8 * C := by omega
  induction chans with
  | nil => intro k0 cell _ _; rfl
  | cons ch rest ih =>
    intro k0 cell hle h1
    have hch := h1 ch (List.mem_cons_self _ _)
    have hrest : ∀ c ∈ rest, ∀ s ∈ c.SectionArray, s.xdiv = 1 :=
      fun c hc => h1 c (List.mem_cons_of_mem _ hc)
    simp only [List.length_cons] at hle
    simp only [List.length_cons, List.range'_succ, List.map_cons, List.zip_cons_cons,
      packLoop, List.foldl_append]
    have ih' := ih (k0 + 1) ((packChannel enc 1 (8 * C) (8 * k0) k0 ch.SectionArray 0 0).foldl
      (storeCell (8 * k1 + 8 * C * i)) cell) (by omega) hrest
    simp only [List.zip] at ih'
    rw [ih']
    by_cases hk : k1 = k0
    · subst hk
      rw [packChannel_fold enc (8 * C) (8 * k1) k1 i hC ch.SectionArray hch 0 0 cell]
      have hrest0 : (match rest[k1 - (k1 + 1)]? with
          | some c =>
            if k1 + 1 ≤ k1 ∧ i < (flatSamples c.SectionArray).length then
              ((flatSamples c.SectionArray)[i]?).map enc
            else (if 0 ≤ i ∧ i < 0 + (flatSamples ch.SectionArray).length then
              ((flatSamples ch.SectionArray)[i - 0]?).map enc else cell)
          | none => (if 0 ≤ i ∧ i < 0 + (flatSamples ch.SectionArray).length then
              ((flatSamples ch.SectionArray)[i - 0]?).map enc else cell)) =
          (if 0 ≤ i ∧ i < 0 + (flatSamples ch.SectionArray).length then
              ((flatSamples ch.SectionArray)[i - 0]?).map enc else cell) := by
        cases rest[k1 - (k1 + 1)]? with
        | none => rfl
        | some c =>
          simp only
          rw [if_neg (by omega)]
      rw [hrest0]
      simp only [Nat.sub_self, List.getElem?_cons_zero, Nat.zero_le, true_and, Nat.zero_add,
        Nat.sub_zero, le_refl]
    · have hskip : (packChannel enc 1 (8 * C) (8 * k0) k0 ch.SectionArray 0 0).foldl
          (storeCell (8 * k1 + 8 * C * i)) cell = cell := by
        apply foldl_storeCell_skip
        intro s hs heq
        obtain ⟨r, _, _, a3⟩ := packChannel_offsets enc (8 * C) (8 * k0) k0 ch.SectionArray hch
          0 0 s hs
        rw [a3] at heq
        exact hk (slot_channel_unique C k0 k1 r i (by omega) hk1 heq).symm
      rw [hskip]
      by_cases hlt : k1 < k0
      · rw [show k1 - (k0 + 1) = 0 by omega, show k1 - k0 = 0 by omega]
        cases rest with
        | nil =>
          simp only [List.getElem?_nil, List.getElem?_cons_zero]
          rw [if_neg (by omega)]
        | cons c2 rest2 =>
          simp only [List.getElem?_cons_zero]
          rw [if_neg (by omega), if_neg (by omega)]
      · have e : k1 - k0 = (k1 - (k0 + 1)) + 1 := by omega
        rw [e, List.getElem?_cons_succ]
        cases rest[k1 - (k0 + 1)]? with
        | none => rfl
        | some c =>
          simp only
          by_cases hi : i < (flatSamples c.SectionArray).length
          · rw [if_pos ⟨by omega, hi⟩, if_pos ⟨by omega, hi⟩]
          · rw [if_neg (by omega), if_neg (by omega)]

/-- The number of stores into the cell of channel `k1`, record `i`, among the
stores of the channels `k0, k0+1, ...` of a single-rate recording. -/
theorem packLoop_count {α β : Type} (enc : α → β) (C k1 i : Nat) (hk1 : k1 < C)
    (chans : List (Channel α)) : ∀ (k0 : Nat),
    k0 + chans.length ≤ C →
    (∀ ch ∈ chans, ∀ s ∈ ch.SectionArray, s.xdiv = 1) →
    (packLoop (β := β) enc 1 (8 * C)
      (chans.zip ((List.range' k0 chans.length).map fun k => (1, 8 * k))) k0).countP
        (fun s => s.offset = 8 * k1 + 8 * C * i) =
      match chans[k1 - k0]? with
      | some ch => if k0 ≤ k1 ∧ i < (flatSamples ch.SectionArray).length then 1 else 0
      | none => 0 := by
  have hC : 0 < 8 * C := by omega
  induction chans with
  | nil => intro k0 _ _; rfl
  | cons ch rest ih =>
    intro k0 hle h1
    have hch := h1 ch (List.mem_cons_self _ _)
    have hrest : ∀ c ∈ rest, ∀ s ∈ c.SectionArray, s.xdiv = 1 :=
      fun c hc => h1 c (List.mem_cons_of_mem _ hc)
    simp only [List.length_cons] at hle
    simp only [List.length_cons, List.range'_succ, List.map_cons, List.zip_cons_cons,
      packLoop, List.countP_append]
    have ih' := ih (k0 + 1) (by omega) hrest
    simp only [List.zip] at ih'
    rw [ih']
    by_cases hk : k1 = k0
    · subst hk
      rw [packChannel_count enc (8 * C) (8 * k1) k1 i hC ch.SectionArray hch 0 0]
      have hrest0 : (match rest[k1 - (k1 + 1)]? with
          | some c => if k1 + 1 ≤ k1 ∧ i < (flatSamples c.SectionArray).length then 1 else 0
          | none => 0) = 0 := by
        cases rest[k1 - (k1 + 1)]? with
        | none => rfl
        | some c =>
          simp only
          rw [if_neg (by omega)]
      rw [hrest0]
      simp only [Nat.sub_self, List.getElem?_cons_zero, Nat.zero_le, true_and, Nat.zero_add,
        Nat.add_zero, le_refl]
    · have hskip : (packChannel (β := β) enc 1 (8 * C) (8 * k0) k0 ch.SectionArray 0 0).countP
          (fun s => s.offset = 8 * k1 + 8 * C * i) = 0 := by
        rw [List.countP_eq_zero]
        intro s hs
        simp only [decide_eq_true_eq]
        intro heq
        obtain ⟨r, _, _, a3⟩ := packChannel_offsets enc (8 * C) (8 * k0) k0 ch.SectionArray hch
          0 0 s hs
        rw [a3] at heq
        exact hk (slot_channel_unique C k0 k1 r i (by omega) hk1 heq).symm
      rw [hskip, Nat.zero_add]
      by_cases hlt : k1 < k0
      · rw [show k1 - (k0 + 1) = 0 by omega, show k1 - k0 = 0 by omega]
        cases rest with
        | nil =>
          simp only [List.getElem?_nil, List.getElem?_cons_zero]
          rw [if_neg (by omega)]
        | cons c2 rest2 =>
          simp only [List.getElem?_cons_zero]
          rw [if_neg (by omega), if_neg (by omega)]
      · have e : k1 - k0 = (k1 - (k0 + 1)) + 1 := by omega
        rw [e, List.getElem?_cons_succ]
        cases rest[k1 - (k0 + 1)]? with
        | none => rfl
        | some c =>
          simp only
          by_cases hi : i < (flatSamples c.SectionArray).length
          · rw [if_pos ⟨by omega, hi⟩, if_pos ⟨by omega, hi⟩]
          · rw [if_neg (by omega), if_neg (by omega)]

/-- A single-rate recording that passes the checks: the header values of the
export and the equal lengths of the channels. -/
theorem export_single_rate_multi {α β : Type} (enc : α → β) (writerOk : Bool)
    (Data : Recording α)
    (h1 : ∀ ch ∈ Data, ∀ s ∈ ch.SectionArray, s.xdiv = 1)
    (hpass : (exportBiosigFile enc writerOk Data).opened = true) :
    (exportBiosigFile enc writerOk Data).SPR = 1 ∧
    (exportBiosigFile enc writerOk Data).bpb = 8 * Data.length ∧
    (exportBiosigFile enc writerOk Data).layout =
      (List.range' 0 Data.length).map (fun k => (1, 8 * k)) ∧
    (exportBiosigFile enc writerOk Data).stores =
      packLoop enc 1 (8 * Data.length)
        (Data.zip ((List.range' 0 Data.length).map fun k => (1, 8 * k))) 0 ∧
    (exportBiosigFile enc writerOk Data).ifwrite =
      (if writerOk then some (8 * Data.length, (exportBiosigFile enc writerOk Data).NRec)
        else none) ∧
    ∀ ch ∈ Data, (flatSamples ch.SectionArray).length =
      (exportBiosigFile enc writerOk Data).NRec := by
  obtain ⟨st, layout, bpb, hr, hb, _, hres⟩ := export_opened enc writerOk Data hpass
  obtain ⟨a1, a2⟩ := rateLoop_one Data 0 _ st rfl h1 hr
  simp only [List.nil_append] at a2
  rw [a1, a2, blockLayout_one Data.length 0] at hb
  simp only [Nat.zero_add, Option.some.injEq, Prod.mk.injEq] at hb
  obtain ⟨hl, hbp⟩ := hb
  have hd : ∀ ch ∈ Data, ∀ s ∈ ch.SectionArray, 0 < s.xdiv ∧ s.xdiv < 2 ^ 32 := by
    intro ch hch s hs
    rw [h1 ch hch s hs]
    exact ⟨by decide, by decide⟩
  obtain ⟨_, _, _, _, a5⟩ := rateLoop_ok Data 0 _ st hd (by decide) (by decide) (by simp) hr
  rw [hres]
  simp only
  refine ⟨a1, hbp.symm, hl.symm, by rw [a1, ← hbp, ← hl], by rw [← hbp], ?_⟩
  intro ch hch
  cases hD : Data with
  | nil => rw [hD] at hch; simp at hch
  | cons c0 rest =>
    rw [hD] at a5 hch h1
    obtain ⟨b1, b2⟩ := a5 rfl c0 rfl
    rw [b1, ← b2 ch hch, totalExpanded_one ch (h1 ch hch)]

/-- C13. Single-rate packing layout: for every recording that passes the
export checks and whose sections all have divisor 1, with `C` channels and `N`
samples per channel: the record size is `8*C` bytes and there are `N` records
(the arguments of `ifwrite`), the buffer has `C*N` words, the word at byte
offset `8*C*r + 8*k` is the encoding of sample `r` of the concatenated
sections of channel `k`, and every 8-byte slot of the buffer is the target of
exactly one store. -/
theorem single_rate_layout {α β : Type} (enc : α → β) (writerOk : Bool) (Data : Recording α)
    (h1 : ∀ ch ∈ Data, ∀ s ∈ ch.SectionArray, s.xdiv = 1)
    (hpass : (exportBiosigFile enc writerOk Data).opened = true) :
    1 ≤ Data.length ∧
    (exportBiosigFile enc writerOk Data).bpb = 8 * Data.length ∧
    (∀ ch ∈ Data, (flatSamples ch.SectionArray).length =
      (exportBiosigFile enc writerOk Data).NRec) ∧
    (exportBiosigFile enc writerOk Data).ifwrite =
      (if writerOk then some (8 * Data.length, (exportBiosigFile enc writerOk Data).NRec)
        else none) ∧
    (rawdataWords (exportBiosigFile enc writerOk Data)).length =
      Data.length * (exportBiosigFile enc writerOk Data).NRec ∧
    (∀ k ch r, Data[k]? = some ch → r < (exportBiosigFile enc writerOk Data).NRec →
      rawdataAt (exportBiosigFile enc writerOk Data).stores (8 * Data.length * r + 8 * k) =
        ((flatSamples ch.SectionArray)[r]?).map enc) ∧
    (∀ j, j < Data.length * (exportBiosigFile enc writerOk Data).NRec →
      (exportBiosigFile enc writerOk Data).stores.countP (fun s => s.offset = 8 * j) = 1) := by
  obtain ⟨_, a2, _, a4, a5, a6⟩ := export_single_rate_multi enc writerOk Data h1 hpass
  obtain ⟨_, _, _, _, _, hchk, _⟩ := export_opened enc writerOk Data hpass
  have hne : Data ≠ [] := (segmentCheck_true Data hchk).1
  have hpos : 1 ≤ Data.length := List.length_pos.mpr hne
  refine ⟨hpos, a2, a6, a5, ?_, ?_, ?_⟩
  · simp only [rawdataWords, List.length_map, List.length_range, a2]
    rw [Nat.mul_assoc, Nat.mul_div_cancel_left _ (by decide : 0 < 8)]
  · intro k ch r hk hr
    have hkl : k < Data.length := by
      by_contra hcon
      rw [List.getElem?_eq_none (by omega)] at hk
      exact absurd hk (by simp)
    have hlen := a6 ch (List.getElem?_mem hk)
    rw [a4, rawdataAt, show 8 * Data.length * r + 8 * k = 8 * k + 8 * Data.length * r by omega,
      packLoop_fold enc Data.length k r hkl Data 0 none (by omega) h1]
    simp only [Nat.sub_zero, hk, Nat.zero_le, true_and]
    rw [if_pos (by omega)]
  · intro j hj
    have hC : 0 < Data.length := hpos
    have hk : j % Data.length < Data.length := Nat.mod_lt _ hC
    have hr : j / Data.length < (exportBiosigFile enc writerOk Data).NRec :=
      Nat.div_lt_of_lt_mul hj
    have hjeq : 8 * j = 8 * (j % Data.length) + 8 * Data.length * (j / Data.length) := by
      have := Nat.mod_add_div j Data.length
      rw [Nat.mul_assoc]
      omega
    obtain ⟨ch, hch⟩ : ∃ ch, Data[j % Data.length]? = some ch :=
      ⟨Data[j % Data.length], List.getElem?_eq_getElem hk⟩
    have hlen := a6 ch (List.getElem?_mem hch)
    rw [a4, hjeq,
      packLoop_count enc Data.length (j % Data.length) (j / Data.length) hk Data 0 (by omega) h1]
    simp only [Nat.sub_zero, hch, Nat.zero_le, true_and]
    rw [if_pos (by omega)]

/-- C13 at two channels of two sections each (five samples per channel). -/
theorem single_rate_layout_witness :
    1 ≤ twoChannelSingleRate.length ∧
    (exportBiosigFile (β := Nat) id true twoChannelSingleRate).bpb =
      8 * twoChannelSingleRate.length ∧
    (∀ ch ∈ twoChannelSingleRate, (flatSamples ch.SectionArray).length =
      (exportBiosigFile (β := Nat) id true twoChannelSingleRate).NRec) ∧
    (exportBiosigFile (β := Nat) id true twoChannelSingleRate).ifwrite =
      (if true then some (8 * twoChannelSingleRate.length,
        (exportBiosigFile (β := Nat) id true twoChannelSingleRate).NRec) else none) ∧
    (rawdataWords (exportBiosigFile (β := Nat) id true twoChannelSingleRate)).length =
      twoChannelSingleRate.length *
        (exportBiosigFile (β := Nat) id true twoChannelSingleRate).NRec ∧
    (∀ k ch r, twoChannelSingleRate[k]? = some ch →
      r < (exportBiosigFile (β := Nat) id true twoChannelSingleRate).NRec →
      rawdataAt (exportBiosigFile (β := Nat) id true twoChannelSingleRate).stores
        (8 * twoChannelSingleRate.length * r + 8 * k) =
          ((flatSamples ch.SectionArray)[r]?).map id) ∧
    (∀ j, j < twoChannelSingleRate.length *
        (exportBiosigFile (β := Nat) id true twoChannelSingleRate).NRec →
      (exportBiosigFile (β := Nat) id true twoChannelSingleRate).stores.countP
        (fun s => s.offset = 8 * j) = 1) :=
  single_rate_layout id true twoChannelSingleRate (by decide) (by decide)

theorem allDivisors_cons {α : Type} (ch : Channel α) (rest : List (Channel α)) :
    allDivisors (ch :: rest) = ch.SectionArray.map Section.xdiv ++ allDivisors rest := by
  simp [allDivisors]

/-- The per-channel values after a completed rate loop: channel `j` of the
list holds the least common multiple of the starting `hdr->SPR` and the
divisors of the channels up to and including `j`. -/
theorem rateLoop_hcSPR {α : Type} (chans : List (Channel α)) :
    ∀ (k : Nat) (st st' : RateState),
    0 < st.SPR → (∀ d ∈ allDivisors chans, 0 < d) →
    (allDivisors chans).foldl Nat.lcm st.SPR < 2 ^ 32 →
    rateLoop chans k st = .ok st' →
    st'.hcSPR = st.hcSPR ++ (List.range chans.length).map
      (fun j => (allDivisors (chans.take (j + 1))).foldl Nat.lcm st.SPR) := by
  induction chans with
  | nil =>
    intro k st st' _ _ _ h
    simp only [rateLoop, Except.ok.injEq] at h
    subst h
    simp
  | cons ch rest ih =>
    intro k st st' hpos hd hlt h
    rw [allDivisors_cons] at hd hlt
    rw [List.foldl_append] at hlt
    have hdch : ∀ s ∈ ch.SectionArray, 0 < s.xdiv :=
      fun s hs => hd _ (List.mem_append_left _ (List.mem_map_of_mem _ hs))
    have hdrest : ∀ d ∈ allDivisors rest, 0 < d :=
      fun d hdm => hd d (List.mem_append_right _ hdm)
    have hFpos : 0 < (ch.SectionArray.map Section.xdiv).foldl Nat.lcm st.SPR :=
      foldl_lcm_pos _ _ hpos (by
        intro d hdm
        obtain ⟨t, ht, rfl⟩ := List.mem_map.mp hdm
        exact hdch t ht)
    have hFlt : (ch.SectionArray.map Section.xdiv).foldl Nat.lcm st.SPR < 2 ^ 32 :=
      lt_of_le_of_lt (Nat.le_of_dvd (foldl_lcm_pos _ _ hFpos hdrest)
        (foldl_lcm_dvd_self _ _)) hlt
    have hhc := channelRate_lcm ch.SectionArray st.SPR 0 hpos hdch hFlt
    have hSPR : lcm st.SPR ((ch.SectionArray.map Section.xdiv).foldl Nat.lcm st.SPR) =
        (ch.SectionArray.map Section.xdiv).foldl Nat.lcm st.SPR := by
      unfold lcm
      rw [Nat.dvd_antisymm (Nat.lcm_dvd (foldl_lcm_dvd_self _ _) dvd_rfl)
        (Nat.dvd_lcm_right _ _)]
      exact Nat.mod_eq_of_lt hFlt
    have hfin : ∀ st1 : RateState,
        st1.SPR = (ch.SectionArray.map Section.xdiv).foldl Nat.lcm st.SPR →
        st1.hcSPR = st.hcSPR ++ [(ch.SectionArray.map Section.xdiv).foldl Nat.lcm st.SPR] →
        rateLoop rest (k + 1) st1 = .ok st' →
        st'.hcSPR = st.hcSPR ++ (List.range (ch :: rest).length).map
          (fun j => (allDivisors ((ch :: rest).take (j + 1))).foldl Nat.lcm st.SPR) := by
      intro st1 a1 a2 a3
      have := ih (k + 1) st1 st' (by rw [a1]; exact hFpos) hdrest (by rw [a1]; exact hlt) a3
      rw [this, a2, a1, List.length_cons, List.range_succ_eq_map, List.map_cons, List.map_map,
        List.append_assoc]
      congr 1
      simp only [List.singleton_append, List.take_succ_cons, List.take_zero, allDivisors_cons,
        List.foldl_append]
      congr 1
    simp only [rateLoop] at h
    rw [hhc, hSPR] at h
    split at h
    · exact hfin _ rfl rfl h
    · split at h
      · exact absurd h (by simp)
      · exact hfin _ rfl rfl h

theorem allDivisors_take_mem {α : Type} (chans : List (Channel α)) (k : Nat) (ch : Channel α)
    (hk : chans[k]? = some ch) (s : Section α) (hs : s ∈ ch.SectionArray) :
    s.xdiv ∈ allDivisors (chans.take (k + 1)) := by
  simp only [allDivisors, List.mem_flatMap, List.mem_map]
  refine ⟨ch, ?_, s, hs, rfl⟩
  rw [List.mem_iff_getElem?]
  refine ⟨k, ?_⟩
  rw [List.getElem?_take_of_lt (by omega)]
  exact hk

theorem allDivisors_take_drop {α : Type} (chans : List (Channel α)) (n : Nat) :
    allDivisors chans = allDivisors (chans.take n) ++ allDivisors (chans.drop n) := by
  simp only [allDivisors]
  rw [← List.flatMap_append, List.take_append_drop]

/-- C15 (as amended). Per-channel reconciliation: when every divisor is
positive and the least common multiple of all divisors fits 32 bits, after the
channel loop there is one per-channel value (`hc->SPR` before the division
step) for every channel; the value of channel `k` is a multiple of every
divisor of channel `k`'s own sections and divides `hdr->SPR`, and the value
of channel 0 is the least common multiple of channel 0's own divisors. -/
theorem per_channel_reconciliation {α : Type} (Data : Recording α) (st : RateState)
    (hpos : ∀ d ∈ allDivisors Data, 0 < d)
    (hfit : lcmList (allDivisors Data) < 2 ^ 32)
    (hloop : rateLoop Data 0 { SPR := 1, hcSPR := [], NRec := 0 } = .ok st) :
    st.hcSPR.length = Data.length ∧
    ∀ k ch h, Data[k]? = some ch → st.hcSPR[k]? = some h →
      (∀ s ∈ ch.SectionArray, s.xdiv ∣ h) ∧ h ∣ st.SPR ∧
      (k = 0 → h = lcmList (ch.SectionArray.map Section.xdiv)) := by
  have hS := rateLoop_lcm Data 0 { SPR := 1, hcSPR := [], NRec := 0 } st (by decide) hpos hfit
    hloop
  have hH := rateLoop_hcSPR Data 0 { SPR := 1, hcSPR := [], NRec := 0 } st (by decide) hpos hfit
    hloop
  simp only [List.nil_append] at hH
  refine ⟨by rw [hH]; simp, ?_⟩
  intro k ch h hk hh
  have hkl : k < Data.length := by
    by_contra hcon
    rw [List.getElem?_eq_none (by omega)] at hk
    exact absurd hk (by simp)
  rw [hH, List.getElem?_map, List.getElem?_range hkl] at hh
  simp only [Option.map_some', Option.some.injEq] at hh
  subst hh
  refine ⟨?_, ?_, ?_⟩
  · intro s hs
    exact foldl_lcm_dvd_mem _ _ _ (allDivisors_take_mem Data k ch hk s hs)
  · rw [hS, allDivisors_take_drop Data (k + 1), List.foldl_append]
    exact foldl_lcm_dvd_self _ _
  · intro h0
    subst h0
    cases Data with
    | nil => simp at hk
    | cons c0 rest =>
      simp only [List.getElem?_cons_zero, Option.some.injEq] at hk
      subst hk
      simp [allDivisors, lcmList]

/-- C15 at the two channels with divisors 2 and 3. -/
theorem per_channel_reconciliation_witness :
    ([2, 6] : List Nat).length = twoChannelExample.length ∧
    ∀ k ch h, twoChannelExample[k]? = some ch → ([2, 6] : List Nat)[k]? = some h →
      (∀ s ∈ ch.SectionArray, s.xdiv ∣ h) ∧ h ∣ 6 ∧
      (k = 0 → h = lcmList (ch.SectionArray.map Section.xdiv)) :=
  per_channel_reconciliation twoChannelExample { SPR := 6, hcSPR := [2, 6], NRec := 6 }
    (by decide) (by decide) rfl

/-- C25 (as amended). Boundary count: for every event table with `N` break
markers and every total `T`, the legacy loop, and the libbiosig2 loop given
the library's section count `N+1`, produce a list of exactly `N+2` boundaries
(`N+1` sections) with `boundary[0] = 0` and `boundary[N+1] = T`. -/
theorem boundary_count (events : List Event) (total : Nat) :
    ∃ boundary, segIndexList events total =
        some (boundary, (breakPositions events).length + 1) ∧
      segIndexList2 ((breakPositions events).length + 1) events total =
        some (boundary, (breakPositions events).length + 1) ∧
      boundary.length = (breakPositions events).length + 2 ∧
      boundary.getD 0 0 = 0 ∧
      boundary.getD ((breakPositions events).length + 1) 0 = total := by
  refine ⟨_, segIndexList_eq events total, segIndexList2_eq events total, by simp, rfl, ?_⟩
  rw [List.cons_append, List.getD_cons_succ, List.getD_append_right _ _ _ _ (le_refl _)]
  simp

/-- C25 as stated fails: with one break marker at position 3 (`N = 1`) and
`T = 10` the list is `[0, 3, 10]`: it has 3 boundaries, not `N+1 = 2`, and
`boundary[N] = 3`, not `T`. -/
theorem boundary_count_counterexample :
    breakPositions [⟨BREAK, 3, 0, 0⟩] = [3] ∧
    segIndexList [⟨BREAK, 3, 0, 0⟩] 10 = some ([0, 3, 10], 2) ∧
    ([0, 3, 10] : List Nat).length ≠ 1 + 1 ∧
    ([0, 3, 10] : List Nat).getD 1 0 ≠ 10 := by
  decide

theorem rescaleChannel_frame {K : Type} [Mul K] (PhysDimScale : Nat → K) (e3 e12 : K)
    (hc : CHANNEL_CAL K)
    (h : hc.OnOff ≠ 1 ∨
      (hc.PhysDimCode &&& 0xffe0 ≠ 4256 ∧ hc.PhysDimCode &&& 0xffe0 ≠ 4160)) :
    rescaleChannel PhysDimScale e3 e12 hc = hc := by
  unfold rescaleChannel
  rcases h with h | ⟨h1, h2⟩
  · rw [if_pos h]
  · by_cases hon : hc.OnOff ≠ 1
    · rw [if_pos hon]
    · rw [if_neg hon]
      simp only
      rw [if_neg h1, if_neg h2]

theorem rescaleAt_getElem? {K : Type} [Mul K] (PhysDimScale : Nat → K) (e3 e12 : K)
    (chans : List (CHANNEL_CAL K)) (ch j : Nat) :
    (rescaleAt PhysDimScale e3 e12 chans ch)[j]? =
      if j = ch then (chans[ch]?).map (rescaleChannel PhysDimScale e3 e12) else chans[j]? := by
  unfold rescaleAt
  cases hch : chans[ch]? with
  | none =>
    simp only [Option.map_none']
    by_cases hj : j = ch
    · rw [if_pos hj, hj]
      exact hch
    · rw [if_neg hj]
  | some hc =>
    simp only [Option.map_some']
    have hlt : ch < chans.length := by
      by_contra hcon
      rw [List.getElem?_eq_none (by omega)] at hch
      exact absurd hch (by simp)
    by_cases hj : j = ch
    · rw [if_pos hj, hj]
      simp [List.getElem?_set, hlt]
    · rw [if_neg hj, List.getElem?_set_ne (fun h => hj h.symm)]

theorem rescaleFold_getElem? {K : Type} [Mul K] (PhysDimScale : Nat → K) (e3 e12 : K)
    (chans : List (CHANNEL_CAL K)) (j : Nat) : ∀ n : Nat,
    ((List.range n).foldl (rescaleAt PhysDimScale e3 e12) chans)[j]? =
      if j < n then (chans[j]?).map (rescaleChannel PhysDimScale e3 e12) else chans[j]? := by
  intro n
  induction n with
  | zero => simp
  | succ n ih =>
    rw [List.range_succ, List.foldl_append, List.foldl_cons, List.foldl_nil,
      rescaleAt_getElem?]
    by_cases hj : j = n
    · subst hj
      rw [if_pos rfl, ih, if_neg (by omega), if_pos (by omega)]
    · rw [if_neg hj, ih]
      by_cases hlt : j < n
      · rw [if_pos hlt, if_pos (by omega)]
      · rw [if_neg hlt, if_neg (by omega)]

/-- C24. Rescaler frame (legacy branch): a channel that is not switched on
(`OnOff != 1`, in particular a switched-off one) or whose masked unit code is
neither 4256 nor 4160 is left unchanged in all its fields; one pass of the
loop on channel `ch` leaves every other channel of the array as it was; and
after the whole loop channel `j` holds the rescaled value of its own former
content. -/
theorem rescaler_frame {K : Type} [Mul K] (PhysDimScale : Nat → K) (e3 e12 : K)
    (hc : CHANNEL_CAL K) (chans : List (CHANNEL_CAL K))
    (h : hc.OnOff ≠ 1 ∨
      (hc.PhysDimCode &&& 0xffe0 ≠ 4256 ∧ hc.PhysDimCode &&& 0xffe0 ≠ 4160)) :
    rescaleChannel PhysDimScale e3 e12 hc = hc ∧
    (∀ ch j : Nat, j ≠ ch → (rescaleAt PhysDimScale e3 e12 chans ch)[j]? = chans[j]?) ∧
    (∀ j : Nat, (rescaleArray PhysDimScale e3 e12 chans)[j]? =
      (chans[j]?).map (rescaleChannel PhysDimScale e3 e12)) := by
  refine ⟨rescaleChannel_frame PhysDimScale e3 e12 hc h, ?_, ?_⟩
  · intro ch j hj
    rw [rescaleAt_getElem?, if_neg hj]
  · intro j
    unfold rescaleArray
    rw [rescaleFold_getElem?]
    split
    · rfl
    · rw [List.getElem?_eq_none (by omega)]
      rfl

/-- C24 at a switched-off voltage channel inside an array of three channels. -/
theorem rescaler_frame_witness :
    rescaleChannel (fun _ => (1 : Int)) 1000 1000000000000 ⟨0, 4256, 5, -5, 2, 1⟩ =
      ⟨0, 4256, 5, -5, 2, 1⟩ ∧
    (∀ ch j : Nat, j ≠ ch →
      (rescaleAt (fun _ => (1 : Int)) 1000 1000000000000
        [⟨1, 4256, 5, -5, 2, 1⟩, ⟨1, 4160, 5, -5, 2, 1⟩, ⟨0, 4256, 5, -5, 2, 1⟩] ch)[j]? =
      ([⟨1, 4256, 5, -5, 2, 1⟩, ⟨1, 4160, 5, -5, 2, 1⟩, ⟨0, 4256, 5, -5, 2, 1⟩] :
        List (CHANNEL_CAL Int))[j]?) ∧
    (∀ j : Nat, (rescaleArray (fun _ => (1 : Int)) 1000 1000000000000
        [⟨1, 4256, 5, -5, 2, 1⟩, ⟨1, 4160, 5, -5, 2, 1⟩, ⟨0, 4256, 5, -5, 2, 1⟩])[j]? =
      (([⟨1, 4256, 5, -5, 2, 1⟩, ⟨1, 4160, 5, -5, 2, 1⟩, ⟨0, 4256, 5, -5, 2, 1⟩] :
        List (CHANNEL_CAL Int))[j]?).map
          (rescaleChannel (fun _ => (1 : Int)) 1000 1000000000000)) :=
  rescaler_frame (fun _ => (1 : Int)) 1000 1000000000000 ⟨0, 4256, 5, -5, 2, 1⟩
    [⟨1, 4256, 5, -5, 2, 1⟩, ⟨1, 4160, 5, -5, 2, 1⟩, ⟨0, 4256, 5, -5, 2, 1⟩]
    (Or.inl (by decide))

/-- After a successful legacy import, imported channel `c` holds the sections
cut at the boundaries. -/
theorem import_ok_channels {α : Type} (PhysDim3 : Nat → String) (BIOSIG_VERSION : Nat)
    (hdr : HDRTYPE α) (R0 : Recording α) (boundary : List Nat) (nsections c : Nat)
    (hseg : segIndexList (sort_eventtable hdr.EVENT) (hdr.NRec * hdr.SPR) =
      some (boundary, nsections))
    (hok : (importBSFile (stfHost α) PhysDim3 BIOSIG_VERSION (some hdr) R0).error = none)
    (hc : c < (hdr.CHANNEL.filter fun k => k.OnOff ≠ 0).length) :
    ∃ ch, (importBSFile (stfHost α) PhysDim3 BIOSIG_VERSION (some hdr) R0).ReturnData[c]?
        = some ch ∧
      ch.SectionArray =
        (List.range nsections).map (sectionAt hdr.data c (hdr.NRec * hdr.SPR) boundary) := by
  simp only [importBSFile] at hok ⊢
  split at hok
  · simp at hok
  · rename_i hfb
    rw [if_neg hfb]
    split at hok
    · simp at hok
    · rename_i herr
      rw [if_neg herr]
      rw [hseg] at hok ⊢
      simp only at hok ⊢
      obtain ⟨_, _, j2⟩ := channelLoop_spec PhysDim3 hdr.data (hdr.NRec * hdr.SPR) boundary
        nsections _ (hdr.CHANNEL.map rescaleCode) 0 R0 _ rfl hok
      exact j2 c (Nat.zero_le _) (by rw [filter_rescale_length]; omega)

theorem flat_of_slices_chan {α : Type} (data : Nat → α) (c SPR : Nat) (Seg : List Nat)
    (h0 : Seg.getD 0 0 = 0) : ∀ n : Nat,
    (∀ j, j < n → Seg.getD j 0 ≤ Seg.getD (j + 1) 0) →
    flatSamples ((List.range n).map (sectionAt data c SPR Seg)) =
      copyRange data (c * SPR) (Seg.getD n 0) := by
  intro n
  induction n with
  | zero =>
    intro _
    rw [h0]
    rfl
  | succ n ih =>
    intro hmono
    have hn := hmono n (by omega)
    have e := ih (fun j hj => hmono j (by omega))
    simp only [flatSamples] at e ⊢
    rw [List.range_succ, List.map_append, List.flatMap_append, e]
    simp only [List.map_cons, List.map_nil, List.flatMap_cons, List.flatMap_nil,
      List.append_nil, sectionAt]
    rw [copyRange_append]
    congr 1
    omega

theorem flatSamples_length_sum {α : Type} (secs : List (Section α)) :
    (flatSamples secs).length = (secs.map Section.size).sum := by
  induction secs with
  | nil => rfl
  | cons s rest ih =>
    simp only [flatSamples, List.flatMap_cons, List.length_append, List.map_cons,
      List.sum_cons, Section.size]
    simp only [flatSamples, Section.size] at ih
    rw [ih]

theorem boundary_ends (events : List Event) (total : Nat) (boundary : List Nat)
    (nsections : Nat) (hseg : segIndexList events total = some (boundary, nsections)) :
    boundary = 0 :: breakPositions events ++ [total] ∧
    nsections = (breakPositions events).length + 1 ∧
    boundary.getD 0 0 = 0 ∧ boundary.getD nsections 0 = total := by
  rw [segIndexList_eq] at hseg
  simp only [Option.some.injEq, Prod.mk.injEq] at hseg
  obtain ⟨h1, h2⟩ := hseg
  subst h1 h2
  refine ⟨rfl, rfl, rfl, ?_⟩
  rw [List.cons_append, List.getD_cons_succ, List.getD_append_right _ _ _ _ (le_refl _)]
  simp

/-- C22. Import partitions each channel: after a successful import with a
non-decreasing segment index list (which runs from 0 to the total `T`), the
concatenation of the sections of imported channel `c`, in section order, is
`flat[c*T], ..., flat[c*T + T - 1]`, and the section lengths sum to `T`. -/
theorem import_partitions {α : Type} (PhysDim3 : Nat → String) (BIOSIG_VERSION : Nat)
    (hdr : HDRTYPE α) (R0 : Recording α) (boundary : List Nat) (nsections c : Nat)
    (hseg : segIndexList (sort_eventtable hdr.EVENT) (hdr.NRec * hdr.SPR) =
      some (boundary, nsections))
    (hmono : ∀ j, j < nsections → boundary.getD j 0 ≤ boundary.getD (j + 1) 0)
    (hok : (importBSFile (stfHost α) PhysDim3 BIOSIG_VERSION (some hdr) R0).error = none)
    (hc : c < (hdr.CHANNEL.filter fun k => k.OnOff ≠ 0).length) :
    boundary.getD 0 0 = 0 ∧ boundary.getD nsections 0 = hdr.NRec * hdr.SPR ∧
    ∃ ch, (importBSFile (stfHost α) PhysDim3 BIOSIG_VERSION (some hdr) R0).ReturnData[c]?
        = some ch ∧
      flatSamples ch.SectionArray =
        copyRange hdr.data (c * (hdr.NRec * hdr.SPR)) (hdr.NRec * hdr.SPR) ∧
      (ch.SectionArray.map Section.size).sum = hdr.NRec * hdr.SPR := by
  obtain ⟨_, _, b0, bT⟩ := boundary_ends _ _ _ _ hseg
  obtain ⟨ch, k1, k2⟩ := import_ok_channels PhysDim3 BIOSIG_VERSION hdr R0 boundary nsections c
    hseg hok hc
  have hflat : flatSamples ch.SectionArray =
      copyRange hdr.data (c * (hdr.NRec * hdr.SPR)) (hdr.NRec * hdr.SPR) := by
    rw [k2, flat_of_slices_chan hdr.data c _ boundary b0 nsections hmono, bT]
  refine ⟨b0, bT, ch, k1, hflat, ?_⟩
  rw [← flatSamples_length_sum, hflat, copyRange_length]

/-- C22 at the example header: imported channel 1 is the second block of ten
samples of the flat buffer. -/
theorem import_partitions_witness :
    ([0, 3, 7, 10] : List Nat).getD 0 0 = 0 ∧
    ([0, 3, 7, 10] : List Nat).getD 3 0 = hdrExample.NRec * hdrExample.SPR ∧
    ∃ ch, (importBSFile (stfHost Nat) (fun _ => "mV") 10600 (some hdrExample) []).ReturnData[1]?
        = some ch ∧
      flatSamples ch.SectionArray =
        copyRange hdrExample.data (1 * (hdrExample.NRec * hdrExample.SPR))
          (hdrExample.NRec * hdrExample.SPR) ∧
      (ch.SectionArray.map Section.size).sum = hdrExample.NRec * hdrExample.SPR :=
  import_partitions (fun _ => "mV") 10600 hdrExample [] [0, 3, 7, 10] 3 1
    (by decide) (by decide) (by decide) (by decide)

theorem channelRate_len_fit {α : Type} (ch : Channel α)
    (h : ∀ s ∈ ch.SectionArray, s.xdiv < 2 ^ 32) (hc : Nat) :
    (channelRate ch.SectionArray (hc, 0)).2 = totalExpanded ch := by
  rw [channelRate_len, totalExpanded, Nat.zero_add]
  congr 1
  apply List.map_congr_left
  intro s hs
  rw [Nat.mod_eq_of_lt (h s hs), Nat.mul_comm]

theorem sum_map_eq_range {α : Type} (f : α → Nat) (l : List α) :
    (l.map f).sum = ((List.range l.length).map fun m =>
      match l[m]? with
      | some s => f s
      | none => 0).sum := by
  induction l with
  | nil => rfl
  | cons a l ih =>
    rw [List.length_cons, List.range_succ_eq_map, List.map_cons, List.map_cons, List.sum_cons,
      List.sum_cons, List.map_map, ih]
    simp only [List.getElem?_cons_zero]
    congr 2
    apply List.map_congr_left
    intro m _
    simp only [Function.comp, Nat.succ_eq_add_one, List.getElem?_cons_succ]

theorem totalExpanded_eq_range {α : Type} (ch : Channel α) :
    totalExpanded ch = ((List.range ch.size).map (expandedLength ch)).sum := by
  unfold totalExpanded Channel.size
  rw [sum_map_eq_range]
  congr 1
  apply List.map_congr_left
  intro m _
  unfold expandedLength
  cases ch.SectionArray[m]? <;> rfl

theorem totalExpanded_of_aligned {α : Type} (a b : Channel α) (hs : a.size = b.size)
    (hl : ∀ m, expandedLength a m = expandedLength b m) :
    totalExpanded a = totalExpanded b := by
  rw [totalExpanded_eq_range, totalExpanded_eq_range, hs]
  congr 1
  apply List.map_congr_left
  intro m _
  exact hl m

theorem rateLoop_succeeds {α : Type} (chans : List (Channel α)) :
    ∀ (k : Nat) (st : RateState),
    (∀ ch ∈ chans, ∀ s ∈ ch.SectionArray, s.xdiv < 2 ^ 32) →
    (k ≠ 0 → ∀ ch ∈ chans, totalExpanded ch = st.NRec) →
    (∀ a ∈ chans, ∀ b ∈ chans, totalExpanded a = totalExpanded b) →
    ∃ st', rateLoop chans k st = .ok st' := by
  induction chans with
  | nil => intro k st _ _ _; exact ⟨st, rfl⟩
  | cons ch rest ih =>
    intro k st hfit hk hall
    have hlen := channelRate_len_fit ch (hfit ch (List.mem_cons_self _ _)) st.SPR
    have hfit' : ∀ c ∈ rest, ∀ s ∈ c.SectionArray, s.xdiv < 2 ^ 32 :=
      fun c hc => hfit c (List.mem_cons_of_mem _ hc)
    have hall' : ∀ a ∈ rest, ∀ b ∈ rest, totalExpanded a = totalExpanded b :=
      fun a ha b hb => hall a (List.mem_cons_of_mem _ ha) b (List.mem_cons_of_mem _ hb)
    simp only [rateLoop]
    by_cases h0 : k = 0
    · rw [if_pos h0]
      apply ih (k + 1) _ hfit' _ hall'
      intro _ c hc
      simp only
      rw [hlen]
      exact hall c (List.mem_cons_of_mem _ hc) ch (List.mem_cons_self _ _)
    · rw [if_neg h0]
      have hch := hk h0 ch (List.mem_cons_self _ _)
      rw [if_neg (by rw [hlen, hch]; simp)]
      apply ih (k + 1) _ hfit' _ hall'
      intro _ c hc
      exact hk h0 c (List.mem_cons_of_mem _ hc)

/-- An aligned recording with 32-bit divisors does not end in a size
mismatch. -/
theorem export_no_mismatch {α β : Type} (enc : α → β) (writerOk : Bool) (Data : Recording α)
    (hne : Data ≠ [])
    (hcount : ∀ a ∈ Data, ∀ b ∈ Data, a.size = b.size)
    (hlen : ∀ a ∈ Data, ∀ b ∈ Data, ∀ m, expandedLength a m = expandedLength b m)
    (hfit : ∀ ch ∈ Data, ∀ s ∈ ch.SectionArray, s.xdiv < 2 ^ 32) :
    ∀ e, (exportBiosigFile enc writerOk Data).error = some e → e.isSizeMismatch = false := by
  obtain ⟨st, hr⟩ := rateLoop_succeeds Data 0 { SPR := 1, hcSPR := [], NRec := 0 } hfit
    (fun h => absurd rfl h)
    (fun a ha b hb => totalExpanded_of_aligned a b (hcount a ha b hb) (hlen a ha b hb))
  have hchk := segmentCheck_of_aligned Data hne hcount hlen
  intro e he
  unfold exportBiosigFile at he
  rw [hr] at he
  simp only at he
  cases hb : blockLayout st.SPR st.hcSPR 0 with
  | none =>
    rw [hb] at he
    simp only [ExportResult.early, Option.some.injEq] at he
    subst he
    rfl
  | some r =>
    rw [hb] at he
    simp only at he
    rw [if_neg (by rw [hchk]; simp)] at he
    simp only at he
    cases writerOk with
    | true => simp at he
    | false =>
      simp only [Bool.false_eq_true, if_false, Option.some.injEq] at he
      subst he
      rfl

/-- An aligned recording with positive 32-bit divisors gets past both checks. -/
theorem export_passes {α β : Type} (enc : α → β) (writerOk : Bool) (Data : Recording α)
    (hne : Data ≠ [])
    (hcount : ∀ a ∈ Data, ∀ b ∈ Data, a.size = b.size)
    (hlen : ∀ a ∈ Data, ∀ b ∈ Data, ∀ m, expandedLength a m = expandedLength b m)
    (hd : divisorsOk Data) :
    (exportBiosigFile enc writerOk Data).opened = true := by
  obtain ⟨st, hr⟩ := rateLoop_succeeds Data 0 { SPR := 1, hcSPR := [], NRec := 0 }
    (fun ch hch s hs => (hd ch hch s hs).2)
    (fun h => absurd rfl h)
    (fun a ha b hb => totalExpanded_of_aligned a b (hcount a ha b hb) (hlen a ha b hb))
  have hchk := segmentCheck_of_aligned Data hne hcount hlen
  obtain ⟨_, a2, _, _, _⟩ := rateLoop_ok Data 0 _ st hd (by decide) (by decide)
    (by simp) hr
  obtain ⟨r, hb⟩ := blockLayout_some st.SPR st.hcSPR 0 a2
  unfold exportBiosigFile
  rw [hr]
  simp only [hb]
  rw [if_neg (by rw [hchk]; simp)]

/-- C23 (as amended). No spurious rejection: for every recording with at
least one channel, all channels with the same number of sections and, at
every section index, the same expanded length, and all divisors below 2^32,
the export does not fail with a size-mismatch error; when the divisors are
also positive it gets past both checks and opens the writer. -/
theorem no_spurious_rejection {α β : Type} (enc : α → β) (writerOk : Bool)
    (Data : Recording α) (hne : Data ≠ [])
    (hcount : ∀ a ∈ Data, ∀ b ∈ Data, a.size = b.size)
    (hlen : ∀ a ∈ Data, ∀ b ∈ Data, ∀ m, expandedLength a m = expandedLength b m)
    (hfit : ∀ ch ∈ Data, ∀ s ∈ ch.SectionArray, s.xdiv < 2 ^ 32) :
    (∀ e, (exportBiosigFile enc writerOk Data).error = some e → e.isSizeMismatch = false) ∧
    (divisorsOk Data → (exportBiosigFile enc writerOk Data).opened = true) :=
  ⟨export_no_mismatch enc writerOk Data hne hcount hlen hfit,
   export_passes enc writerOk Data hne hcount hlen⟩

/-- C23 as stated fails: two channels with one section each and the same
expanded length `2^32 + 2` (divisors `2^32 + 2` and `2^31 + 1`); the
total-length check works with the divisors cut to 32 bits, finds 2 and
`2^32 + 2`, and throws the size mismatch. -/
theorem no_spurious_rejection_counterexample :
    wideDivisorExample.map Channel.size = [1, 1] ∧
    wideDivisorExample.map (fun ch => expandedLength ch 0) = [4294967298, 4294967298] ∧
    (exportBiosigFile (β := Nat) id true wideDivisorExample).error =
      some ExportError.lengthMismatch := by
  decide

/-- C23 at two channels of two sections each with divisor 1. -/
theorem no_spurious_rejection_witness :
    (∀ e, (exportBiosigFile (β := Nat) id true twoChannelSingleRate).error = some e →
      e.isSizeMismatch = false) ∧
    (exportBiosigFile (β := Nat) id true twoChannelSingleRate).opened = true :=
  ⟨(no_spurious_rejection id true twoChannelSingleRate (by decide)
      (segmentCheck_true twoChannelSingleRate (by decide)).2.1
      (segmentCheck_true twoChannelSingleRate (by decide)).2.2 (by decide)).1,
   (no_spurious_rejection id true twoChannelSingleRate (by decide)
      (segmentCheck_true twoChannelSingleRate (by decide)).2.1
      (segmentCheck_true twoChannelSingleRate (by decide)).2.2 (by decide)).2 (by decide)⟩

theorem resize_length {α : Type} (r : Recording α) (n : Nat) (h : r.length < n) :
    (Recording.resize r n).length = n := by
  simp only [Recording.resize, List.length_append, List.length_take, List.length_replicate]
  omega

theorem channelLoop_length {α : Type} (PhysDim3 : Nat → String) (data : Nat → α)
    (SPR : Nat) (Seg : List Nat) (nsections nC : Nat)
    (chans : List CHANNEL_TYPE) : ∀ (NS : Nat) (R : Recording α) (res : ImportResult α),
    channelLoop (stfHost α) PhysDim3 data SPR Seg nsections nC chans NS R = res →
    res.error = none →
    ((chans.filter fun hc => hc.OnOff ≠ 0).length = 0 → res.ReturnData = R) ∧
    (0 < (chans.filter fun hc => hc.OnOff ≠ 0).length →
      res.ReturnData.length = max R.length nC ∧
      NS + (chans.filter fun hc => hc.OnOff ≠ 0).length ≤ res.ReturnData.length) := by
  induction chans with
  | nil =>
    intro NS R res h _
    simp only [channelLoop] at h
    subst h
    exact ⟨fun _ => rfl, fun h => absurd h (by simp)⟩
  | cons hc rest ih =>
    intro NS R res h hok
    simp only [channelLoop] at h
    by_cases hoff : hc.OnOff = 0
    · rw [if_pos hoff] at h
      have e : ((hc :: rest).filter fun hc => hc.OnOff ≠ 0) =
          rest.filter fun hc => hc.OnOff ≠ 0 := by
        rw [List.filter_cons_of_neg (by simpa using hoff)]
      rw [e]
      exact ih NS R res h hok
    · rw [if_neg hoff] at h
      have e : ((hc :: rest).filter fun hc => hc.OnOff ≠ 0).length =
          (rest.filter fun hc => hc.OnOff ≠ 0).length + 1 := by
        rw [List.filter_cons_of_pos (by simpa using hoff), List.length_cons]
      rw [e]
      split at h
      · subst h; simp at hok
      · subst h; simp at hok
      · rename_i ch hsec
        have hR1 : (if R.length < nC then Recording.resize R nC else R).length =
            max R.length nC := by
          split
          · rename_i hlt
            rw [resize_length R nC hlt]
            omega
          · omega
        generalize (if R.length < nC then Recording.resize R nC else R) = R1 at h hR1
        simp only [stfHost, Recording.InsertChannel] at h
        by_cases hpos : NS < R1.length
        · rw [if_pos hpos] at h
          simp only at h
          obtain ⟨j0, j1⟩ := ih (NS + 1) (R1.set NS ch) res h hok
          rw [List.length_set] at j1
          refine ⟨fun h0 => absurd h0 (by omega), fun _ => ?_⟩
          by_cases hc0 : (rest.filter fun hc => hc.OnOff ≠ 0).length = 0
          · rw [j0 hc0, List.length_set, hc0]
            exact ⟨hR1, by omega⟩
          · obtain ⟨a1, a2⟩ := j1 (by omega)
            exact ⟨by rw [a1]; omega, by omega⟩
        · rw [if_neg hpos] at h
          simp only at h
          subst h; simp at hok

theorem filter_on_le (chans : List CHANNEL_TYPE) :
    (chans.filter fun c => c.OnOff = 1).length ≤ (chans.filter fun c => c.OnOff ≠ 0).length := by
  induction chans with
  | nil => simp
  | cons a l ih =>
    by_cases h1 : a.OnOff = 1
    · rw [List.filter_cons_of_pos (by simpa using h1),
        List.filter_cons_of_pos (by simp [h1]), List.length_cons, List.length_cons]
      omega
    · rw [List.filter_cons_of_neg (by simpa using h1)]
      by_cases h0 : a.OnOff = 0
      · rw [List.filter_cons_of_neg (by simpa using h0)]
        exact ih
      · rw [List.filter_cons_of_pos (by simpa using h0), List.length_cons]
        omega

/-- A successful legacy import into an empty recording leaves exactly the
imported channels in it. -/
theorem import_into_empty_length {α : Type} (PhysDim3 : Nat → String) (BIOSIG_VERSION : Nat)
    (hdr : HDRTYPE α)
    (hok : (importBSFile (stfHost α) PhysDim3 BIOSIG_VERSION (some hdr) []).error = none) :
    (importBSFile (stfHost α) PhysDim3 BIOSIG_VERSION (some hdr) []).ReturnData.length =
      (hdr.CHANNEL.filter fun k => k.OnOff ≠ 0).length := by
  have hseg := segIndexList_eq (sort_eventtable hdr.EVENT) (hdr.NRec * hdr.SPR)
  simp only [importBSFile] at hok ⊢
  split at hok
  · simp at hok
  · rename_i hfb
    rw [if_neg hfb]
    split at hok
    · simp at hok
    · rename_i herr
      rw [if_neg herr]
      rw [hseg] at hok ⊢
      simp only at hok ⊢
      obtain ⟨j0, j1⟩ := channelLoop_length PhysDim3 hdr.data (hdr.NRec * hdr.SPR) _ _ _
        (hdr.CHANNEL.map rescaleCode) 0 [] _ rfl hok
      rw [filter_rescale_length] at j0 j1
      by_cases hc0 : (hdr.CHANNEL.filter fun k => k.OnOff ≠ 0).length = 0
      · rw [j0 hc0, hc0]
        rfl
      · obtain ⟨a1, a2⟩ := j1 (by omega)
        have := filter_on_le hdr.CHANNEL
        simp only [List.length_nil] at a1
        omega

theorem expandedLength_sectionAt {α : Type} (ch : Channel α) (data : Nat → α)
    (c SPR n : Nat) (Seg : List Nat)
    (h : ch.SectionArray = (List.range n).map (sectionAt data c SPR Seg)) (m : Nat) :
    expandedLength ch m = if m < n then Seg.getD (m + 1) 0 - Seg.getD m 0 else 0 := by
  unfold expandedLength
  rw [h, List.getElem?_map]
  by_cases hm : m < n
  · rw [if_pos hm, List.getElem?_range hm]
    simp [sectionAt, Section.size, copyRange_length]
  · rw [if_neg hm, List.getElem?_eq_none (by simp; omega)]
    rfl

/-- After a successful legacy import into an empty recording every channel of
the result is one of the imported channels. -/
theorem import_into_empty_channels {α : Type} (PhysDim3 : Nat → String)
    (BIOSIG_VERSION : Nat) (hdr : HDRTYPE α) (boundary : List Nat) (nsections : Nat)
    (hseg : segIndexList (sort_eventtable hdr.EVENT) (hdr.NRec * hdr.SPR) =
      some (boundary, nsections))
    (hok : (importBSFile (stfHost α) PhysDim3 BIOSIG_VERSION (some hdr) []).error = none) :
    ∀ ch ∈ (importBSFile (stfHost α) PhysDim3 BIOSIG_VERSION (some hdr) []).ReturnData,
      ∃ c, ch.SectionArray =
        (List.range nsections).map (sectionAt hdr.data c (hdr.NRec * hdr.SPR) boundary) := by
  intro ch hch
  obtain ⟨c, hc⟩ := List.mem_iff_getElem?.mp hch
  have hlt : c < (importBSFile (stfHost α) PhysDim3 BIOSIG_VERSION (some hdr)
      []).ReturnData.length := by
    by_contra hge
    rw [List.getElem?_eq_none (by omega)] at hc
    cases hc
  rw [import_into_empty_length PhysDim3 BIOSIG_VERSION hdr hok] at hlt
  obtain ⟨ch2, k1, k2⟩ := import_ok_channels PhysDim3 BIOSIG_VERSION hdr [] boundary
    nsections c hseg hok hlt
  rw [hc] at k1
  cases k1
  exact ⟨c, k2⟩

/-- C21 (as amended). Import establishes segment alignment: after every
successful legacy import into an empty recording, every channel of the
recording has `nsections` sections, the number of break markers plus one;
at every section index `s` every channel has a section of length
`boundary[s+1] - boundary[s]` with x-scale divisor 1; hence the recording,
when it has at least one channel, gets past both size checks of
`exportBiosigFile` and the output is opened. -/
theorem import_alignment {α β : Type} (enc : α → β) (writerOk : Bool)
    (PhysDim3 : Nat → String) (BIOSIG_VERSION : Nat) (hdr : HDRTYPE α)
    (boundary : List Nat) (nsections : Nat)
    (hseg : segIndexList (sort_eventtable hdr.EVENT) (hdr.NRec * hdr.SPR) =
      some (boundary, nsections))
    (hok : (importBSFile (stfHost α) PhysDim3 BIOSIG_VERSION (some hdr) []).error = none) :
    nsections = (breakPositions (sort_eventtable hdr.EVENT)).length + 1 ∧
    (∀ ch ∈ (importBSFile (stfHost α) PhysDim3 BIOSIG_VERSION (some hdr) []).ReturnData,
      ch.size = nsections ∧
      ∀ s, s < nsections → ∃ sec, ch.SectionArray[s]? = some sec ∧
        sec.size = boundary.getD (s + 1) 0 - boundary.getD s 0 ∧ sec.xdiv = 1) ∧
    ((importBSFile (stfHost α) PhysDim3 BIOSIG_VERSION (some hdr) []).ReturnData ≠ [] →
      (exportBiosigFile enc writerOk
        (importBSFile (stfHost α) PhysDim3 BIOSIG_VERSION (some hdr) []).ReturnData).opened
        = true) := by
  have hall := import_into_empty_channels PhysDim3 BIOSIG_VERSION hdr boundary nsections
    hseg hok
  refine ⟨?_, ?_, ?_⟩
  · rw [segIndexList_eq] at hseg
    simp only [Option.some.injEq, Prod.mk.injEq] at hseg
    exact hseg.2.symm
  · intro ch hch
    obtain ⟨c, hc⟩ := hall ch hch
    refine ⟨by simp [Channel.size, hc], fun s hs => ?_⟩
    refine ⟨sectionAt hdr.data c (hdr.NRec * hdr.SPR) boundary s, ?_, ?_, rfl⟩
    · rw [hc, List.getElem?_map, List.getElem?_range hs]
      rfl
    · simp [sectionAt, Section.size, copyRange_length]
  · intro hne
    apply export_passes enc writerOk _ hne
    · intro a ha b hb
      obtain ⟨ca, hca⟩ := hall a ha
      obtain ⟨cb, hcb⟩ := hall b hb
      simp [Channel.size, hca, hcb]
    · intro a ha b hb m
      obtain ⟨ca, hca⟩ := hall a ha
      obtain ⟨cb, hcb⟩ := hall b hb
      rw [expandedLength_sectionAt a _ _ _ _ _ hca, expandedLength_sectionAt b _ _ _ _ _ hcb]
    · intro ch hch s hs
      obtain ⟨c, hc⟩ := hall ch hch
      rw [hc] at hs
      obtain ⟨m, _, hm⟩ := List.mem_map.mp hs
      subst hm
      simp [sectionAt]

/-- C21 at `hdrExample` imported into an empty recording: three sections
cut at `[0, 3, 7, 10]` in both imported channels, and export opens. -/
theorem import_alignment_witness :
    3 = (breakPositions (sort_eventtable hdrExample.EVENT)).length + 1 ∧
    (∀ ch ∈ (importBSFile (stfHost Nat) (fun _ => "mV") 10500 (some hdrExample) []).ReturnData,
      ch.size = 3 ∧
      ∀ s, s < 3 → ∃ sec, ch.SectionArray[s]? = some sec ∧
        sec.size = [0, 3, 7, 10].getD (s + 1) 0 - [0, 3, 7, 10].getD s 0 ∧ sec.xdiv = 1) ∧
    ((importBSFile (stfHost Nat) (fun _ => "mV") 10500 (some hdrExample) []).ReturnData ≠ [] →
      (exportBiosigFile (β := Nat) id true
        (importBSFile (stfHost Nat) (fun _ => "mV") 10500 (some hdrExample) []).ReturnData).opened
        = true) :=
  import_alignment id true (fun _ => "mV") 10500 hdrExample [0, 3, 7, 10] 3 (by decide)
    (by decide)

/-- C21 as stated fails: importing the one-channel file `flatExample` (one
break marker, two sections) into a recording that already holds two channels,
the second with five sections, succeeds and leaves the second channel in
place, so the channels have 2 and 5 sections and export of the result is
rejected with a size mismatch. -/
theorem import_alignment_counterexample :
    (importBSFile (stfHost Nat) (fun _ => "mV") 10500 (some flatExample)
      [Channel.ofSize Nat 0, Channel.ofSize Nat 5]).error = none ∧
    (importBSFile (stfHost Nat) (fun _ => "mV") 10500 (some flatExample)
      [Channel.ofSize Nat 0, Channel.ofSize Nat 5]).ReturnData.map Channel.size = [2, 5] ∧
    ((exportBiosigFile (β := Nat) id true
      (importBSFile (stfHost Nat) (fun _ => "mV") 10500 (some flatExample)
        [Channel.ofSize Nat 0, Channel.ofSize Nat 5]).ReturnData).error.map
          ExportError.isSizeMismatch) = some true := by
  decide

/-- C26 fails. Resource release on every exit path: the exits of
`importBSFile` on which nothing stays allocated are the normal return, the
empty header, the fallback and the reader error; when section or channel
insertion throws, the catch block releases the handle and `SegIndexList`
stays allocated (here: the legacy import of `onOffTwoExample`, whose
`InsertChannel` throws, and the libbiosig2 import of `hdrExample` on a host
whose `InsertSection` throws).  In the libbiosig2 export a writer that cannot
be opened leaves `rawdata` allocated (here: `twoChannelSingleRate`); the
size-mismatch exits and the normal return of both export branches release
everything. -/
theorem resource_release_paths :
    (∀ e, held (importResources e) = [] ↔
      (e = none ∨ e = some .headerEmpty ∨ e = some .fallback ∨ e = some .readerError)) ∧
    ((importBSFile (stfHost Nat) (fun _ => "mV") 10500 (some onOffTwoExample) []).error
        = some .insertChannel ∧
      held (importResources
        (importBSFile (stfHost Nat) (fun _ => "mV") 10500 (some onOffTwoExample) []).error)
        = [.segIndexList]) ∧
    ((importBSFile2 (failingHost Nat) (fun _ => "mV") 3 (some hdrExample) []).error
        = some .insertSection ∧
      held (importResources
        (importBSFile2 (failingHost Nat) (fun _ => "mV") 3 (some hdrExample) []).error)
        = [.segIndexList]) ∧
    ((exportBiosigFile2 (β := Nat) id false twoChannelSingleRate).error
        = some .writerFailure ∧
      held (exportResources2
        (exportBiosigFile2 (β := Nat) id false twoChannelSingleRate).error) = [.rawdata]) ∧
    (∀ e, held (exportResources2 e) = [] ↔
      (e ≠ some .writerFailure ∧ e ≠ some .divideByZero)) ∧
    (∀ e, held (exportResources e) = [] ↔ e ≠ some .divideByZero) := by
  refine ⟨?_, by decide, by decide, by decide, ?_, ?_⟩
  · intro e
    cases e with
    | none => decide
    | some e => cases e <;> decide
  · intro e
    cases e with
    | none => decide
    | some e => cases e <;> decide
  · intro e
    cases e with
    | none => decide
    | some e => cases e <;> decide

/-- C10 fails. Import failure atomicity: with a break marker at position 15
and ten samples per channel the boundaries are `[0, 15, 10]`; section 1 of
the first channel is built, the length of section 2 wraps and the `Section`
constructor throws outside the `try` blocks, so no `resize(0)` runs: the
call fails and the recording still holds the channel (of five sections) it
held before the call, in both branches. -/
theorem import_failure_unreset_failing_input :
    segIndexList (sort_eventtable lateMarkerExample.EVENT)
      (lateMarkerExample.NRec * lateMarkerExample.SPR) = some ([0, 15, 10], 2) ∧
    (importBSFile (stfHost Nat) (fun _ => "mV") 10600 (some lateMarkerExample)
      [Channel.ofSize Nat 5]).error = some ImportError.sectionAlloc ∧
    (importBSFile (stfHost Nat) (fun _ => "mV") 10600 (some lateMarkerExample)
      [Channel.ofSize Nat 5]).ReturnData = [Channel.ofSize Nat 5] ∧
    (importBSFile2 (stfHost Nat) (fun _ => "mV") 2 (some lateMarkerExample)
      [Channel.ofSize Nat 5]).error = some ImportError.sectionAlloc ∧
    (importBSFile2 (stfHost Nat) (fun _ => "mV") 2 (some lateMarkerExample)
      [Channel.ofSize Nat 5]).ReturnData = [Channel.ofSize Nat 5] := by
  decide

theorem resize_or_keep_length {α : Type} (R : Recording α) (n : Nat) :
    (if R.length < n then Recording.resize R n else R).length = max R.length n := by
  split
  · rename_i hlt
    rw [resize_length R n hlt]
    omega
  · omega

theorem tempChannel_sections {α : Type} (data : Nat → α) (NS SPR : Nat) (Seg : List Nat)
    (nsections : Nat) (name units : String)
    (hmono : ∀ j, j < nsections → Seg.getD j 0 ≤ Seg.getD (j + 1) 0) :
    ∃ ch', sectionLoop (stfHost α) data NS SPR Seg (List.range' 1 nsections)
      ({ Channel.ofSize α nsections with ChannelName := name, YUnits := units } : Channel α)
        = .ok ch' := by
  apply sectionLoop_succeeds
  intro ns hns
  obtain ⟨a1, a2⟩ := List.mem_range'_1.mp hns
  have := hmono (ns - 1) (by omega)
  rw [show ns - 1 + 1 = ns by omega] at this
  exact ⟨by simp [Channel.ofSize]; omega, this⟩

/-- The legacy channel loop on the host model completes when the boundaries
do not decrease and the recording has, or is resized to, a slot for every
channel that is not switched off. -/
theorem channelLoop_succeeds {α : Type} (PhysDim3 : Nat → String) (data : Nat → α)
    (SPR : Nat) (Seg : List Nat) (nsections nC : Nat)
    (hmono : ∀ j, j < nsections → Seg.getD j 0 ≤ Seg.getD (j + 1) 0)
    (chans : List CHANNEL_TYPE) : ∀ (NS : Nat) (R : Recording α),
    NS + (chans.filter fun hc => hc.OnOff ≠ 0).length ≤ max R.length nC →
    (channelLoop (stfHost α) PhysDim3 data SPR Seg nsections nC chans NS R).error = none := by
  induction chans with
  | nil => intro NS R _; rfl
  | cons hc rest ih =>
    intro NS R h
    by_cases hoff : hc.OnOff = 0
    · rw [List.filter_cons_of_neg (by simpa using hoff)] at h
      simp only [channelLoop]
      rw [if_pos hoff]
      exact ih NS R h
    · rw [List.filter_cons_of_pos (by simpa using hoff), List.length_cons] at h
      obtain ⟨chx, hsec⟩ := tempChannel_sections data NS SPR Seg nsections hc.Label
        (PhysDim3 hc.PhysDimCode) hmono
      simp only [channelLoop]
      rw [if_neg hoff, hsec]
      simp only
      have hR1 := resize_or_keep_length R nC
      generalize (if R.length < nC then Recording.resize R nC else R) = R1 at hR1
      simp only [stfHost, Recording.InsertChannel]
      rw [if_pos (by omega)]
      simp only
      apply ih
      rw [List.length_set]
      omega

/-- The libbiosig2 channel loop on the host model completes when the
boundaries do not decrease and the recording has, or is resized to, a slot
for every channel header. -/
theorem channelLoop2_succeeds {α : Type} (physdim : Nat → String) (data : Nat → α)
    (SPR : Nat) (Seg : List Nat) (nsections nC : Nat)
    (hmono : ∀ j, j < nsections → Seg.getD j 0 ≤ Seg.getD (j + 1) 0)
    (chans : List CHANNEL_TYPE) : ∀ (NS : Nat) (R : Recording α),
    NS + chans.length ≤ max R.length nC →
    (channelLoop2 (stfHost α) physdim data SPR Seg nsections nC chans NS R).error = none := by
  induction chans with
  | nil => intro NS R _; rfl
  | cons hc rest ih =>
    intro NS R h
    rw [List.length_cons] at h
    obtain ⟨chx, hsec⟩ := tempChannel_sections data NS SPR Seg nsections hc.Label
      (physdim hc.PhysDimCode) hmono
    simp only [channelLoop2]
    rw [hsec]
    simp only
    have hR1 := resize_or_keep_length R nC
    generalize (if R.length < nC then Recording.resize R nC else R) = R1 at hR1
    simp only [stfHost, Recording.InsertChannel]
    rw [if_pos (by omega)]
    simp only
    apply ih
    rw [List.length_set]
    omega

/-- Section `s` of a channel assembled by the section loop as channel `c`. -/
theorem sectionAt_samples {α : Type} (data : Nat → α) (c SPR : Nat) (boundary : List Nat)
    (nsections s : Nat) (hs : s < nsections) (ch : Channel α)
    (k2 : ch.SectionArray = (List.range nsections).map (sectionAt data c SPR boundary)) :
    ∃ sec, ch.SectionArray[s]? = some sec ∧
      sec.data.length = boundary.getD (s + 1) 0 - boundary.getD s 0 ∧
      ∀ i, i < boundary.getD (s + 1) 0 - boundary.getD s 0 →
        sec.data[i]? = some (data (c * SPR + boundary.getD s 0 + i)) := by
  refine ⟨sectionAt data c SPR boundary s, ?_, ?_, ?_⟩
  · rw [k2]
    simp [List.getElem?_map, List.getElem?_range hs]
  · simp [sectionAt, copyRange_length]
  · intro i hi
    simp only [sectionAt]
    rw [copyRange_getElem? _ _ _ _ hi]

/-- After a successful libbiosig2 import, imported channel `c` holds the
sections cut at the boundaries. -/
theorem import2_ok_channels {α : Type} (physdim : Nat → String) (nsegments : Nat)
    (hdr : HDRTYPE α) (R0 : Recording α) (boundary : List Nat) (nsections c : Nat)
    (hseg : segIndexList2 nsegments (sort_eventtable hdr.EVENT) (hdr.NRec * hdr.SPR) =
      some (boundary, nsections))
    (hok : (importBSFile2 (stfHost α) physdim nsegments (some hdr) R0).error = none)
    (hc : c < hdr.CHANNEL.length) :
    ∃ ch, (importBSFile2 (stfHost α) physdim nsegments (some hdr) R0).ReturnData[c]?
        = some ch ∧
      ch.SectionArray =
        (List.range nsections).map (sectionAt hdr.data c (hdr.NRec * hdr.SPR) boundary) := by
  simp only [importBSFile2] at hok ⊢
  split at hok
  · simp at hok
  · rename_i hfb
    rw [if_neg hfb]
    split at hok
    · simp at hok
    · rename_i herr
      rw [if_neg herr]
      rw [hseg] at hok ⊢
      simp only at hok ⊢
      obtain ⟨_, _, j2⟩ := channelLoop2_spec physdim hdr.data (hdr.NRec * hdr.SPR) boundary
        nsections _ (hdr.CHANNEL.map rescaleCode2) 0 R0 _ rfl hok
      exact j2 c (Nat.zero_le _) (by rw [List.length_map]; omega)

/-- The legacy import on the host model succeeds for a header without reader
error when the boundaries do not decrease and the recording has, or is
resized to, a slot for every channel that is not switched off. -/
theorem import_succeeds {α : Type} (PhysDim3 : Nat → String) (BIOSIG_VERSION : Nat)
    (hdr : HDRTYPE α) (R0 : Recording α) (boundary : List Nat) (nsections : Nat)
    (hseg : segIndexList (sort_eventtable hdr.EVENT) (hdr.NRec * hdr.SPR) =
      some (boundary, nsections))
    (habf : hdr.isABF = false ∨ 10501 ≤ BIOSIG_VERSION) (herr : hdr.B4C_ERRNUM = 0)
    (hmono : ∀ j, j < nsections → boundary.getD j 0 ≤ boundary.getD (j + 1) 0)
    (hroom : (hdr.CHANNEL.filter fun k => k.OnOff ≠ 0).length ≤
      max R0.length (numberOfChannels hdr.CHANNEL)) :
    (importBSFile (stfHost α) PhysDim3 BIOSIG_VERSION (some hdr) R0).error = none := by
  have hfb : ¬ (hdr.isABF = true ∧ (BIOSIG_VERSION < 10501 ∨ hdr.B4C_ERRNUM ≠ 0)) := by
    rintro ⟨h1, h2⟩
    rcases habf with h | h
    · rw [h] at h1; cases h1
    · rcases h2 with h2 | h2
      · omega
      · exact h2 herr
  simp only [importBSFile]
  rw [if_neg hfb, if_neg (by simpa using herr), hseg]
  simp only
  apply channelLoop_succeeds _ _ _ _ _ _ hmono
  rw [filter_rescale_length, Nat.zero_add]
  exact hroom

/-- The libbiosig2 import on the host model succeeds for a header without
reader error when the boundaries do not decrease. -/
theorem import2_succeeds {α : Type} (physdim : Nat → String) (nsegments : Nat)
    (hdr : HDRTYPE α) (R0 : Recording α) (boundary : List Nat) (nsections : Nat)
    (hseg : segIndexList2 nsegments (sort_eventtable hdr.EVENT) (hdr.NRec * hdr.SPR) =
      some (boundary, nsections))
    (herr : hdr.B4C_ERRNUM = 0)
    (hmono : ∀ j, j < nsections → boundary.getD j 0 ≤ boundary.getD (j + 1) 0) :
    (importBSFile2 (stfHost α) physdim nsegments (some hdr) R0).error = none := by
  simp only [importBSFile2]
  rw [if_neg (by simp [herr]), if_neg (by simpa using herr), hseg]
  simp only
  apply channelLoop2_succeeds _ _ _ _ _ _ hmono
  rw [List.length_map]
  omega

/-- C2. Section Builder, in both branches.  The import succeeds for a header
without reader error whose boundaries do not decrease (in the legacy branch:
when the recording has, or is resized to, a slot for every channel that is
not switched off); and after every successful import, for every imported
channel index `c` (counted over the channels actually imported) and every
section index `s` below the section count, section `s` of channel `c` of the
recording has exactly `boundary[s+1] - boundary[s]` samples and its sample
`i` is `flat[c*SPR + boundary[s] + i]`, where `SPR = NRec*SPR` is the number
of samples per channel and `boundary` the segment index list.  First
conjunct: legacy branch (channels with `OnOff != 0`); second: libbiosig2
branch (all channels). -/
theorem section_builder_samples {α : Type} (PhysDim3 : Nat → String)
    (BIOSIG_VERSION nsegments : Nat) (hdr : HDRTYPE α) (R0 : Recording α)
    (boundary : List Nat) (nsections c s : Nat) (hs : s < nsections) :
    (segIndexList (sort_eventtable hdr.EVENT) (hdr.NRec * hdr.SPR) =
        some (boundary, nsections) →
      ((hdr.isABF = false ∨ 10501 ≤ BIOSIG_VERSION) → hdr.B4C_ERRNUM = 0 →
        (∀ j, j < nsections → boundary.getD j 0 ≤ boundary.getD (j + 1) 0) →
        (hdr.CHANNEL.filter fun k => k.OnOff ≠ 0).length ≤
          max R0.length (numberOfChannels hdr.CHANNEL) →
        (importBSFile (stfHost α) PhysDim3 BIOSIG_VERSION (some hdr) R0).error = none) ∧
      ((importBSFile (stfHost α) PhysDim3 BIOSIG_VERSION (some hdr) R0).error = none →
        c < (hdr.CHANNEL.filter fun k => k.OnOff ≠ 0).length →
        ∃ ch sec,
          (importBSFile (stfHost α) PhysDim3 BIOSIG_VERSION (some hdr) R0).ReturnData[c]?
            = some ch ∧
          ch.SectionArray[s]? = some sec ∧
          sec.data.length = boundary.getD (s + 1) 0 - boundary.getD s 0 ∧
          ∀ i, i < boundary.getD (s + 1) 0 - boundary.getD s 0 →
            sec.data[i]? =
              some (hdr.data (c * (hdr.NRec * hdr.SPR) + boundary.getD s 0 + i)))) ∧
    (segIndexList2 nsegments (sort_eventtable hdr.EVENT) (hdr.NRec * hdr.SPR) =
        some (boundary, nsections) →
      (hdr.B4C_ERRNUM = 0 →
        (∀ j, j < nsections → boundary.getD j 0 ≤ boundary.getD (j + 1) 0) →
        (importBSFile2 (stfHost α) PhysDim3 nsegments (some hdr) R0).error = none) ∧
      ((importBSFile2 (stfHost α) PhysDim3 nsegments (some hdr) R0).error = none →
        c < hdr.CHANNEL.length →
        ∃ ch sec,
          (importBSFile2 (stfHost α) PhysDim3 nsegments (some hdr) R0).ReturnData[c]?
            = some ch ∧
          ch.SectionArray[s]? = some sec ∧
          sec.data.length = boundary.getD (s + 1) 0 - boundary.getD s 0 ∧
          ∀ i, i < boundary.getD (s + 1) 0 - boundary.getD s 0 →
            sec.data[i]? =
              some (hdr.data (c * (hdr.NRec * hdr.SPR) + boundary.getD s 0 + i)))) := by
  constructor
  · intro hseg
    refine ⟨fun habf herr hmono hroom =>
      import_succeeds PhysDim3 BIOSIG_VERSION hdr R0 boundary nsections hseg habf herr
        hmono hroom, fun hok hc => ?_⟩
    obtain ⟨ch, k1, k2⟩ := import_ok_channels PhysDim3 BIOSIG_VERSION hdr R0 boundary
      nsections c hseg hok hc
    obtain ⟨sec, k3⟩ := sectionAt_samples hdr.data c (hdr.NRec * hdr.SPR) boundary
      nsections s hs ch k2
    exact ⟨ch, sec, k1, k3⟩
  · intro hseg
    refine ⟨fun herr hmono =>
      import2_succeeds PhysDim3 nsegments hdr R0 boundary nsections hseg herr hmono,
      fun hok hc => ?_⟩
    obtain ⟨ch, k1, k2⟩ := import2_ok_channels PhysDim3 nsegments hdr R0 boundary
      nsections c hseg hok hc
    obtain ⟨sec, k3⟩ := sectionAt_samples hdr.data c (hdr.NRec * hdr.SPR) boundary
      nsections s hs ch k2
    exact ⟨ch, sec, k1, k3⟩

/-- C2 at the example header, imported channel 1, section 1, in both
branches: both imports succeed; in the legacy branch channel 1 is the third
header and its section 1 holds the 4 samples 113, 114, 115, 116 of the flat
buffer; in the libbiosig2 branch channel 1 is the second header and its
section 1 holds the same 4 cells of block 1. -/
theorem section_builder_samples_witness :
    ((importBSFile (stfHost Nat) (fun _ => "mV") 10600 (some hdrExample) []).error = none ∧
      ∃ ch sec,
        (importBSFile (stfHost Nat) (fun _ => "mV") 10600 (some hdrExample) []).ReturnData[1]?
          = some ch ∧
        ch.SectionArray[1]? = some sec ∧
        sec.data.length = [0, 3, 7, 10].getD (1 + 1) 0 - [0, 3, 7, 10].getD 1 0 ∧
        ∀ i, i < [0, 3, 7, 10].getD (1 + 1) 0 - [0, 3, 7, 10].getD 1 0 →
          sec.data[i]? = some (hdrExample.data
            (1 * (hdrExample.NRec * hdrExample.SPR) + [0, 3, 7, 10].getD 1 0 + i))) ∧
    ((importBSFile2 (stfHost Nat) (fun _ => "mV") 3 (some hdrExample) []).error = none ∧
      ∃ ch sec,
        (importBSFile2 (stfHost Nat) (fun _ => "mV") 3 (some hdrExample) []).ReturnData[1]?
          = some ch ∧
        ch.SectionArray[1]? = some sec ∧
        sec.data.length = [0, 3, 7, 10].getD (1 + 1) 0 - [0, 3, 7, 10].getD 1 0 ∧
        ∀ i, i < [0, 3, 7, 10].getD (1 + 1) 0 - [0, 3, 7, 10].getD 1 0 →
          sec.data[i]? = some (hdrExample.data
            (1 * (hdrExample.NRec * hdrExample.SPR) + [0, 3, 7, 10].getD 1 0 + i))) :=
  ⟨⟨((section_builder_samples (fun _ => "mV") 10600 3 hdrExample [] [0, 3, 7, 10] 3 1 1
        (by decide)).1 (by decide)).1 (Or.inl rfl) rfl (by decide) (by decide),
    ((section_builder_samples (fun _ => "mV") 10600 3 hdrExample [] [0, 3, 7, 10] 3 1 1
        (by decide)).1 (by decide)).2 (by decide) (by decide)⟩,
   ⟨((section_builder_samples (fun _ => "mV") 10600 3 hdrExample [] [0, 3, 7, 10] 3 1 1
        (by decide)).2 (by decide)).1 rfl (by decide),
    ((section_builder_samples (fun _ => "mV") 10600 3 hdrExample [] [0, 3, 7, 10] 3 1 1
        (by decide)).2 (by decide)).2 (by decide) (by decide)⟩⟩

end stfio
